import Mathlib

/-
Verification development for the Kolibri runtime (kolibri_clean_v4).

Shallow embedding of the Python sources into Lean 4:
  * Python dicts that flow into JSON are modelled as ordered association
    lists (insertion order preserved, as in CPython); JSON-able values are
    the inductive `JValue` (Python floats appearing in payloads are
    modelled as exact rationals or integers where they occur).
  * SHA-256 is modelled as an abstract hash parameter `H : String → String`:
    every claim settled here depends only on the hash being a fixed
    function of the canonical serialization, not on SHA-256 internals.
  * Exceptions are modelled with `Except String`.
  * Mutable object state is passed explicitly.

Sections follow the source files:
  kolibri_x/runtime/journal.py, kolibri_x/runtime/orchestrator.py,
  kolibri_x/core/planner.py, kolibri_x/kg/graph.py,
  kolibri_x/privacy/consent.py, kolibri_x/personalization/empathy.py
  and kolibri_x/runtime/cache.py.
-/

/-- Code-point comparison of characters, as Python compares strings. -/
def charLtb (a b : Char) : Bool := a.toNat < b.toNat

/-- Strict lexicographic order on character lists (Python string `<`). -/
def charsLtb : List Char → List Char → Bool
  | [], [] => false
  | [], _ :: _ => true
  | _ :: _, [] => false
  | a :: as, b :: bs =>
      if charLtb a b then true
      else if charLtb b a then false
      else charsLtb as bs

/-- Python string `<` (lexicographic on code points). -/
def strLtb (a b : String) : Bool := charsLtb a.data b.data

/-- Python string `<=`. -/
def strLeb (a b : String) : Bool := !(strLtb b a)

/-- JSON-able values as produced by the Python runtime. -/
inductive JValue where
  | jnull
  | jbool (b : Bool)
  | jnum (n : Int)
  | jstr (s : String)
  | jarr (xs : List JValue)
  | jobj (fields : List (String × JValue))

mutual

/-- Boolean structural equality on `JValue`. -/
def JValue.beq : JValue → JValue → Bool
  | .jnull, .jnull => true
  | .jbool a, .jbool b => a == b
  | .jnum a, .jnum b => a == b
  | .jstr a, .jstr b => a == b
  | .jarr a, .jarr b => JValue.beqL a b
  | .jobj a, .jobj b => JValue.beqF a b
  | _, _ => false

/-- Boolean equality on `JValue` lists. -/
def JValue.beqL : List JValue → List JValue → Bool
  | [], [] => true
  | x :: xs, y :: ys => JValue.beq x y && JValue.beqL xs ys
  | _, _ => false

/-- Boolean equality on `JValue` field lists. -/
def JValue.beqF : List (String × JValue) → List (String × JValue) → Bool
  | [], [] => true
  | x :: xs, y :: ys => (x.1 == y.1) && JValue.beq x.2 y.2 && JValue.beqF xs ys
  | _, _ => false

end

mutual

theorem JValue.beq_iff : ∀ a b : JValue, JValue.beq a b = true ↔ a = b
  | .jnull, .jnull => by simp [JValue.beq]
  | .jnull, .jbool _ => by simp [JValue.beq]
  | .jnull, .jnum _ => by simp [JValue.beq]
  | .jnull, .jstr _ => by simp [JValue.beq]
  | .jnull, .jarr _ => by simp [JValue.beq]
  | .jnull, .jobj _ => by simp [JValue.beq]
  | .jbool _, .jnull => by simp [JValue.beq]
  | .jbool a, .jbool b => by simp [JValue.beq]
  | .jbool _, .jnum _ => by simp [JValue.beq]
  | .jbool _, .jstr _ => by simp [JValue.beq]
  | .jbool _, .jarr _ => by simp [JValue.beq]
  | .jbool _, .jobj _ => by simp [JValue.beq]
  | .jnum _, .jnull => by simp [JValue.beq]
  | .jnum _, .jbool _ => by simp [JValue.beq]
  | .jnum a, .jnum b => by simp [JValue.beq]
  | .jnum _, .jstr _ => by simp [JValue.beq]
  | .jnum _, .jarr _ => by simp [JValue.beq]
  | .jnum _, .jobj _ => by simp [JValue.beq]
  | .jstr _, .jnull => by simp [JValue.beq]
  | .jstr _, .jbool _ => by simp [JValue.beq]
  | .jstr _, .jnum _ => by simp [JValue.beq]
  | .jstr a, .jstr b => by simp [JValue.beq]
  | .jstr _, .jarr _ => by simp [JValue.beq]
  | .jstr _, .jobj _ => by simp [JValue.beq]
  | .jarr _, .jnull => by simp [JValue.beq]
  | .jarr _, .jbool _ => by simp [JValue.beq]
  | .jarr _, .jnum _ => by simp [JValue.beq]
  | .jarr _, .jstr _ => by simp [JValue.beq]
  | .jarr a, .jarr b => by
      simp only [JValue.beq, JValue.beqL_iff a b, JValue.jarr.injEq]
  | .jarr _, .jobj _ => by simp [JValue.beq]
  | .jobj _, .jnull => by simp [JValue.beq]
  | .jobj _, .jbool _ => by simp [JValue.beq]
  | .jobj _, .jnum _ => by simp [JValue.beq]
  | .jobj _, .jstr _ => by simp [JValue.beq]
  | .jobj _, .jarr _ => by simp [JValue.beq]
  | .jobj a, .jobj b => by
      simp only [JValue.beq, JValue.beqF_iff a b, JValue.jobj.injEq]

theorem JValue.beqL_iff : ∀ a b : List JValue, JValue.beqL a b = true ↔ a = b
  | [], [] => by simp [JValue.beqL]
  | [], _ :: _ => by simp [JValue.beqL]
  | _ :: _, [] => by simp [JValue.beqL]
  | x :: xs, y :: ys => by
      simp [JValue.beqL, JValue.beq_iff x y, JValue.beqL_iff xs ys,
        Bool.and_eq_true]

theorem JValue.beqF_iff :
    ∀ a b : List (String × JValue), JValue.beqF a b = true ↔ a = b
  | [], [] => by simp [JValue.beqF]
  | [], _ :: _ => by simp [JValue.beqF]
  | _ :: _, [] => by simp [JValue.beqF]
  | x :: xs, y :: ys => by
      simp only [JValue.beqF, Bool.and_eq_true, beq_iff_eq,
        JValue.beq_iff x.2 y.2, JValue.beqF_iff xs ys, List.cons.injEq]
      constructor
      · rintro ⟨⟨h1, h2⟩, h3⟩
        exact ⟨Prod.ext h1 h2, h3⟩
      · rintro ⟨h, h3⟩
        exact ⟨⟨congrArg Prod.fst h, congrArg Prod.snd h⟩, h3⟩

end

instance : DecidableEq JValue := fun a b =>
  decidable_of_iff (JValue.beq a b = true) (JValue.beq_iff a b)

/-- Insert a field into a key-sorted field list (stable insertion). -/
def insortKey (x : String × JValue) :
    List (String × JValue) → List (String × JValue)
  | [] => [x]
  | y :: ys => if strLeb x.1 y.1 then x :: y :: ys else y :: insortKey x ys

/-- Stable sort of a field list by key, as `sorted(mapping.items())` in
Python (dict keys are unique, so comparison never reaches the values). -/
def sortFields : List (String × JValue) → List (String × JValue)
  | [] => []
  | x :: xs => insortKey x (sortFields xs)

mutual

/-- `journal._canonical_payload` from kolibri_x/runtime/journal.py:
recursively sort mapping keys and normalise values (datetimes are already
modelled as their ISO-8601 strings, and list/tuple/set become arrays).
The source sorts the items first and then normalises each value; both
orders agree because normalisation keeps keys, so we normalise first to
keep the recursion structural. -/
def canonicalJ : JValue → JValue
  | .jobj fields => .jobj (sortFields (canonicalF fields))
  | .jarr xs => .jarr (canonicalL xs)
  | v => v

/-- Normalise the values of a field list. -/
def canonicalF : List (String × JValue) → List (String × JValue)
  | [] => []
  | kv :: rest => (kv.1, canonicalJ kv.2) :: canonicalF rest

/-- Normalise each element of an array. -/
def canonicalL : List JValue → List JValue
  | [] => []
  | v :: rest => canonicalJ v :: canonicalL rest

end

/-- Top-level canonicalisation of a payload mapping. -/
def canonicalFields (l : List (String × JValue)) : List (String × JValue) :=
  sortFields (canonicalF l)

/-- JSON string escaping (the characters relevant to this codebase). -/
def escChar (c : Char) : String :=
  if c = '"' then "\\\""
  else if c = '\\' then "\\\\"
  else if c = '\n' then "\\n"
  else if c = '\t' then "\\t"
  else if c = '\r' then "\\r"
  else String.singleton c

/-- Escape a string for JSON output (`ensure_ascii=False`). -/
def escape (s : String) : String := String.join (s.data.map escChar)

mutual

/-- `json.dumps(value, sort_keys=True, ensure_ascii=False)` with default
separators. Every object that reaches `dumps` in the modelled code paths
already has its keys sorted (either canonicalised payloads or literal
records listed in key order), so no extra sorting happens here. -/
def dumps : JValue → String
  | .jnull => "null"
  | .jbool b => if b then "true" else "false"
  | .jnum n => toString n
  | .jstr s => "\"" ++ escape s ++ "\""
  | .jarr xs => "[" ++ dumpsL xs ++ "]"
  | .jobj fields => "\x7b" ++ dumpsF fields ++ "\x7d"

/-- Serialize array elements joined by ", ". -/
def dumpsL : List JValue → String
  | [] => ""
  | [v] => dumps v
  | v :: rest => dumps v ++ ", " ++ dumpsL rest

/-- Serialize object fields joined by ", " with ": " separators. -/
def dumpsF : List (String × JValue) → String
  | [] => ""
  | [kv] => "\"" ++ escape kv.1 ++ "\": " ++ dumps kv.2
  | kv :: rest => "\"" ++ escape kv.1 ++ "\": " ++ dumps kv.2 ++ ", " ++ dumpsF rest

end

theorem charLtb_toNat {a b : Char} : charLtb a b = true ↔ a.toNat < b.toNat := by
  simp [charLtb]

theorem charLtb_irrefl (a : Char) : charLtb a a = false := by
  simp [charLtb]

theorem char_eq_of_not_ltb {a b : Char}
    (h1 : charLtb a b = false) (h2 : charLtb b a = false) : a = b := by
  have n1 : ¬ a.toNat < b.toNat := by
    intro h
    rw [(charLtb_toNat).mpr h] at h1
    exact Bool.noConfusion h1
  have n2 : ¬ b.toNat < a.toNat := by
    intro h
    rw [(charLtb_toNat).mpr h] at h2
    exact Bool.noConfusion h2
  have : a.toNat = b.toNat := Nat.le_antisymm (Nat.le_of_not_lt n2) (Nat.le_of_not_lt n1)
  exact Char.ext (UInt32.ext this)

theorem charsLtb_irrefl : ∀ xs, charsLtb xs xs = false
  | [] => rfl
  | a :: as => by
      simp only [charsLtb, charLtb_irrefl a]
      simpa using charsLtb_irrefl as

theorem charsLtb_trans :
    ∀ {xs ys zs}, charsLtb xs ys = true → charsLtb ys zs = true →
      charsLtb xs zs = true
  | [], [], _, h1, _ => by simp [charsLtb] at h1
  | [], _ :: _, [], _, h2 => by simp [charsLtb] at h2
  | [], _ :: _, _ :: _, _, _ => rfl
  | _ :: _, [], _, h1, _ => by simp [charsLtb] at h1
  | _ :: _, _ :: _, [], _, h2 => by simp [charsLtb] at h2
  | a :: as, b :: bs, c :: cs, h1, h2 => by
      simp only [charsLtb] at h1 h2 ⊢
      by_cases hab : charLtb a b = true
      · by_cases hbc : charLtb b c = true
        · have : charLtb a c = true := by
            rw [charLtb_toNat] at hab hbc ⊢
            exact Nat.lt_trans hab hbc
          simp [this]
        · simp only [hbc, Bool.false_eq_true, if_false, ite_false] at h2
          by_cases hcb : charLtb c b = true
          · simp [hcb] at h2
          · have hbcq : b = c :=
              char_eq_of_not_ltb (Bool.eq_false_iff.mpr hbc) (Bool.eq_false_iff.mpr hcb)
            subst hbcq
            simp [hab]
      · simp only [hab, Bool.false_eq_true, if_false, ite_false] at h1
        by_cases hba : charLtb b a = true
        · simp [hba] at h1
        · rw [if_neg hba] at h1
          have habq : a = b :=
            char_eq_of_not_ltb (Bool.eq_false_iff.mpr hab) (Bool.eq_false_iff.mpr hba)
          subst habq
          by_cases hac : charLtb a c = true
          · simp [hac]
          · simp only [hac, Bool.false_eq_true, if_false, ite_false] at h2 ⊢
            by_cases hca : charLtb c a = true
            · simp [hca] at h2
            · simp only [hca, Bool.false_eq_true, if_false, ite_false] at h2 ⊢
              exact charsLtb_trans h1 h2

theorem charsLtb_asymm {xs ys} (h : charsLtb xs ys = true) :
    charsLtb ys xs = false := by
  by_contra hc
  have h2 : charsLtb ys xs = true := eq_true_of_ne_false hc
  have : charsLtb xs xs = true := charsLtb_trans h h2
  rw [charsLtb_irrefl xs] at this
  exact Bool.noConfusion this

theorem chars_eq_of_not_ltb :
    ∀ {xs ys : List Char}, charsLtb xs ys = false → charsLtb ys xs = false →
      xs = ys
  | [], [], _, _ => rfl
  | [], _ :: _, h1, _ => by simp [charsLtb] at h1
  | _ :: _, [], _, h2 => by simp [charsLtb] at h2
  | a :: as, b :: bs, h1, h2 => by
      simp only [charsLtb] at h1 h2
      by_cases hab : charLtb a b = true
      · simp [hab] at h1
      · by_cases hba : charLtb b a = true
        · simp [hba] at h2
        · have habq : a = b :=
            char_eq_of_not_ltb (Bool.eq_false_iff.mpr hab) (Bool.eq_false_iff.mpr hba)
          subst habq
          rw [charLtb_irrefl a] at h1 h2
          simp only [Bool.false_eq_true, if_false, ite_false] at h1 h2
          rw [chars_eq_of_not_ltb h1 h2]

theorem strLeb_total (a b : String) : strLeb a b = true ∨ strLeb b a = true := by
  by_cases h : charsLtb b.data a.data = true
  · right
    have := charsLtb_asymm h
    simp [strLeb, strLtb, this]
  · left
    simp [strLeb, strLtb, Bool.eq_false_iff.mpr h]

theorem strLeb_trans {a b c : String}
    (h1 : strLeb a b = true) (h2 : strLeb b c = true) : strLeb a c = true := by
  simp only [strLeb, strLtb, Bool.not_eq_true'] at h1 h2 ⊢
  by_contra hc
  have hca : charsLtb c.data a.data = true := by
    cases h : charsLtb c.data a.data
    · exact absurd h hc
    · rfl
  by_cases hbc : charsLtb b.data c.data = true
  · have : charsLtb b.data a.data = true := charsLtb_trans hbc hca
    rw [this] at h1
    exact Bool.noConfusion h1
  · have hbcq : b.data = c.data :=
      chars_eq_of_not_ltb (Bool.eq_false_iff.mpr hbc) h2
    have : charsLtb b.data a.data = true := by rw [hbcq]; exact hca
    rw [this] at h1
    exact Bool.noConfusion h1

/-- Key-sortedness of a field list. -/
def SortedF (l : List (String × JValue)) : Prop :=
  l.Pairwise (fun x y => strLeb x.1 y.1 = true)

theorem insortKey_mem_keys {x : String × JValue} :
    ∀ {l z}, z ∈ insortKey x l → z = x ∨ z ∈ l := by
  intro l
  induction l with
  | nil =>
      intro z hz
      simp [insortKey] at hz
      exact Or.inl hz
  | cons y ys ih =>
      intro z hz
      simp only [insortKey] at hz
      by_cases h : strLeb x.1 y.1 = true
      · rw [if_pos h] at hz
        rcases List.mem_cons.mp hz with hz1 | hz1
        · exact Or.inl hz1
        · exact Or.inr hz1
      · rw [if_neg h] at hz
        rcases List.mem_cons.mp hz with hz1 | hz1
        · exact Or.inr (by simp [hz1])
        · rcases ih hz1 with h1 | h1
          · exact Or.inl h1
          · exact Or.inr (List.mem_cons_of_mem _ h1)

theorem insortKey_sorted {x : String × JValue} :
    ∀ {l}, SortedF l → SortedF (insortKey x l) := by
  intro l
  induction l with
  | nil => intro _; simp [insortKey, SortedF]
  | cons y ys ih =>
      intro hs
      have hy : ∀ z ∈ ys, strLeb y.1 z.1 = true := (List.pairwise_cons.mp hs).1
      have hys : SortedF ys := (List.pairwise_cons.mp hs).2
      simp only [insortKey]
      by_cases h : strLeb x.1 y.1 = true
      · rw [if_pos h]
        refine List.pairwise_cons.mpr ⟨?_, hs⟩
        intro z hz
        rcases List.mem_cons.mp hz with hz1 | hz1
        · rw [hz1]
          exact h
        · exact strLeb_trans h (hy _ hz1)
      · rw [if_neg h]
        refine List.pairwise_cons.mpr ⟨?_, ih hys⟩
        intro z hz
        rcases insortKey_mem_keys hz with hz1 | hz1
        · rw [hz1]
          rcases strLeb_total x.1 y.1 with ht | ht
          · exact absurd ht h
          · exact ht
        · exact hy _ hz1

theorem sortFields_sorted : ∀ l, SortedF (sortFields l)
  | [] => by simp [sortFields, SortedF]
  | x :: xs => insortKey_sorted (sortFields_sorted xs)

theorem sortFields_eq_of_sorted : ∀ {l}, SortedF l → sortFields l = l
  | [], _ => rfl
  | x :: xs, h => by
      have hx : ∀ z ∈ xs, strLeb x.1 z.1 = true := (List.pairwise_cons.mp h).1
      have hxs : SortedF xs := (List.pairwise_cons.mp h).2
      simp only [sortFields, sortFields_eq_of_sorted hxs]
      cases xs with
      | nil => rfl
      | cons y ys =>
          simp only [insortKey]
          rw [if_pos (hx y (List.mem_cons_self _ _))]

theorem sortFields_idem (l : List (String × JValue)) :
    sortFields (sortFields l) = sortFields l :=
  sortFields_eq_of_sorted (sortFields_sorted l)

theorem canonicalF_insortKey (x : String × JValue) :
    ∀ l, canonicalF (insortKey x l) =
      insortKey (x.1, canonicalJ x.2) (canonicalF l)
  | [] => rfl
  | y :: ys => by
      simp only [insortKey]
      by_cases h : strLeb x.1 y.1 = true
      · rw [if_pos h]
        simp only [canonicalF, insortKey]
        rw [if_pos h]
      · rw [if_neg h]
        simp only [canonicalF, insortKey]
        rw [if_neg h, canonicalF_insortKey x ys]

theorem canonicalF_sortFields :
    ∀ l, canonicalF (sortFields l) = sortFields (canonicalF l)
  | [] => rfl
  | x :: xs => by
      simp only [sortFields, canonicalF_insortKey, canonicalF_sortFields xs]

mutual

theorem canonicalJ_idem : ∀ v, canonicalJ (canonicalJ v) = canonicalJ v
  | .jnull => rfl
  | .jbool _ => rfl
  | .jnum _ => rfl
  | .jstr _ => rfl
  | .jarr xs => by
      simp only [canonicalJ, canonicalL_idem xs]
  | .jobj fields => by
      simp only [canonicalJ, canonicalF_sortFields, sortFields_idem,
        canonicalF_idem fields]

theorem canonicalF_idem : ∀ l, canonicalF (canonicalF l) = canonicalF l
  | [] => rfl
  | kv :: rest => by
      simp only [canonicalF, canonicalJ_idem kv.2, canonicalF_idem rest]

theorem canonicalL_idem : ∀ l, canonicalL (canonicalL l) = canonicalL l
  | [] => rfl
  | v :: rest => by
      simp only [canonicalL, canonicalJ_idem v, canonicalL_idem rest]

end

theorem canonicalFields_idem (l : List (String × JValue)) :
    canonicalFields (canonicalFields l) = canonicalFields l := by
  simp only [canonicalFields, canonicalF_sortFields, sortFields_idem,
    canonicalF_idem]

/-
Section: kolibri_x/runtime/journal.py — JournalEntry and ActionJournal.
Timestamps are modelled as their ISO-8601 strings (datetime.isoformat()).
-/

/-- The all-zero genesis hash `"0" * 64`. -/
def zeros64 : String :=
  "0000000000000000000000000000000000000000000000000000000000000000"

/-- `JournalEntry` (dataclass from journal.py). `index` is a Python int. -/
structure JournalEntry where
  index : Int
  event : String
  payload : List (String × JValue)
  timestamp : String
  prev_hash : String
  hash : String
deriving DecidableEq

/-- The canonical 5-field record hashed by `JournalEntry.compute_hash`.
`json.dumps(..., sort_keys=True)` emits the keys in sorted order
event < index < payload < prev_hash < timestamp, so the fields are listed
here in that order; the payload is canonicalised recursively. -/
def canonicalRecord (index : Int) (event : String)
    (payload : List (String × JValue)) (timestamp prev_hash : String) :
    JValue :=
  .jobj [("event", .jstr event), ("index", .jnum index),
    ("payload", .jobj (canonicalFields payload)),
    ("prev_hash", .jstr prev_hash), ("timestamp", .jstr timestamp)]

/-- The hash of the canonical JSON of the 5-field record, with the SHA-256
digest abstracted as `H`. -/
def journalHash (H : String → String) (index : Int) (event : String)
    (payload : List (String × JValue)) (timestamp prev_hash : String) :
    String :=
  H (dumps (canonicalRecord index event payload timestamp prev_hash))

/-- `JournalEntry.compute_hash`. -/
def JournalEntry.compute_hash (H : String → String) (e : JournalEntry) :
    String :=
  journalHash H e.index e.event e.payload e.timestamp e.prev_hash

/-- Construct a `JournalEntry`; `__post_init__` assigns
`self.hash = self.compute_hash()`. -/
def JournalEntry.init (H : String → String) (index : Int) (event : String)
    (payload : List (String × JValue)) (timestamp prev_hash : String) :
    JournalEntry :=
  { index := index, event := event, payload := payload,
    timestamp := timestamp, prev_hash := prev_hash,
    hash := journalHash H index event payload timestamp prev_hash }

/-- `ActionJournal.append`: the previous hash is the last entry's hash or
the genesis value, and the new index is the current length. -/
def ActionJournal.append (H : String → String) (j : List JournalEntry)
    (event : String) (payload : List (String × JValue))
    (timestamp : String) : List JournalEntry :=
  let prev := match j.getLast? with
    | some e => e.hash
    | none => zeros64
  j ++ [JournalEntry.init H (j.length : Int) event payload timestamp prev]

/-- A journal built from scratch by a sequence of
`append(event, payload)` calls (with the observed timestamps). -/
def ActionJournal.build (H : String → String)
    (reqs : List (String × List (String × JValue) × String)) :
    List JournalEntry :=
  reqs.foldl (fun j r => ActionJournal.append H j r.1 r.2.1 r.2.2) []

/-- The loop body of `ActionJournal.verify`, tracking the expected
`prev_hash`. -/
def ActionJournal.verifyFrom (H : String → String) (prev : String) :
    List JournalEntry → Bool
  | [] => true
  | e :: rest =>
      if e.prev_hash = prev then
        if e.compute_hash H = e.hash then
          ActionJournal.verifyFrom H e.hash rest
        else false
      else false

/-- `ActionJournal.verify`. -/
def ActionJournal.verify (H : String → String) (j : List JournalEntry) :
    Bool :=
  ActionJournal.verifyFrom H zeros64 j

/-- One persisted JSONL record, i.e. the result of `JournalEntry.to_dict`
after `json.dump`/`json.loads` (text level round trip elided; the `hash`
key may be absent, which `from_dict` tolerates). -/
structure EntryDict where
  index : Int
  event : String
  payload : List (String × JValue)
  timestamp : String
  prev_hash : String
  hash : Option String
deriving DecidableEq

/-- `JournalEntry.to_dict` (payload canonicalised, hash included). -/
def JournalEntry.to_dict (e : JournalEntry) : EntryDict :=
  { index := e.index, event := e.event,
    payload := canonicalFields e.payload, timestamp := e.timestamp,
    prev_hash := e.prev_hash, hash := some e.hash }

/-- The entry reconstructed by `JournalEntry.from_dict` before the stored
hash is compared (the constructor recomputes the hash). -/
def parsedEntry (H : String → String) (d : EntryDict) : JournalEntry :=
  JournalEntry.init H d.index d.event d.payload d.timestamp d.prev_hash

/-- Whether a stored record's hash disagrees with the recomputed hash. -/
def hashMismatch (H : String → String) (d : EntryDict) : Bool :=
  match d.hash with
  | some stored => !(stored == (parsedEntry H d).hash)
  | none => false

/-- `JournalEntry.from_dict`: rebuild the entry and reject it when a
stored hash is present and disagrees (`ValueError` in the source). -/
def JournalEntry.from_dict (H : String → String) (d : EntryDict) :
    Except String JournalEntry :=
  let entry := parsedEntry H d
  match d.hash with
  | some stored =>
      if stored = entry.hash then .ok entry
      else .error "journal entry hash mismatch during load"
  | none => .ok entry

/-- `ActionJournal.save`: one `to_dict` record per line. -/
def ActionJournal.save (j : List JournalEntry) : List EntryDict :=
  j.map JournalEntry.to_dict

/-- The record-parsing loop of `ActionJournal.load`. -/
def ActionJournal.loadEntries (H : String → String) :
    List EntryDict → Except String (List JournalEntry)
  | [] => .ok []
  | d :: rest =>
      match JournalEntry.from_dict H d with
      | .error msg => .error msg
      | .ok e =>
          match ActionJournal.loadEntries H rest with
          | .error msg => .error msg
          | .ok es => .ok (e :: es)

/-- `ActionJournal.load`: parse every record, then run the integrity
check; both failure modes raise `ValueError`. -/
def ActionJournal.load (H : String → String) (file : List EntryDict) :
    Except String (List JournalEntry) :=
  match ActionJournal.loadEntries H file with
  | .error msg => .error msg
  | .ok es =>
      if ActionJournal.verify H es then .ok es
      else .error "loaded journal failed integrity verification"

/-- An entry with its payload canonicalised, as it comes back from a
save→load round trip. -/
def JournalEntry.canon (H : String → String) (e : JournalEntry) :
    JournalEntry :=
  JournalEntry.init H e.index e.event (canonicalFields e.payload)
    e.timestamp e.prev_hash

theorem canon_hash (H : String → String) (e : JournalEntry) :
    (JournalEntry.canon H e).hash = e.compute_hash H := by
  simp only [JournalEntry.canon, JournalEntry.init, JournalEntry.compute_hash,
    journalHash, canonicalRecord, canonicalFields_idem]

/-- The chain invariant of a journal suffix: dense indices from `k`,
`prev_hash` linking from `prev`, and every hash freshly computed. -/
def GoodFrom (H : String → String) : Int → String → List JournalEntry → Prop
  | _, _, [] => True
  | k, prev, e :: rest =>
      e.index = k ∧ e.prev_hash = prev ∧ e.hash = e.compute_hash H ∧
        GoodFrom H (k + 1) e.hash rest

theorem goodFrom_append (H : String → String) :
    ∀ {j : List JournalEntry} {k : Int} {prev : String} {e : JournalEntry},
      GoodFrom H k prev j →
      e.index = k + (j.length : Int) →
      e.prev_hash = (match j.getLast? with | some x => x.hash | none => prev) →
      e.hash = e.compute_hash H →
      GoodFrom H k prev (j ++ [e])
  | [], k, prev, e, _, hidx, hprev, hh => by
      refine ⟨?_, ?_, hh, trivial⟩
      · simpa using hidx
      · simpa using hprev
  | f :: rest, k, prev, e, hg, hidx, hprev, hh => by
      obtain ⟨h1, h2, h3, h4⟩ := hg
      refine ⟨h1, h2, h3, ?_⟩
      refine goodFrom_append H h4 ?_ ?_ hh
      · rw [hidx]
        simp only [List.length_cons]
        push_cast
        ring
      · rw [hprev]
        cases rest with
        | nil => simp [List.getLast?]
        | cons r rs => rfl

theorem goodFrom_build (H : String → String)
    (reqs : List (String × List (String × JValue) × String)) :
    GoodFrom H 0 zeros64 (ActionJournal.build H reqs) := by
  have master :
      ∀ (rs : List (String × List (String × JValue) × String))
        (j : List JournalEntry), GoodFrom H 0 zeros64 j →
        GoodFrom H 0 zeros64
          (rs.foldl (fun acc r => ActionJournal.append H acc r.1 r.2.1 r.2.2) j) := by
    intro rs
    induction rs with
    | nil => intro j hj; exact hj
    | cons r rest ih =>
        intro j hj
        refine ih _ ?_
        refine goodFrom_append H hj ?_ ?_ rfl
        · simp [JournalEntry.init]
        · simp [JournalEntry.init]
  exact master reqs [] trivial

theorem verifyFrom_of_goodFrom (H : String → String) :
    ∀ {j : List JournalEntry} {k : Int} {prev : String},
      GoodFrom H k prev j → ActionJournal.verifyFrom H prev j = true
  | [], _, _, _ => rfl
  | e :: rest, k, prev, hg => by
      obtain ⟨_, h2, h3, h4⟩ := hg
      show (if e.prev_hash = prev then
          if e.compute_hash H = e.hash then
            ActionJournal.verifyFrom H e.hash rest
          else false
        else false) = true
      rw [if_pos h2, if_pos h3.symm]
      exact verifyFrom_of_goodFrom H h4

theorem goodFrom_get (H : String → String) :
    ∀ {j : List JournalEntry} {k : Int} {prev : String},
      GoodFrom H k prev j → ∀ (i : Nat) (h : i < j.length),
        (j.get ⟨i, h⟩).hash = (j.get ⟨i, h⟩).compute_hash H ∧
        (j.get ⟨i, h⟩).index = k + (i : Int)
  | e :: rest, k, prev, hg, 0, h => by
      obtain ⟨h1, _, h3, _⟩ := hg
      exact ⟨h3, by simpa using h1⟩
  | e :: rest, k, prev, hg, i + 1, h => by
      obtain ⟨_, _, _, h4⟩ := hg
      have hlt : i < rest.length := Nat.lt_of_succ_lt_succ h
      have hget := goodFrom_get H h4 i hlt
      refine ⟨hget.1, ?_⟩
      show (rest.get ⟨i, hlt⟩).index = k + ((i + 1 : Nat) : Int)
      rw [hget.2]
      push_cast
      ring

theorem goodFrom_head (H : String → String) {k : Int} {prev : String}
    {e : JournalEntry} {rest : List JournalEntry}
    (hg : GoodFrom H k prev (e :: rest)) : e.prev_hash = prev := hg.2.1

theorem goodFrom_chain (H : String → String) :
    ∀ {j : List JournalEntry} {k : Int} {prev : String},
      GoodFrom H k prev j → ∀ (i : Nat) (h1 : i < j.length)
        (h2 : i + 1 < j.length),
        (j.get ⟨i + 1, h2⟩).prev_hash = (j.get ⟨i, h1⟩).hash
  | e :: rest, k, prev, hg, 0, h1, h2 => by
      obtain ⟨_, _, _, h4⟩ := hg
      cases rest with
      | nil => simp at h2
      | cons f fs =>
          show f.prev_hash = e.hash
          exact goodFrom_head H h4
  | e :: rest, k, prev, hg, i + 1, h1, h2 => by
      obtain ⟨_, _, _, h4⟩ := hg
      exact goodFrom_chain H h4 i (Nat.lt_of_succ_lt_succ h1)
        (Nat.lt_of_succ_lt_succ h2)

theorem goodFrom_all_hash (H : String → String) :
    ∀ {j : List JournalEntry} {k : Int} {prev : String},
      GoodFrom H k prev j → ∀ e ∈ j, e.hash = e.compute_hash H
  | [], _, _, _, e, he => by simp at he
  | f :: rest, k, prev, hg, e, he => by
      obtain ⟨_, _, h3, h4⟩ := hg
      rcases List.mem_cons.mp he with h | h
      · rw [h]; exact h3
      · exact goodFrom_all_hash H h4 e h

theorem canon_compute_hash (H : String → String) (e : JournalEntry) :
    (JournalEntry.canon H e).hash = (JournalEntry.canon H e).compute_hash H := by
  rfl

theorem goodFrom_canon (H : String → String) :
    ∀ {j : List JournalEntry} {k : Int} {prev : String},
      GoodFrom H k prev j →
        GoodFrom H k prev (j.map (JournalEntry.canon H))
  | [], _, _, _ => trivial
  | e :: rest, k, prev, hg => by
      obtain ⟨h1, h2, h3, h4⟩ := hg
      refine ⟨h1, h2, canon_compute_hash H e, ?_⟩
      have : (JournalEntry.canon H e).hash = e.hash := by
        rw [canon_hash H e, ← h3]
      rw [this]
      exact goodFrom_canon H h4

theorem from_dict_to_dict (H : String → String) (e : JournalEntry)
    (h : e.hash = e.compute_hash H) :
    JournalEntry.from_dict H e.to_dict = .ok (JournalEntry.canon H e) := by
  have hcond : e.hash = (parsedEntry H e.to_dict).hash := by
    have hpe : parsedEntry H e.to_dict = JournalEntry.canon H e := rfl
    rw [hpe, canon_hash H e, ← h]
  show (if e.hash = (parsedEntry H e.to_dict).hash then
      Except.ok (parsedEntry H e.to_dict)
    else Except.error "journal entry hash mismatch during load") =
      Except.ok (JournalEntry.canon H e)
  rw [if_pos hcond]
  rfl

theorem loadEntries_save (H : String → String) :
    ∀ (j : List JournalEntry), (∀ e ∈ j, e.hash = e.compute_hash H) →
      ActionJournal.loadEntries H (ActionJournal.save j) =
        .ok (j.map (JournalEntry.canon H))
  | [], _ => rfl
  | e :: rest, hall => by
      have h1 : e.hash = e.compute_hash H := hall e (List.mem_cons_self _ _)
      have h2 : ∀ f ∈ rest, f.hash = f.compute_hash H := fun f hf =>
        hall f (List.mem_cons_of_mem _ hf)
      show ActionJournal.loadEntries H (e.to_dict :: ActionJournal.save rest) = _
      simp only [ActionJournal.loadEntries, from_dict_to_dict H e h1,
        loadEntries_save H rest h2, List.map_cons]

theorem canon_to_dict (H : String → String) (e : JournalEntry)
    (h : e.hash = e.compute_hash H) :
    (JournalEntry.canon H e).to_dict = e.to_dict := by
  simp only [JournalEntry.to_dict, JournalEntry.canon, JournalEntry.init,
    canonicalFields_idem]
  refine congrArg _ ?_
  have := canon_hash H e
  simp only [JournalEntry.canon, JournalEntry.init] at this
  rw [this, ← h]

/-- C1: a journal built by `append` calls has a dense index starting at 0,
an all-zero genesis `prev_hash`, adjacent entries linked by
`prev_hash = hash`, every hash equal to the (abstracted SHA-256) digest of
the canonical JSON of the 5-field record, `verify() = true`, and a
save→load round trip succeeds, preserves the entries up to payload
canonicalisation (their `to_dict` forms are identical), and verifies. -/
theorem C1_journal_hash_chain (H : String → String)
    (reqs : List (String × List (String × JValue) × String)) :
    (∀ (i : Nat) (h : i < (ActionJournal.build H reqs).length),
      ((ActionJournal.build H reqs).get ⟨i, h⟩).hash =
        ((ActionJournal.build H reqs).get ⟨i, h⟩).compute_hash H ∧
      ((ActionJournal.build H reqs).get ⟨i, h⟩).index = (i : Int)) ∧
    (∀ (i : Nat) (h1 : i < (ActionJournal.build H reqs).length)
      (h2 : i + 1 < (ActionJournal.build H reqs).length),
      ((ActionJournal.build H reqs).get ⟨i + 1, h2⟩).prev_hash =
        ((ActionJournal.build H reqs).get ⟨i, h1⟩).hash) ∧
    (∀ e rest, ActionJournal.build H reqs = e :: rest →
      e.prev_hash = zeros64) ∧
    ActionJournal.verify H (ActionJournal.build H reqs) = true ∧
    ActionJournal.load H (ActionJournal.save (ActionJournal.build H reqs)) =
      .ok ((ActionJournal.build H reqs).map (JournalEntry.canon H)) ∧
    ((ActionJournal.build H reqs).map (JournalEntry.canon H)).map
        JournalEntry.to_dict =
      (ActionJournal.build H reqs).map JournalEntry.to_dict ∧
    ActionJournal.verify H
      ((ActionJournal.build H reqs).map (JournalEntry.canon H)) = true := by
  have hgood := goodFrom_build H reqs
  have hall := goodFrom_all_hash H hgood
  refine ⟨?_, ?_, ?_, ?_, ?_, ?_, ?_⟩
  · intro i h
    have := goodFrom_get H hgood i h
    refine ⟨this.1, ?_⟩
    rw [this.2]
    ring
  · intro i h1 h2
    exact goodFrom_chain H hgood i h1 h2
  · intro e rest hj
    rw [hj] at hgood
    exact goodFrom_head H hgood
  · exact verifyFrom_of_goodFrom H hgood
  · have hload := loadEntries_save H _ hall
    have hver : ActionJournal.verify H
        ((ActionJournal.build H reqs).map (JournalEntry.canon H)) = true :=
      verifyFrom_of_goodFrom H (goodFrom_canon H hgood)
    simp only [ActionJournal.load, hload]
    rw [if_pos hver]
  · rw [List.map_map]
    refine List.map_congr_left ?_
    intro e he
    show (JournalEntry.canon H e).to_dict = e.to_dict
    exact canon_to_dict H e (hall e he)
  · exact verifyFrom_of_goodFrom H (goodFrom_canon H hgood)

/-- A hash stub for concrete witnesses (the claims hold for every `H`). -/
def demoHash : String → String := fun _ => "h"

/-- Two concrete append requests. -/
def demoReqs : List (String × List (String × JValue) × String) :=
  [("session_started", [("session_id", JValue.jstr "s1")],
    "2025-01-01T00:00:00+00:00"),
   ("privacy", [("user_id", JValue.jstr "u1")],
    "2025-01-01T00:00:01+00:00")]

/-- Witness for C1 at a concrete journal: the adjacency conjunct at i = 0
and the genesis conjunct, with the bounds discharged by `decide`. -/
theorem C1_witness :
    ((ActionJournal.build demoHash demoReqs).get ⟨1, by decide⟩).prev_hash =
      ((ActionJournal.build demoHash demoReqs).get ⟨0, by decide⟩).hash ∧
    (∀ e rest, ActionJournal.build demoHash demoReqs = e :: rest →
      e.prev_hash = zeros64) :=
  ⟨(C1_journal_hash_chain demoHash demoReqs).2.1 0 (by decide) (by decide),
   (C1_journal_hash_chain demoHash demoReqs).2.2.1⟩

theorem from_dict_no_mismatch (H : String → String) (d : EntryDict)
    (h : hashMismatch H d = false) :
    JournalEntry.from_dict H d = .ok (parsedEntry H d) := by
  unfold JournalEntry.from_dict
  unfold hashMismatch at h
  cases hd : d.hash with
  | none => rfl
  | some stored =>
      rw [hd] at h
      simp only [Bool.not_eq_false', beq_iff_eq] at h
      show (if stored = (parsedEntry H d).hash then
          Except.ok (parsedEntry H d)
        else Except.error "journal entry hash mismatch during load") = _
      rw [if_pos h]

theorem from_dict_mismatch (H : String → String) (d : EntryDict)
    (h : hashMismatch H d = true) :
    JournalEntry.from_dict H d =
      .error "journal entry hash mismatch during load" := by
  unfold JournalEntry.from_dict
  unfold hashMismatch at h
  cases hd : d.hash with
  | none => rw [hd] at h; exact absurd h (by simp)
  | some stored =>
      rw [hd] at h
      simp only [Bool.not_eq_true', beq_eq_false_iff_ne, ne_eq] at h
      show (if stored = (parsedEntry H d).hash then
          Except.ok (parsedEntry H d)
        else Except.error "journal entry hash mismatch during load") = _
      rw [if_neg h]

theorem loadEntries_all_ok (H : String → String) :
    ∀ (file : List EntryDict), (∀ d ∈ file, hashMismatch H d = false) →
      ActionJournal.loadEntries H file = .ok (file.map (parsedEntry H))
  | [], _ => rfl
  | d :: rest, hall => by
      have h1 := hall d (List.mem_cons_self _ _)
      have h2 : ∀ f ∈ rest, hashMismatch H f = false := fun f hf =>
        hall f (List.mem_cons_of_mem _ hf)
      simp only [ActionJournal.loadEntries, from_dict_no_mismatch H d h1,
        loadEntries_all_ok H rest h2, List.map_cons]

theorem loadEntries_some_mismatch (H : String → String) :
    ∀ (file : List EntryDict), (∃ d ∈ file, hashMismatch H d = true) →
      ∃ m, ActionJournal.loadEntries H file = .error m
  | [], hex => by simp at hex
  | d :: rest, hex => by
      by_cases hd : hashMismatch H d = true
      · refine ⟨"journal entry hash mismatch during load", ?_⟩
        simp only [ActionJournal.loadEntries, from_dict_mismatch H d hd]
      · have hrest : ∃ f ∈ rest, hashMismatch H f = true := by
          rcases hex with ⟨f, hf, hmis⟩
          rcases List.mem_cons.mp hf with h | h
          · exact absurd (h ▸ hmis) hd
          · exact ⟨f, h, hmis⟩
        obtain ⟨m, hm⟩ := loadEntries_some_mismatch H rest hrest
        refine ⟨m, ?_⟩
        have hd' : hashMismatch H d = false := Bool.eq_false_iff.mpr hd
        simp only [ActionJournal.loadEntries, from_dict_no_mismatch H d hd', hm]

/-- C2: `ActionJournal.load` raises a typed error exactly when some stored
record's hash disagrees with the recomputed hash or the `prev_hash` chain
of the parsed entries is broken (the `verify` re-check); when every record
is consistent, load succeeds and returns exactly the stored entries. -/
theorem C2_load_error_semantics (H : String → String)
    (file : List EntryDict) :
    ((∃ m, ActionJournal.load H file = .error m) ↔
      ((∃ d ∈ file, hashMismatch H d = true) ∨
        ActionJournal.verify H (file.map (parsedEntry H)) = false)) ∧
    (∀ es, ActionJournal.load H file = .ok es →
      es = file.map (parsedEntry H)) := by
  by_cases hmis : ∃ d ∈ file, hashMismatch H d = true
  · obtain ⟨m, hm⟩ := loadEntries_some_mismatch H file hmis
    have hload : ActionJournal.load H file = .error m := by
      simp only [ActionJournal.load, hm]
    constructor
    · constructor
      · intro _
        exact Or.inl hmis
      · intro _
        exact ⟨m, hload⟩
    · intro es hes
      rw [hload] at hes
      exact absurd hes (by simp)
  · have hall : ∀ d ∈ file, hashMismatch H d = false := by
      intro d hd
      by_contra hc
      exact hmis ⟨d, hd, eq_true_of_ne_false hc⟩
    have hentries := loadEntries_all_ok H file hall
    by_cases hver :
        ActionJournal.verify H (file.map (parsedEntry H)) = true
    · have hload : ActionJournal.load H file =
          .ok (file.map (parsedEntry H)) := by
        simp only [ActionJournal.load, hentries]
        rw [if_pos hver]
      constructor
      · constructor
        · intro hex
          obtain ⟨m, hm⟩ := hex
          rw [hload] at hm
          exact absurd hm (by simp)
        · intro hor
          rcases hor with h | h
          · exact absurd h hmis
          · rw [hver] at h
            exact absurd h (by simp)
      · intro es hes
        rw [hload] at hes
        exact (Except.ok.injEq _ _ ▸ hes).symm ▸ rfl
    · have hverf : ActionJournal.verify H (file.map (parsedEntry H)) = false :=
        Bool.eq_false_iff.mpr hver
      have hload : ActionJournal.load H file =
          .error "loaded journal failed integrity verification" := by
        simp only [ActionJournal.load, hentries]
        rw [if_neg hver]
      constructor
      · constructor
        · intro _
          exact Or.inr hverf
        · intro _
          exact ⟨_, hload⟩
      · intro es hes
        rw [hload] at hes
        exact absurd hes (by simp)

/-- A concrete consistent record (no stored hash, genesis prev_hash). -/
def demoDict : EntryDict :=
  { index := 0, event := "session_started",
    payload := [("session_id", JValue.jstr "s1")],
    timestamp := "2025-01-01T00:00:00+00:00", prev_hash := zeros64,
    hash := none }

/-- Witness for C2: on a concrete consistent file, load succeeds and the
success conjunct of the theorem yields exactly the stored entries. -/
theorem C2_witness :
    [parsedEntry demoHash demoDict] =
      [demoDict].map (parsedEntry demoHash) :=
  (C2_load_error_semantics demoHash [demoDict]).2
    [parsedEntry demoHash demoDict] (by rfl)

/-
Section: SkillSandbox from kolibri_x/runtime/orchestrator.py.
`execute` spawns a worker process; the worker's behaviour (result sent,
error sent, timeout, or silent death) is an oracle parameter
`WorkerOutcome`. Control flow after the worker is translated exactly:
every branch of the source returns or raises before line 245, so the
quota/usage block at orchestrator.py lines 245-262 is unreachable and is
accordingly absent from `SkillSandbox.execute`; `_enforce_quota`
(lines 308-320, still reachable from `record_io`) is modelled as
`enforceQuota`.
-/

/-- `SkillQuota` (skills/store.py): optional integer limits. -/
structure SkillQuota where
  invocations : Option Int := none
  cpu_ms : Option Int := none
  wall_ms : Option Int := none
  ram_mb : Option Int := none
  net_bytes : Option Int := none
  fs_bytes : Option Int := none
  fs_ops : Option Int := none
deriving DecidableEq

/-- `_SkillUsage` counters (floats modelled as exact rationals). -/
structure SkillUsage where
  invocations : Int := 0
  cpu_ms : ℚ := 0
  wall_ms : ℚ := 0
  net_bytes : Int := 0
  fs_bytes : Int := 0
  fs_ops : Int := 0
deriving DecidableEq

/-- Python `int()` truncation of a rational. -/
def pyInt (q : ℚ) : Int := if 0 ≤ q then q.floor else -((-q).floor)

/-- One limit check of `_enforce_quota`: breach when `used >= limit`. -/
def checkLim (resource : String) (lim : Option Int) (used : ℚ)
    (report : Int) : Option (String × Int × Int) :=
  match lim with
  | some l => if (l : ℚ) ≤ used then some (resource, l, report) else none
  | none => none

/-- `SkillSandbox._enforce_quota` (orchestrator.py lines 308-320): the
first breached resource, with `(resource, limit, used)` as carried by
`SkillQuotaExceeded`; `none` when no limit is breached. -/
def enforceQuota (usage : SkillUsage) (quota : SkillQuota) :
    Option (String × Int × Int) :=
  (checkLim "invocations" quota.invocations (usage.invocations : ℚ)
      usage.invocations).orElse fun _ =>
  (checkLim "cpu_ms" quota.cpu_ms usage.cpu_ms (pyInt usage.cpu_ms)).orElse
      fun _ =>
  (checkLim "wall_ms" quota.wall_ms usage.wall_ms
      (pyInt usage.wall_ms)).orElse fun _ =>
  (checkLim "net_bytes" quota.net_bytes (usage.net_bytes : ℚ)
      usage.net_bytes).orElse fun _ =>
  (checkLim "fs_bytes" quota.fs_bytes (usage.fs_bytes : ℚ)
      usage.fs_bytes).orElse fun _ =>
  checkLim "fs_ops" quota.fs_ops (usage.fs_ops : ℚ) usage.fs_ops

/-- What the worker process did before the parent inspects the pipe. -/
inductive WorkerOutcome where
  | timedOut
  | sentOk (result : List (String × JValue))
  | sentNonMapping (rep : String)
  | sentError (excType : String) (message : String)
  | noResponse (exitCode : Int)
deriving DecidableEq

/-- Sandbox state: registered executor names, per-skill usage, the
`_quotas` memo, and the bound journal (event name, skill name). -/
structure SandboxState where
  executors : List String
  usage : List (String × SkillUsage)
  quotas : List (String × SkillQuota)
  journal : List (String × String)
deriving DecidableEq

/-- `SkillSandbox.execute` outcomes as seen by the caller. -/
inductive ExecResult where
  | ok (result : List (String × JValue))
  | keyErr (message : String)
  | execErr (message : String)
  | quotaErr (resource : String) (limit : Int) (used : Int)
deriving DecidableEq

/-- `SkillSandbox.execute` (orchestrator.py lines 157-243): every branch
returns `dict(result)` or raises before the dead quota/usage block at
lines 245-262, so the `quota` argument is never consulted and neither
`_usage` nor `_quotas` is touched. -/
def SkillSandbox.execute (s : SandboxState) (name : String)
    (quota : Option SkillQuota) (o : WorkerOutcome) :
    SandboxState × ExecResult :=
  if name ∈ s.executors then
    match o with
    | .timedOut =>
        ({ s with journal := s.journal ++ [("skill_timeout", name)] },
         .execErr "exceeded time limit")
    | .sentOk result => (s, .ok result)
    | .sentNonMapping rep =>
        ({ s with
            journal := s.journal ++ [("skill_execution_error", name)] },
         .execErr ("returned non-mapping result: " ++ rep))
    | .sentError excType message =>
        ({ s with
            journal := s.journal ++
              [(if excType = "MemoryError" then "skill_memory_limit_exceeded"
                else "skill_execution_error", name)] },
         .execErr ("failed: " ++ message))
    | .noResponse _ =>
        ({ s with
            journal := s.journal ++ [("skill_process_terminated", name)] },
         .execErr "terminated unexpectedly")
  else (s, .keyErr ("unknown skill executor: " ++ name))

/-- C3: contrary to the claim, `SkillSandbox.execute` performs no quota
check at all: for every sandbox state, quota argument and worker outcome
it never raises the quota-exceeded error, never journals
`skill_quota_blocked`, and never touches the usage or quota tables — the
enforcement block sits after an unconditional `raise` (orchestrator.py
lines 245-262) and is dead code. `_enforce_quota` itself, had it been
called as the spec prescribes, would flag `wall_ms` with
`(limit, used)`, as the final conjunct shows on the claimed scenario
(usage `wall_ms = 150` against limit 100). -/
theorem C3_sandbox_quota_never_enforced (s : SandboxState) (name : String)
    (q : Option SkillQuota) (o : WorkerOutcome) :
    (∀ res lim used,
      (SkillSandbox.execute s name q o).2 ≠ ExecResult.quotaErr res lim used) ∧
    (SkillSandbox.execute s name q o).1.usage = s.usage ∧
    (SkillSandbox.execute s name q o).1.quotas = s.quotas ∧
    (∀ ev ∈ (SkillSandbox.execute s name q o).1.journal,
      ev ∈ s.journal ∨ ev.1 ≠ "skill_quota_blocked") ∧
    enforceQuota { wall_ms := 150, invocations := 1, cpu_ms := 3 }
      { wall_ms := some 100 } = some ("wall_ms", 100, 150) := by
  refine ⟨?_, ?_, ?_, ?_, by decide⟩
  · intro res lim used
    unfold SkillSandbox.execute
    by_cases hmem : name ∈ s.executors
    · rw [if_pos hmem]
      cases o <;> simp
    · rw [if_neg hmem]
      simp
  · unfold SkillSandbox.execute
    by_cases hmem : name ∈ s.executors
    · rw [if_pos hmem]
      cases o <;> simp
    · rw [if_neg hmem]
  · unfold SkillSandbox.execute
    by_cases hmem : name ∈ s.executors
    · rw [if_pos hmem]
      cases o <;> simp
    · rw [if_neg hmem]
  · intro ev hev
    unfold SkillSandbox.execute at hev
    by_cases hmem : name ∈ s.executors
    · rw [if_pos hmem] at hev
      cases o with
      | timedOut =>
          simp only [List.mem_append, List.mem_singleton] at hev
          rcases hev with h | h
          · exact Or.inl h
          · right; rw [h]; show "skill_timeout" ≠ _; decide
      | sentOk r => exact Or.inl hev
      | sentNonMapping rep =>
          simp only [List.mem_append, List.mem_singleton] at hev
          rcases hev with h | h
          · exact Or.inl h
          · right; rw [h]; show "skill_execution_error" ≠ _; decide
      | sentError t m =>
          simp only [List.mem_append, List.mem_singleton] at hev
          rcases hev with h | h
          · exact Or.inl h
          · right
            rw [h]
            by_cases ht : t = "MemoryError"
            · rw [if_pos ht]
              show "skill_memory_limit_exceeded" ≠ _
              decide
            · rw [if_neg ht]
              show "skill_execution_error" ≠ _
              decide
      | noResponse c =>
          simp only [List.mem_append, List.mem_singleton] at hev
          rcases hev with h | h
          · exact Or.inl h
          · right; rw [h]; show "skill_process_terminated" ≠ _; decide
    · rw [if_neg hmem] at hev
      exact Or.inl hev

/-- Concrete sandbox state for the C3 witness: one registered skill whose
usage already exceeds the claimed wall-clock limit. -/
def sandboxDemo : SandboxState :=
  { executors := ["writer"],
    usage := [("writer", { wall_ms := 150 })],
    quotas := [],
    journal := [] }

/-- Witness for C3 at a concrete sandbox call: the journal conjunct at
the concrete new event and the no-quota-error conjunct. -/
theorem C3_witness :
    (("skill_timeout", "writer") ∈ sandboxDemo.journal ∨
      ("skill_timeout", "writer").1 ≠ "skill_quota_blocked") ∧
    (SkillSandbox.execute sandboxDemo "writer"
        (some { wall_ms := some 100 }) WorkerOutcome.timedOut).2 ≠
      ExecResult.quotaErr "wall_ms" 100 150 :=
  ⟨(C3_sandbox_quota_never_enforced sandboxDemo "writer"
      (some { wall_ms := some 100 }) WorkerOutcome.timedOut).2.2.2.1
      ("skill_timeout", "writer") (by decide),
   (C3_sandbox_quota_never_enforced sandboxDemo "writer"
      (some { wall_ms := some 100 }) WorkerOutcome.timedOut).1
      "wall_ms" 100 150⟩

/-
Section: kolibri_x/privacy/consent.py — PrivacyOperator.
Python dicts are association lists: lookup finds the first (unique) key,
and updating an existing key keeps its position (CPython dict semantics).
The opaque `_zk_proof` (built on Python `hash`) is abstracted as `zk`.
-/

/-- Python dict lookup. -/
def dictGet {α : Type} (k : String) : List (String × α) → Option α
  | [] => none
  | (k2, v) :: rest => if k = k2 then some v else dictGet k rest

/-- Python dict assignment: replace in place, else append. -/
def dictSet {α : Type} (k : String) (v : α) :
    List (String × α) → List (String × α)
  | [] => [(k, v)]
  | (k2, v2) :: rest =>
      if k = k2 then (k2, v) :: rest else (k2, v2) :: dictSet k v rest

/-- Python set add (membership is all that matters downstream). -/
def setAdd (tag : String) (l : List String) : List String :=
  if tag ∈ l then l else l ++ [tag]

/-- Python set discard. -/
def setRemove (tag : String) (l : List String) : List String :=
  l.filter (fun x => x ≠ tag)

/-- `ConsentRecord` (timestamps elided; they feed no decision). -/
structure ConsentRecord where
  user_id : String
  allowed : List String := []
  denied : List String := []
  proofs : List (String × String) := []
deriving DecidableEq

/-- `PolicyLayer`. -/
structure PolicyLayer where
  name : String
  scope : List String
  default_action : String := "deny"
deriving DecidableEq

/-- `PrivacyOperator` state: consent records and policy layers, both
insertion-ordered dicts. -/
structure PrivacyState where
  records : List (String × ConsentRecord) := []
  layers : List (String × PolicyLayer) := []
deriving DecidableEq

/-- `register_layer`. -/
def PrivacyOperator.register_layer (st : PrivacyState) (l : PolicyLayer) :
    PrivacyState :=
  { st with layers := dictSet l.name l st.layers }

/-- The per-tag body of `grant`. -/
def grantTag (zk : String → String → String → String) (user : String)
    (r : ConsentRecord) (tag : String) : ConsentRecord :=
  { r with allowed := setAdd tag r.allowed,
           denied := setRemove tag r.denied,
           proofs := dictSet tag (zk user tag "allow") r.proofs }

/-- The per-tag body of `deny`. -/
def denyTag (zk : String → String → String → String) (user : String)
    (r : ConsentRecord) (tag : String) : ConsentRecord :=
  { r with denied := setAdd tag r.denied,
           allowed := setRemove tag r.allowed,
           proofs := dictSet tag (zk user tag "deny") r.proofs }

/-- `grant(user, data_types)`: `setdefault` creates the record, then each
tag is allowed, removed from denied, and given a proof. -/
def PrivacyOperator.grant (zk : String → String → String → String)
    (st : PrivacyState) (user : String) (tags : List String) :
    PrivacyState :=
  let r0 := (dictGet user st.records).getD { user_id := user }
  let r1 := tags.foldl (grantTag zk user) r0
  { st with records := dictSet user r1 st.records }

/-- `deny(user, data_types)`. -/
def PrivacyOperator.deny (zk : String → String → String → String)
    (st : PrivacyState) (user : String) (tags : List String) :
    PrivacyState :=
  let r0 := (dictGet user st.records).getD { user_id := user }
  let r1 := tags.foldl (denyTag zk user) r0
  { st with records := dictSet user r1 st.records }

/-- `_layer_for`: the first registered layer whose scope has the tag. -/
def PrivacyOperator.layer_for (st : PrivacyState) (tag : String) :
    Option PolicyLayer :=
  st.layers.findSome? fun kv => if tag ∈ kv.2.scope then some kv.2 else none

/-- `is_allowed`: unknown users are rejected outright; then explicit deny
wins, then explicit allow, then the first matching layer's default. -/
def PrivacyOperator.is_allowed (st : PrivacyState) (user tag : String) :
    Bool :=
  match dictGet user st.records with
  | none => false
  | some r =>
      if tag ∈ r.denied then false
      else if tag ∈ r.allowed then true
      else
        match PrivacyOperator.layer_for st tag with
        | some l => l.default_action = "allow"
        | none => false

/-- `enforce`: the allowed subset in input order. -/
def PrivacyOperator.enforce (st : PrivacyState) (user : String)
    (tags : List String) : List String :=
  tags.filter (PrivacyOperator.is_allowed st user)

/-- Consent-building operations, in call order. -/
inductive PrivacyOp where
  | register_layer (layer : PolicyLayer)
  | grant (user : String) (tags : List String)
  | deny (user : String) (tags : List String)
deriving DecidableEq

/-- Apply one operation. -/
def PrivacyOp.apply (zk : String → String → String → String)
    (st : PrivacyState) : PrivacyOp → PrivacyState
  | .register_layer l => PrivacyOperator.register_layer st l
  | .grant u tags => PrivacyOperator.grant zk st u tags
  | .deny u tags => PrivacyOperator.deny zk st u tags

/-- Replay a call history from the fresh operator. -/
def PrivacyOp.replay (zk : String → String → String → String)
    (ops : List PrivacyOp) : PrivacyState :=
  ops.foldl (PrivacyOp.apply zk) {}

/-- The explicit decision a single call makes for `(user, tag)`. -/
def opAction (user tag : String) : PrivacyOp → Option Bool
  | .grant u tags => if u = user ∧ tag ∈ tags then some true else none
  | .deny u tags => if u = user ∧ tag ∈ tags then some false else none
  | .register_layer _ => none

/-- The last explicit grant/deny decision for `(user, tag)` in a history
(later calls overwrite earlier ones per tag). -/
def lastTagAction (user tag : String) (ops : List PrivacyOp) :
    Option Bool :=
  ops.foldl
    (fun acc op =>
      match opAction user tag op with
      | some b => some b
      | none => acc)
    none

/-- Whether any grant or deny call mentioned the user (this is what makes
`setdefault` create a `ConsentRecord`). -/
def userTouched (user : String) (ops : List PrivacyOp) : Bool :=
  ops.any fun op =>
    match op with
    | .grant u _ => u = user
    | .deny u _ => u = user
    | .register_layer _ => false

theorem dictGet_dictSet_self {α : Type} (k : String) (v : α) :
    ∀ l, dictGet k (dictSet k v l) = some v
  | [] => by simp [dictGet, dictSet]
  | (k2, v2) :: rest => by
      by_cases h : k = k2
      · simp [dictGet, dictSet, h]
      · simp only [dictSet, if_neg h]
        simp only [dictGet, if_neg h]
        exact dictGet_dictSet_self k v rest

theorem dictGet_dictSet_other {α : Type} {k k2 : String} (h : k ≠ k2)
    (v : α) : ∀ l, dictGet k (dictSet k2 v l) = dictGet k l
  | [] => by simp [dictGet, dictSet, h]
  | (k3, v3) :: rest => by
      by_cases h2 : k2 = k3
      · subst h2
        simp [dictGet, dictSet, h]
      · simp only [dictSet, if_neg h2]
        by_cases h3 : k = k3
        · simp [dictGet, h3]
        · simp only [dictGet, if_neg h3]
          exact dictGet_dictSet_other h v rest

theorem setAdd_mem {a t : String} {l : List String} :
    a ∈ setAdd t l ↔ a = t ∨ a ∈ l := by
  unfold setAdd
  by_cases h : t ∈ l
  · rw [if_pos h]
    constructor
    · exact Or.inr
    · rintro (rfl | ha)
      · exact h
      · exact ha
  · rw [if_neg h]
    simp [List.mem_append]
    tauto

theorem setRemove_mem {a t : String} {l : List String} :
    a ∈ setRemove t l ↔ a ≠ t ∧ a ∈ l := by
  simp [setRemove, List.mem_filter]
  tauto

theorem grantFold_allowed (zk : String → String → String → String)
    (user tag : String) :
    ∀ (tags : List String) (r : ConsentRecord),
      (tag ∈ (tags.foldl (grantTag zk user) r).allowed ↔
        tag ∈ tags ∨ tag ∈ r.allowed)
  | [], r => by simp
  | t :: ts, r => by
      simp only [List.foldl_cons]
      rw [grantFold_allowed zk user tag ts (grantTag zk user r t)]
      simp only [grantTag, setAdd_mem, List.mem_cons]
      tauto

theorem grantFold_denied (zk : String → String → String → String)
    (user tag : String) :
    ∀ (tags : List String) (r : ConsentRecord),
      (tag ∈ (tags.foldl (grantTag zk user) r).denied ↔
        tag ∉ tags ∧ tag ∈ r.denied)
  | [], r => by simp
  | t :: ts, r => by
      simp only [List.foldl_cons]
      rw [grantFold_denied zk user tag ts (grantTag zk user r t)]
      simp only [grantTag, setRemove_mem, List.mem_cons]
      tauto

theorem denyFold_denied (zk : String → String → String → String)
    (user tag : String) :
    ∀ (tags : List String) (r : ConsentRecord),
      (tag ∈ (tags.foldl (denyTag zk user) r).denied ↔
        tag ∈ tags ∨ tag ∈ r.denied)
  | [], r => by simp
  | t :: ts, r => by
      simp only [List.foldl_cons]
      rw [denyFold_denied zk user tag ts (denyTag zk user r t)]
      simp only [denyTag, setAdd_mem, List.mem_cons]
      tauto

theorem denyFold_allowed (zk : String → String → String → String)
    (user tag : String) :
    ∀ (tags : List String) (r : ConsentRecord),
      (tag ∈ (tags.foldl (denyTag zk user) r).allowed ↔
        tag ∉ tags ∧ tag ∈ r.allowed)
  | [], r => by simp
  | t :: ts, r => by
      simp only [List.foldl_cons]
      rw [denyFold_allowed zk user tag ts (denyTag zk user r t)]
      simp only [denyTag, setRemove_mem, List.mem_cons]
      tauto

theorem lastTagAction_acc (user tag : String) :
    ∀ (ops : List PrivacyOp) (acc : Option Bool),
      ops.foldl
        (fun acc op =>
          match opAction user tag op with
          | some b => some b
          | none => acc) acc =
      match lastTagAction user tag ops with
      | some b => some b
      | none => acc
  | [], acc => by simp [lastTagAction]
  | op :: ops, acc => by
      simp only [lastTagAction, List.foldl_cons]
      rw [lastTagAction_acc user tag ops]
      rw [lastTagAction_acc user tag ops]
      cases hops : ops.foldl
          (fun acc op =>
            match opAction user tag op with
            | some b => some b
            | none => acc) none with
      | some b => simp [lastTagAction, hops]
      | none =>
          simp only [lastTagAction, hops]
          cases opAction user tag op <;> rfl

theorem lastTagAction_cons (user tag : String) (op : PrivacyOp)
    (ops : List PrivacyOp) :
    lastTagAction user tag (op :: ops) =
      match lastTagAction user tag ops with
      | some b => some b
      | none => opAction user tag op := by
  show (op :: ops).foldl _ none = _
  simp only [List.foldl_cons]
  rw [lastTagAction_acc user tag ops]
  cases opAction user tag op <;> rfl

theorem userTouched_cons (user : String) (op : PrivacyOp)
    (ops : List PrivacyOp) :
    userTouched user (op :: ops) =
      ((match op with
        | .grant u _ => decide (u = user)
        | .deny u _ => decide (u = user)
        | .register_layer _ => false) || userTouched user ops) := by
  simp only [userTouched, List.any_cons]

theorem untouched_no_action (user tag : String) :
    ∀ (ops : List PrivacyOp), userTouched user ops = false →
      lastTagAction user tag ops = none
  | [], _ => rfl
  | op :: ops, h => by
      rw [userTouched_cons] at h
      rcases Bool.or_eq_false_iff.mp h with ⟨h1, h2⟩
      rw [lastTagAction_cons, untouched_no_action user tag ops h2]
      cases op with
      | register_layer l => rfl
      | grant u tags =>
          simp only [decide_eq_false_iff_not] at h1
          simp [opAction, h1]
      | deny u tags =>
          simp only [decide_eq_false_iff_not] at h1
          simp [opAction, h1]

theorem grant_get_self (zk : String → String → String → String)
    (st : PrivacyState) (u : String) (tags : List String) :
    dictGet u (PrivacyOperator.grant zk st u tags).records =
      some (tags.foldl (grantTag zk u)
        ((dictGet u st.records).getD { user_id := u })) := by
  simp [PrivacyOperator.grant, dictGet_dictSet_self]

theorem grant_get_other (zk : String → String → String → String)
    (st : PrivacyState) {user u : String} (h : user ≠ u)
    (tags : List String) :
    dictGet user (PrivacyOperator.grant zk st u tags).records =
      dictGet user st.records := by
  simp [PrivacyOperator.grant, dictGet_dictSet_other h]

theorem deny_get_self (zk : String → String → String → String)
    (st : PrivacyState) (u : String) (tags : List String) :
    dictGet u (PrivacyOperator.deny zk st u tags).records =
      some (tags.foldl (denyTag zk u)
        ((dictGet u st.records).getD { user_id := u })) := by
  simp [PrivacyOperator.deny, dictGet_dictSet_self]

theorem deny_get_other (zk : String → String → String → String)
    (st : PrivacyState) {user u : String} (h : user ≠ u)
    (tags : List String) :
    dictGet user (PrivacyOperator.deny zk st u tags).records =
      dictGet user st.records := by
  simp [PrivacyOperator.deny, dictGet_dictSet_other h]


theorem exists_some_eq {α : Type} (X : α) (P : α → Prop) :
    (∃ r0, some X = some r0 ∧ P r0) ↔ P X := by
  constructor
  · rintro ⟨r0, h, hp⟩
    rw [← Option.some_inj.mp h] at hp
    exact hp
  · intro hp
    exact ⟨X, rfl, hp⟩

theorem replay_record_spec (zk : String → String → String → String) :
    ∀ (ops : List PrivacyOp) (st : PrivacyState) (user : String),
      (dictGet user (ops.foldl (PrivacyOp.apply zk) st).records = none ↔
        (userTouched user ops = false ∧
          dictGet user st.records = none)) ∧
      (∀ r,
        dictGet user (ops.foldl (PrivacyOp.apply zk) st).records = some r →
        ∀ tag,
          (tag ∈ r.allowed ↔
            (lastTagAction user tag ops = some true ∨
              (lastTagAction user tag ops = none ∧
                ∃ r0, dictGet user st.records = some r0 ∧
                  tag ∈ r0.allowed))) ∧
          (tag ∈ r.denied ↔
            (lastTagAction user tag ops = some false ∨
              (lastTagAction user tag ops = none ∧
                ∃ r0, dictGet user st.records = some r0 ∧
                  tag ∈ r0.denied))))
  | [], st, user => by
      refine ⟨by simp [userTouched], ?_⟩
      intro r hr tag
      simp only [List.foldl_nil] at hr
      have hla : lastTagAction user tag [] = none := rfl
      rw [hla]
      simp [hr]
  | op :: ops, st, user => by
      simp only [List.foldl_cons]
      have IH := replay_record_spec zk ops (PrivacyOp.apply zk st op) user
      have hTouch := userTouched_cons user op ops
      cases op with
      | register_layer l =>
          have hrec :
              (PrivacyOp.apply zk st (.register_layer l)).records =
                st.records := rfl
          constructor
          · rw [IH.1, hrec, hTouch]
            simp
          · intro r hr tag
            have hm := IH.2 r hr tag
            rw [hrec] at hm
            rw [lastTagAction_cons]
            have hop : opAction user tag (.register_layer l) = none := rfl
            rw [hop]
            cases hla : lastTagAction user tag ops with
            | some b => rw [hla] at hm; exact hm
            | none => rw [hla] at hm; exact hm
      | grant u tags =>
          by_cases hu : u = user
          · subst hu
            have hget0 := grant_get_self zk st u tags
            have hget : dictGet u
                (PrivacyOp.apply zk st (.grant u tags)).records =
                some (tags.foldl (grantTag zk u)
                  ((dictGet u st.records).getD { user_id := u })) := hget0
            constructor
            · rw [IH.1, hTouch]
              constructor
              · rintro ⟨_, habs⟩
                rw [hget] at habs
                exact absurd habs (by simp)
              · rintro ⟨habs, _⟩
                simp at habs
            · intro r hr tag
              have hm := IH.2 r hr tag
              rw [hget] at hm
              rw [lastTagAction_cons]
              have hop : opAction u tag (.grant u tags) =
                  (if tag ∈ tags then some true else none) := by
                simp [opAction]
              rw [hop]
              have hGA := grantFold_allowed zk u tag tags
                ((dictGet u st.records).getD { user_id := u })
              have hGD := grantFold_denied zk u tag tags
                ((dictGet u st.records).getD { user_id := u })
              rw [exists_some_eq, exists_some_eq] at hm
              cases hla : lastTagAction u tag ops with
              | some b =>
                  rw [hla] at hm
                  have hg1 : tag ∈ r.allowed ↔ b = true := by
                    rw [hm.1]; simp
                  have hg2 : tag ∈ r.denied ↔ b = false := by
                    rw [hm.2]; simp
                  constructor
                  · rw [hg1]; simp
                  · rw [hg2]; simp
              | none =>
                  rw [hla] at hm
                  have hg1 : tag ∈ r.allowed ↔
                      tag ∈ tags ∨ tag ∈ ((dictGet u st.records).getD
                        { user_id := u }).allowed := by
                    rw [hm.1, hGA]; simp
                  have hg2 : tag ∈ r.denied ↔
                      tag ∉ tags ∧ tag ∈ ((dictGet u st.records).getD
                        { user_id := u }).denied := by
                    rw [hm.2, hGD]; simp
                  by_cases htag : tag ∈ tags
                  · rw [if_pos htag]
                    constructor
                    · rw [hg1]; simp [htag]
                    · rw [hg2]; simp [htag]
                  · rw [if_neg htag]
                    constructor
                    · rw [hg1]
                      simp only [htag, false_or, reduceCtorEq, true_and]
                      cases hst : dictGet u st.records with
                      | some rb => simp [Option.getD, exists_some_eq]
                      | none => simp [Option.getD]
                    · rw [hg2]
                      simp only [htag, not_false_iff, true_and,
                        reduceCtorEq, false_or]
                      cases hst : dictGet u st.records with
                      | some rb => simp [Option.getD, exists_some_eq]
                      | none => simp [Option.getD]
          · have hget0 := grant_get_other zk st
              (fun h => hu h.symm : user ≠ u) tags
            have hget : dictGet user
                (PrivacyOp.apply zk st (.grant u tags)).records =
                dictGet user st.records := hget0
            constructor
            · rw [IH.1, hTouch, hget]
              simp [hu]
            · intro r hr tag
              have hm := IH.2 r hr tag
              rw [hget] at hm
              rw [lastTagAction_cons]
              have hop2 : opAction user tag (.grant u tags) = none := by
                simp [opAction, hu]
              rw [hop2]
              cases hla : lastTagAction user tag ops with
              | some b => rw [hla] at hm; exact hm
              | none => rw [hla] at hm; exact hm
      | deny u tags =>
          by_cases hu : u = user
          · subst hu
            have hget0 := deny_get_self zk st u tags
            have hget : dictGet u
                (PrivacyOp.apply zk st (.deny u tags)).records =
                some (tags.foldl (denyTag zk u)
                  ((dictGet u st.records).getD { user_id := u })) := hget0
            constructor
            · rw [IH.1, hTouch]
              constructor
              · rintro ⟨_, habs⟩
                rw [hget] at habs
                exact absurd habs (by simp)
              · rintro ⟨habs, _⟩
                simp at habs
            · intro r hr tag
              have hm := IH.2 r hr tag
              rw [hget] at hm
              rw [lastTagAction_cons]
              have hop : opAction u tag (.deny u tags) =
                  (if tag ∈ tags then some false else none) := by
                simp [opAction]
              rw [hop]
              have hDA := denyFold_allowed zk u tag tags
                ((dictGet u st.records).getD { user_id := u })
              have hDD := denyFold_denied zk u tag tags
                ((dictGet u st.records).getD { user_id := u })
              rw [exists_some_eq, exists_some_eq] at hm
              cases hla : lastTagAction u tag ops with
              | some b =>
                  rw [hla] at hm
                  have hg1 : tag ∈ r.allowed ↔ b = true := by
                    rw [hm.1]; simp
                  have hg2 : tag ∈ r.denied ↔ b = false := by
                    rw [hm.2]; simp
                  constructor
                  · rw [hg1]; simp
                  · rw [hg2]; simp
              | none =>
                  rw [hla] at hm
                  have hg1 : tag ∈ r.allowed ↔
                      tag ∉ tags ∧ tag ∈ ((dictGet u st.records).getD
                        { user_id := u }).allowed := by
                    rw [hm.1, hDA]; simp
                  have hg2 : tag ∈ r.denied ↔
                      tag ∈ tags ∨ tag ∈ ((dictGet u st.records).getD
                        { user_id := u }).denied := by
                    rw [hm.2, hDD]; simp
                  by_cases htag : tag ∈ tags
                  · rw [if_pos htag]
                    constructor
                    · rw [hg1]; simp [htag]
                    · rw [hg2]; simp [htag]
                  · rw [if_neg htag]
                    constructor
                    · rw [hg1]
                      simp only [htag, not_false_iff, true_and,
                        reduceCtorEq, false_or]
                      cases hst : dictGet u st.records with
                      | some rb => simp [Option.getD, exists_some_eq]
                      | none => simp [Option.getD]
                    · rw [hg2]
                      simp only [htag, false_or, reduceCtorEq, true_and]
                      cases hst : dictGet u st.records with
                      | some rb => simp [Option.getD, exists_some_eq]
                      | none => simp [Option.getD]
          · have hget0 := deny_get_other zk st
              (fun h => hu h.symm : user ≠ u) tags
            have hget : dictGet user
                (PrivacyOp.apply zk st (.deny u tags)).records =
                dictGet user st.records := hget0
            constructor
            · rw [IH.1, hTouch, hget]
              simp [hu]
            · intro r hr tag
              have hm := IH.2 r hr tag
              rw [hget] at hm
              rw [lastTagAction_cons]
              have hop2 : opAction user tag (.deny u tags) = none := by
                simp [opAction, hu]
              rw [hop2]
              cases hla : lastTagAction user tag ops with
              | some b => rw [hla] at hm; exact hm
              | none => rw [hla] at hm; exact hm

theorem touched_of_record (zk : String → String → String → String)
    (ops : List PrivacyOp) (user : String) {r : ConsentRecord}
    (hrec : dictGet user (PrivacyOp.replay zk ops).records = some r) :
    userTouched user ops = true := by
  by_contra hc
  have huntouched : userTouched user ops = false := Bool.eq_false_iff.mpr hc
  have h1 := (replay_record_spec zk ops {} user).1.mpr ⟨huntouched, rfl⟩
  rw [show (ops.foldl (PrivacyOp.apply zk) {}) = PrivacyOp.replay zk ops
    from rfl] at h1
  rw [h1] at hrec
  exact absurd hrec (by simp)

/-- C8 (amended): for any call history, `is_allowed` returns the last
explicit per-tag grant/deny decision; with no explicit decision it falls
back to the first registered layer whose scope holds the tag (true iff
its `default_action` is `"allow"`, false when no layer matches) — but
only for users some grant or deny call has mentioned. For a user with no
consent record the method returns false without consulting any layer. -/
theorem C8_layer_fallback (zk : String → String → String → String)
    (ops : List PrivacyOp) (user tag : String) :
    PrivacyOperator.is_allowed (PrivacyOp.replay zk ops) user tag =
      (match lastTagAction user tag ops with
       | some b => b
       | none =>
         if userTouched user ops then
           (match PrivacyOperator.layer_for (PrivacyOp.replay zk ops) tag
            with
            | some l => decide (l.default_action = "allow")
            | none => false)
         else false) := by
  have spec := replay_record_spec zk ops {} user
  rw [show (ops.foldl (PrivacyOp.apply zk) {}) = PrivacyOp.replay zk ops
    from rfl] at spec
  cases hrec : dictGet user (PrivacyOp.replay zk ops).records with
  | none =>
      obtain ⟨huntouched, _⟩ := spec.1.mp hrec
      have hla := untouched_no_action user tag ops huntouched
      rw [hla, huntouched]
      unfold PrivacyOperator.is_allowed
      rw [hrec]
      rfl
  | some r =>
      have hm := spec.2 r hrec tag
      simp only [dictGet, false_and, and_false, exists_false, and_false,
        false_or] at hm
      have hm1 : tag ∈ r.allowed ↔ lastTagAction user tag ops = some true := by
        rw [hm.1]
        simp
      have hm2 : tag ∈ r.denied ↔ lastTagAction user tag ops = some false := by
        rw [hm.2]
        simp
      have htouched := touched_of_record zk ops user hrec
      unfold PrivacyOperator.is_allowed
      rw [hrec]
      show (if tag ∈ r.denied then false
        else if tag ∈ r.allowed then true
        else
          match PrivacyOperator.layer_for (PrivacyOp.replay zk ops) tag with
          | some l => decide (l.default_action = "allow")
          | none => false) = _
      cases hla : lastTagAction user tag ops with
      | some b =>
          cases b with
          | true =>
              have hnd : tag ∉ r.denied := by
                rw [hm2, hla]
                simp
              have hal : tag ∈ r.allowed := hm1.mpr hla
              rw [if_neg hnd, if_pos hal]
          | false =>
              have hd : tag ∈ r.denied := hm2.mpr hla
              rw [if_pos hd]
      | none =>
          have hnd : tag ∉ r.denied := by
            rw [hm2, hla]
            simp
          have hna : tag ∉ r.allowed := by
            rw [hm1, hla]
            simp
          rw [if_neg hnd, if_neg hna, htouched]
          simp

/-- An opaque stand-in for `_zk_proof`. -/
def demoZk : String → String → String → String := fun _ _ _ => "proof"

/-- C8 counterexample: with a registered layer whose scope holds `"text"`
and `default_action = "allow"`, a user for whom no grant or deny call was
ever made still gets `is_allowed = false` — the record lookup
short-circuits before any layer is consulted, contradicting the claim
that the first matching layer decides for every user. -/
theorem C8_counterexample :
    PrivacyOperator.layer_for
        (PrivacyOp.replay demoZk
          [PrivacyOp.register_layer
            { name := "base", scope := ["text"], default_action := "allow" }])
        "text" =
      some { name := "base", scope := ["text"],
             default_action := "allow" } ∧
    PrivacyOperator.is_allowed
        (PrivacyOp.replay demoZk
          [PrivacyOp.register_layer
            { name := "base", scope := ["text"], default_action := "allow" }])
        "user-1" "text" = false := by
  constructor
  · rfl
  · rfl

/-
Section: kolibri_x/personalization/empathy.py (with profile.py types).
Floats are exact rationals. Snapshot timestamps and raw interaction
signals are display-only (never read by `derive_style`) and are elided.
-/

/-- `EmotionalSnapshot` (profile.py). -/
structure EmotionalSnapshot where
  sentiment : ℚ := 0
  arousal : ℚ := 0
  dominance : ℚ := 0
deriving DecidableEq

/-- `EmotionalSnapshot.average`: componentwise mean, zero on empty. -/
def EmotionalSnapshot.average (l : List EmotionalSnapshot) :
    EmotionalSnapshot :=
  match l with
  | [] => {}
  | _ =>
      { sentiment := (l.map EmotionalSnapshot.sentiment).sum / l.length,
        arousal := (l.map EmotionalSnapshot.arousal).sum / l.length,
        dominance := (l.map EmotionalSnapshot.dominance).sum / l.length }

/-- `UserProfile` (the fields `derive_style`/`modulation` read). -/
structure UserProfile where
  user_id : String
  tone_preference : ℚ := 0
  tempo_preference : ℚ := 1
  formality_bias : ℚ := 0
  response_length_bias : ℚ := 0
  style_preferences : List (String × ℚ) := []
  cognitive_preferences : List (String × ℚ) := []
  emotion_baseline : EmotionalSnapshot := {}
  emotion_history : List EmotionalSnapshot := []
  modality_exposure : List (String × ℚ) := []
deriving DecidableEq

/-- `EmpathyContext`. -/
structure EmpathyContext where
  sentiment : ℚ := 0
  urgency : ℚ := 0
  energy : ℚ := 0
  medium : String := "text"
  turn_index : Int := 0
  latency_s : ℚ := 1
  topic : Option String := none
  cognitive_load : ℚ := 1/2
deriving DecidableEq

/-- `EmotionalProfile` as assembled by `_emotional_profile`. -/
structure EmotionalProfile where
  baseline : EmotionalSnapshot
  short_term : EmotionalSnapshot
  long_term : EmotionalSnapshot
  trend : List (String × ℚ)
  modality_mix : List (String × ℚ)
deriving DecidableEq

/-- Metadata values of `ResponseStyle.as_metadata`. -/
inductive MetaV where
  | num (q : ℚ)
  | flag (b : Bool)
deriving DecidableEq

/-- Python `max` on rationals (kernel-reducible). -/
def maxQ (a b : ℚ) : ℚ := if a ≤ b then b else a

/-- Python `min` on rationals (kernel-reducible). -/
def minQ (a b : ℚ) : ℚ := if a ≤ b then a else b

/-- Python `max` on naturals (kernel-reducible). -/
def maxN (a b : Nat) : Nat := if a ≤ b then b else a

theorem maxQ_eq_max (a b : ℚ) : maxQ a b = max a b := by
  unfold maxQ
  rcases le_total a b with h | h
  · rw [if_pos h, max_eq_right h]
  · by_cases h2 : a ≤ b
    · rw [if_pos h2, max_eq_right h2]
    · rw [if_neg h2, max_eq_left h]

theorem minQ_eq_min (a b : ℚ) : minQ a b = min a b := by
  unfold minQ
  rcases le_total a b with h | h
  · rw [if_pos h, min_eq_left h]
  · by_cases h2 : a ≤ b
    · rw [if_pos h2, min_eq_left h2]
    · rw [if_neg h2, min_eq_right h]

/-- `self._clamp(value, lower, upper) = max(lower, min(upper, value))`. -/
def clampQ (v lo hi : ℚ) : ℚ := maxQ lo (minQ hi v)

/-- Python `history[-n:]`. -/
def lastN {α : Type} (n : Nat) (l : List α) : List α :=
  l.drop (l.length - n)

/-- `AdaptiveCommunicator.derive_style`, returning `as_metadata()` of the
resulting `ResponseStyle` (keys in construction order; the `**hints`
merge appends the hint keys, which are fresh). -/
def derive_style (base_tempo : ℚ) (profile : UserProfile)
    (emotional : EmotionalProfile) (ctx : EmpathyContext) :
    List (String × MetaV) :=
  let baseline := emotional.baseline
  let short_term := emotional.short_term
  let trend := emotional.trend
  let trendSent := (dictGet "sentiment" trend).getD 0
  let tone := clampQ
    (profile.tone_preference + ctx.sentiment * (35/100)
      + short_term.sentiment * (25/100) - ctx.urgency * (2/10)
      - maxQ trendSent 0 * (1/10)) (-1) 1
  let tempo_multiplier := clampQ
    (profile.tempo_preference + ctx.urgency * (45/100)
      + short_term.arousal * (25/100) + ctx.energy * (2/10)) (4/10) 3
  let tempo := clampQ (base_tempo * tempo_multiplier) (2/10) 3
  let formality := clampQ
    (profile.formality_bias
      + ((dictGet "structure" profile.cognitive_preferences).getD 0) * (2/10)
      - baseline.dominance * (1/10) + (1 - ctx.energy) * (5/100)) (-1) 1
  let latency_multiplier := clampQ
    (1 - ctx.urgency * (35/100)
      + maxQ 0 ((6/10) - short_term.arousal) * (25/100)
      + (1 - ctx.latency_s / maxQ ctx.latency_s 1) * (5/100)) (1/2) (3/2)
  let acknowledgement : Bool :=
    (short_term.sentiment < -(1/10)) || (ctx.sentiment < -(1/10))
      || (((dictGet "sentiment" trend).getD 0) < -(5/100))
  let mirroring_pref := (dictGet "mirroring" profile.style_preferences).getD
    (1/2)
  let mirroring_level := clampQ
    (mirroring_pref + ctx.cognitive_load * (2/10)
      + short_term.dominance * (-(1/10))) 0 1
  let hints : List (String × MetaV) :=
    [("response_length",
      .num (clampQ (profile.response_length_bias
        + ctx.cognitive_load * (-(2/10))) (-1) 1)),
     ("empathy_boost", .num (clampQ (-trendSent) 0 1)),
     ("grounding",
      .num (clampQ (baseline.dominance + ctx.cognitive_load * (1/10)) 0 1))]
    ++ (if ctx.medium = "voice" then
      [("prosody::warmth", .num (clampQ (tone + 1/10) (-1) 1)),
       ("prosody::pace", .num tempo)]
    else [])
  [("tone", .num tone), ("tempo", .num tempo),
   ("formality", .num formality), ("style::formality", .num formality),
   ("latency_multiplier", .num latency_multiplier),
   ("acknowledgement", .flag acknowledgement),
   ("mirroring_level", .num mirroring_level)] ++ hints

/-- `EmpathyModulator._emotional_profile` (recent-signal display data
elided; `derive_style` never reads it). -/
def emotional_profile (short_window : Nat) (profile : UserProfile) :
    EmotionalProfile :=
  let history := profile.emotion_history
  let short_term := EmotionalSnapshot.average (lastN short_window history)
  let long_term := EmotionalSnapshot.average history
  let trend :=
    [("sentiment", short_term.sentiment - profile.emotion_baseline.sentiment),
     ("arousal", short_term.arousal - profile.emotion_baseline.arousal),
     ("dominance",
      short_term.dominance - profile.emotion_baseline.dominance)]
  let total0 := (profile.modality_exposure.map Prod.snd).sum
  let total := if total0 = 0 then 1 else total0
  { baseline := profile.emotion_baseline, short_term := short_term,
    long_term := long_term, trend := trend,
    modality_mix :=
      profile.modality_exposure.map fun kv => (kv.1, kv.2 / total) }

/-- `EmpathyModulator.modulation` (constructor applies
`max(short_window, 1)`). -/
def EmpathyModulator.modulation (base_tempo : ℚ) (short_window : Nat)
    (profile : UserProfile) (ctx : EmpathyContext) :
    List (String × MetaV) :=
  derive_style base_tempo profile
    (emotional_profile (maxN short_window 1) profile) ctx

/-- The short-term sentiment used by the modulator. -/
def shortSent (short_window : Nat) (profile : UserProfile) : ℚ :=
  (EmotionalSnapshot.average
    (lastN (maxN short_window 1) profile.emotion_history)).sentiment

theorem clampQ_le {v lo hi : ℚ} (h : lo ≤ hi) :
    lo ≤ clampQ v lo hi ∧ clampQ v lo hi ≤ hi := by
  unfold clampQ
  rw [maxQ_eq_max, minQ_eq_min]
  constructor
  · exact le_max_left _ _
  · rcases le_total hi v with hv | hv
    · simp [min_eq_left hv, max_eq_right h, h]
    · rcases le_total lo v with h2 | h2
      · rw [min_eq_right hv]
        simp [max_eq_right h2]
        exact hv
      · rw [min_eq_right hv]
        rw [max_eq_left h2]
        exact h

/-- C9 (amended): the modulation's tone equals
`clamp(tone_pref + 0.35·sentiment + 0.25·short_term_sentiment −
0.2·urgency − 0.1·max(short_term_sentiment − baseline_sentiment, 0),
−1, 1)`, where `short_term_sentiment` is the mean sentiment of the last
`max(short_window, 1)` emotion-history snapshots; it always lies in
[−1, 1] and depends only on the tone preference, the emotion history,
the baseline sentiment and the context's sentiment and urgency. -/
theorem C9_tone_formula (bt : ℚ) (w : Nat) (profile : UserProfile)
    (ctx : EmpathyContext) :
    dictGet "tone" (EmpathyModulator.modulation bt w profile ctx) =
      some (MetaV.num (clampQ
        (profile.tone_preference + ctx.sentiment * (35/100)
          + shortSent w profile * (25/100) - ctx.urgency * (2/10)
          - maxQ (shortSent w profile - profile.emotion_baseline.sentiment)
              0 * (1/10)) (-1) 1)) ∧
    (∀ q : ℚ,
      dictGet "tone" (EmpathyModulator.modulation bt w profile ctx) =
        some (MetaV.num q) → -1 ≤ q ∧ q ≤ 1) ∧
    (∀ (p2 : UserProfile) (c2 : EmpathyContext),
      p2.tone_preference = profile.tone_preference →
      p2.emotion_history = profile.emotion_history →
      p2.emotion_baseline.sentiment = profile.emotion_baseline.sentiment →
      c2.sentiment = ctx.sentiment → c2.urgency = ctx.urgency →
      dictGet "tone" (EmpathyModulator.modulation bt w p2 c2) =
        dictGet "tone" (EmpathyModulator.modulation bt w profile ctx)) := by
  have hmain : ∀ (p : UserProfile) (c : EmpathyContext),
      dictGet "tone" (EmpathyModulator.modulation bt w p c) =
        some (MetaV.num (clampQ
          (p.tone_preference + c.sentiment * (35/100)
            + shortSent w p * (25/100) - c.urgency * (2/10)
            - max (shortSent w p - p.emotion_baseline.sentiment)
                0 * (1/10)) (-1) 1)) := by
    intro p c
    rfl
  refine ⟨hmain profile ctx, ?_, ?_⟩
  · intro q hq
    rw [hmain profile ctx] at hq
    have hq2 := Option.some_inj.mp hq
    have hq3 : q = clampQ
        (profile.tone_preference + ctx.sentiment * (35/100)
          + shortSent w profile * (25/100) - ctx.urgency * (2/10)
          - maxQ (shortSent w profile - profile.emotion_baseline.sentiment)
              0 * (1/10)) (-1) 1 := by
      cases hq2
      rfl
    rw [hq3]
    exact clampQ_le (by norm_num)
  · intro p2 c2 h1 h2 h3 h4 h5
    rw [hmain p2 c2, hmain profile ctx]
    have hshort : shortSent w p2 = shortSent w profile := by
      unfold shortSent
      rw [h2]
    rw [hshort, h1, h3, h4, h5]

/-- Default profile for the C9 counterexample. -/
def profileDemo : UserProfile := { user_id := "user-1" }

/-- Context with sentiment 1 and urgency 0 for the C9 counterexample. -/
def ctxDemo : EmpathyContext := { sentiment := 1 }

/-- C9 counterexample: with the default profile (tone preference 0, no
emotion history) and context sentiment 1, urgency 0, the claimed formula
`clamp(tone_pref + 0.5·sentiment − 0.2·urgency, −1, 1)` gives 1/2, but
the code produces 0.35 — the sentiment coefficient is 0.35, not 0.5. -/
theorem C9_counterexample :
    dictGet "tone" (EmpathyModulator.modulation 1 6 profileDemo ctxDemo) =
      some (MetaV.num (7/20)) ∧
    clampQ (profileDemo.tone_preference + (1/2) * ctxDemo.sentiment
      - (1/5) * ctxDemo.urgency) (-1) 1 = 1/2 ∧
    (7/20 : ℚ) ≠ 1/2 := by
  refine ⟨by with_unfolding_all rfl, by with_unfolding_all decide,
    by with_unfolding_all decide⟩

/-- Witness for C9: the bounds and frame conjuncts applied at a concrete
profile and context, hypotheses discharged by `rfl`/`decide`. -/
theorem C9_witness :
    (-1 ≤ (7/20 : ℚ) ∧ (7/20 : ℚ) ≤ 1) ∧
    dictGet "tone" (EmpathyModulator.modulation 1 6 profileDemo ctxDemo) =
      dictGet "tone" (EmpathyModulator.modulation 1 6 profileDemo ctxDemo) :=
  ⟨(C9_tone_formula 1 6 profileDemo ctxDemo).2.1 (7/20)
      (by with_unfolding_all rfl),
   (C9_tone_formula 1 6 profileDemo ctxDemo).2.2 profileDemo ctxDemo
     rfl rfl rfl rfl rfl⟩

/-
Section: kolibri_x/runtime/cache.py — RAGCache over OfflineCache.
Aliasing is made explicit: mutable Python objects are trees whose nodes
carry heap addresses; `copy.deepcopy` re-labels every node with fresh
addresses; a heap mutation at address `a` rewrites the fields of every
node labelled `a` (all aliases of one object). `erase` is the pure value
of a tree, the thing `==` compares.
-/

/-- A Python object graph node: immutable primitive or mutable mapping
with a heap address. -/
inductive JTree where
  | prim (s : String)
  | node (addr : Nat) (fields : List (String × JTree))

mutual

/-- The heap addresses reachable from a tree. -/
def JTree.addrs : JTree → List Nat
  | .prim _ => []
  | .node a fs => a :: JTree.addrsF fs

/-- Addresses reachable from a field list. -/
def JTree.addrsF : List (String × JTree) → List Nat
  | [] => []
  | (_, t) :: rest => t.addrs ++ JTree.addrsF rest

end

mutual

/-- `copy.deepcopy` with a fresh-address supply. -/
def dcopy : JTree → Nat → JTree × Nat
  | .prim s, n => (.prim s, n)
  | .node _ fs, n =>
      let r := dcopyF fs (n + 1)
      (.node n r.1, r.2)

/-- Deep-copy a field list. -/
def dcopyF : List (String × JTree) → Nat → List (String × JTree) × Nat
  | [], n => ([], n)
  | (k, t) :: rest, n =>
      let r1 := dcopy t n
      let r2 := dcopyF rest r1.2
      ((k, r1.1) :: r2.1, r2.2)

end

mutual

/-- The pure value of a tree (addresses forgotten), as a `JValue`. -/
def JTree.erase : JTree → JValue
  | .prim s => .jstr s
  | .node _ fs => .jobj (JTree.eraseF fs)

/-- Erase a field list. -/
def JTree.eraseF : List (String × JTree) → List (String × JValue)
  | [] => []
  | (k, t) :: rest => (k, t.erase) :: JTree.eraseF rest

end

mutual

/-- Heap mutation: apply `f` to the field list of every node whose
address is `a` (they alias one object), leaving the rest intact. -/
def mutateAt (a : Nat) (f : List (String × JTree) → List (String × JTree)) :
    JTree → JTree
  | .prim s => .prim s
  | .node a2 fs =>
      if a2 = a then .node a2 (f (mutateAtF a f fs))
      else .node a2 (mutateAtF a f fs)

/-- Mutate below a field list. -/
def mutateAtF (a : Nat)
    (f : List (String × JTree) → List (String × JTree)) :
    List (String × JTree) → List (String × JTree)
  | [] => []
  | (k, t) :: rest => (k, mutateAt a f t) :: mutateAtF a f rest

end

mutual

theorem mutateAt_not_mem (a : Nat)
    (f : List (String × JTree) → List (String × JTree)) :
    ∀ t : JTree, a ∉ t.addrs → mutateAt a f t = t
  | .prim s, _ => rfl
  | .node a2 fs, h => by
      have ha2 : a2 ≠ a := by
        intro hq
        exact h (by rw [hq]; exact List.mem_cons_self _ _)
      have hfs : a ∉ JTree.addrsF fs := by
        intro hq
        exact h (List.mem_cons_of_mem _ hq)
      show (if a2 = a then _ else JTree.node a2 (mutateAtF a f fs)) = _
      rw [if_neg ha2, mutateAtF_not_mem a f fs hfs]

theorem mutateAtF_not_mem (a : Nat)
    (f : List (String × JTree) → List (String × JTree)) :
    ∀ l : List (String × JTree), a ∉ JTree.addrsF l → mutateAtF a f l = l
  | [], _ => rfl
  | (k, t) :: rest, h => by
      have ht : a ∉ t.addrs := by
        intro hq
        exact h (by
          show a ∈ t.addrs ++ JTree.addrsF rest
          exact List.mem_append_left _ hq)
      have hrest : a ∉ JTree.addrsF rest := by
        intro hq
        exact h (by
          show a ∈ t.addrs ++ JTree.addrsF rest
          exact List.mem_append_right _ hq)
      show (k, mutateAt a f t) :: mutateAtF a f rest = _
      rw [mutateAt_not_mem a f t ht, mutateAtF_not_mem a f rest hrest]

end

mutual

theorem dcopy_bounds :
    ∀ (t : JTree) (n : Nat),
      n ≤ (dcopy t n).2 ∧
        ∀ a ∈ (dcopy t n).1.addrs, n ≤ a ∧ a < (dcopy t n).2
  | .prim _, n => by
      refine ⟨le_refl n, ?_⟩
      intro a ha
      simp [dcopy, JTree.addrs] at ha
  | .node a0 fs, n => by
      have hf := dcopyF_bounds fs (n + 1)
      constructor
      · show n ≤ (dcopyF fs (n + 1)).2
        exact le_trans (Nat.le_succ n) hf.1
      · intro a ha
        show n ≤ a ∧ a < (dcopyF fs (n + 1)).2
        have ha2 : a ∈ (JTree.node n (dcopyF fs (n + 1)).1).addrs := ha
        rcases List.mem_cons.mp ha2 with h | h
        · subst h
          exact ⟨le_refl a, lt_of_lt_of_le (Nat.lt_succ_self a) hf.1⟩
        · have := hf.2 a h
          exact ⟨le_trans (Nat.le_succ n) this.1, this.2⟩

theorem dcopyF_bounds :
    ∀ (l : List (String × JTree)) (n : Nat),
      n ≤ (dcopyF l n).2 ∧
        ∀ a ∈ JTree.addrsF (dcopyF l n).1, n ≤ a ∧ a < (dcopyF l n).2
  | [], n => by
      refine ⟨le_refl n, ?_⟩
      intro a ha
      simp [dcopyF, JTree.addrsF] at ha
  | (k, t) :: rest, n => by
      have h1 := dcopy_bounds t n
      have h2 := dcopyF_bounds rest (dcopy t n).2
      constructor
      · show n ≤ (dcopyF rest (dcopy t n).2).2
        exact le_trans h1.1 h2.1
      · intro a ha
        show n ≤ a ∧ a < (dcopyF rest (dcopy t n).2).2
        have ha2 : a ∈ (dcopy t n).1.addrs ++
            JTree.addrsF (dcopyF rest (dcopy t n).2).1 := ha
        rcases List.mem_append.mp ha2 with h | h
        · have := h1.2 a h
          exact ⟨this.1, lt_of_lt_of_le this.2 h2.1⟩
        · have := h2.2 a h
          exact ⟨le_trans h1.1 this.1, this.2⟩

end

mutual

theorem dcopy_erase :
    ∀ (t : JTree) (n : Nat), (dcopy t n).1.erase = t.erase
  | .prim _, _ => rfl
  | .node a0 fs, n => by
      show JValue.jobj (JTree.eraseF (dcopyF fs (n + 1)).1) = _
      rw [dcopyF_erase fs (n + 1)]
      rfl

theorem dcopyF_erase :
    ∀ (l : List (String × JTree)) (n : Nat),
      JTree.eraseF (dcopyF l n).1 = JTree.eraseF l
  | [], _ => rfl
  | (k, t) :: rest, n => by
      show (k, (dcopy t n).1.erase) ::
          JTree.eraseF (dcopyF rest (dcopy t n).2).1 = _
      rw [dcopy_erase t n, dcopyF_erase rest (dcopy t n).2]
      rfl

end

theorem dictGet_none_of_not_mem {α : Type} (k : String) :
    ∀ l : List (String × α), k ∉ l.map Prod.fst → dictGet k l = none
  | [], _ => rfl
  | (k2, v2) :: rest, h => by
      have hne : k ≠ k2 := by
        intro hq
        exact h (by rw [hq]; exact List.mem_cons_self _ _)
      show (if k = k2 then some v2 else dictGet k rest) = none
      rw [if_neg hne]
      exact dictGet_none_of_not_mem k rest fun hq =>
        h (List.mem_cons_of_mem _ hq)

theorem dictGet_filter {α : Type} (p : String × α → Bool) (k : String) :
    ∀ l : List (String × α), (l.map Prod.fst).Nodup →
      dictGet k (l.filter p) =
        (match dictGet k l with
         | some v => if p (k, v) then some v else none
         | none => none)
  | [], _ => rfl
  | (k2, v2) :: rest, hnd => by
      rw [List.map_cons] at hnd
      have hk2 : k2 ∉ rest.map Prod.fst := (List.nodup_cons.mp hnd).1
      have hrest : (rest.map Prod.fst).Nodup := (List.nodup_cons.mp hnd).2
      by_cases hk : k = k2
      · subst hk
        have hd : dictGet k ((k, v2) :: rest) = some v2 := by
          show (if k = k then some v2 else dictGet k rest) = some v2
          rw [if_pos rfl]
        rw [hd]
        by_cases hp : p (k, v2) = true
        · rw [List.filter_cons_of_pos hp]
          show (if k = k then some v2 else dictGet k (rest.filter p)) = _
          rw [if_pos rfl]
          simp [hp]
        · rw [List.filter_cons_of_neg hp]
          rw [dictGet_filter p k rest hrest,
            dictGet_none_of_not_mem k rest hk2]
          simp [hp]
      · have hd : dictGet k ((k2, v2) :: rest) = dictGet k rest := by
          show (if k = k2 then some v2 else dictGet k rest) = _
          rw [if_neg hk]
        rw [hd]
        by_cases hp : p (k2, v2) = true
        · rw [List.filter_cons_of_pos hp]
          show (if k = k2 then some v2 else dictGet k (rest.filter p)) = _
          rw [if_neg hk]
          exact dictGet_filter p k rest hrest
        · rw [List.filter_cons_of_neg hp]
          exact dictGet_filter p k rest hrest

theorem dictGet_map_snd {α β : Type} (g : α → β) (k : String) :
    ∀ l : List (String × α),
      dictGet k (l.map fun kv => (kv.1, g kv.2)) = (dictGet k l).map g
  | [] => rfl
  | (k2, v2) :: rest => by
      by_cases hk : k = k2
      · subst hk
        show (if k = k then some (g v2) else _) =
          Option.map g (if k = k then some v2 else _)
        rw [if_pos rfl, if_pos rfl]
        rfl
      · show (if k = k2 then some (g v2) else
            dictGet k (rest.map fun kv => (kv.1, g kv.2))) =
          Option.map g (if k = k2 then some v2 else dictGet k rest)
        rw [if_neg hk, if_neg hk]
        exact dictGet_map_snd g k rest

theorem map_fst_map_snd {α β : Type} (g : α → β)
    (l : List (String × α)) :
    (l.map fun kv => (kv.1, g kv.2)).map Prod.fst = l.map Prod.fst := by
  induction l with
  | nil => rfl
  | cons kv rest ih => simp [ih]

theorem dictSet_keys_subset {α : Type} (k : String) (v : α) :
    ∀ (l : List (String × α)) (x : String),
      x ∈ (dictSet k v l).map Prod.fst → x = k ∨ x ∈ l.map Prod.fst
  | [], x, hx => by
      simp [dictSet] at hx
      exact Or.inl hx
  | (k2, v2) :: rest, x, hx => by
      by_cases hk : k = k2
      · have he : dictSet k v ((k2, v2) :: rest) = (k2, v) :: rest := by
          simp only [dictSet]
          rw [if_pos hk]
        rw [he, List.map_cons] at hx
        rcases List.mem_cons.mp hx with hx | hx
        · right
          rw [List.map_cons, hx]
          exact List.mem_cons_self _ _
        · right
          rw [List.map_cons]
          exact List.mem_cons_of_mem _ hx
      · have he : dictSet k v ((k2, v2) :: rest) =
            (k2, v2) :: dictSet k v rest := by
          simp only [dictSet]
          rw [if_neg hk]
        rw [he, List.map_cons] at hx
        rcases List.mem_cons.mp hx with hx | hx
        · right
          rw [List.map_cons, hx]
          exact List.mem_cons_self _ _
        · rcases dictSet_keys_subset k v rest x hx with h | h
          · exact Or.inl h
          · right
            rw [List.map_cons]
            exact List.mem_cons_of_mem _ h

theorem dictSet_keys_nodup {α : Type} (k : String) (v : α) :
    ∀ l : List (String × α), (l.map Prod.fst).Nodup →
      ((dictSet k v l).map Prod.fst).Nodup
  | [], _ => by simp [dictSet]
  | (k2, v2) :: rest, hnd => by
      rw [List.map_cons] at hnd
      have hk2 : k2 ∉ rest.map Prod.fst := (List.nodup_cons.mp hnd).1
      have hrest : (rest.map Prod.fst).Nodup := (List.nodup_cons.mp hnd).2
      by_cases hk : k = k2
      · have he : dictSet k v ((k2, v2) :: rest) = (k2, v) :: rest := by
          simp only [dictSet]
          rw [if_pos hk]
        rw [he, List.map_cons]
        exact List.nodup_cons.mpr ⟨hk2, hrest⟩
      · have he : dictSet k v ((k2, v2) :: rest) =
            (k2, v2) :: dictSet k v rest := by
          simp only [dictSet]
          rw [if_neg hk]
        rw [he, List.map_cons]
        refine List.nodup_cons.mpr
          ⟨?_, dictSet_keys_nodup k v rest hrest⟩
        intro hmem
        rcases dictSet_keys_subset k v rest k2 hmem with h | h
        · exact hk h.symm
        · exact hk2 h

/-- Insert a string into a sorted string list. -/
def insortStr (x : String) : List String → List String
  | [] => [x]
  | y :: ys => if strLeb x y then x :: y :: ys else y :: insortStr x ys

/-- Sort a string list (Python `sorted`). -/
def sortStr : List String → List String
  | [] => []
  | x :: xs => insortStr x (sortStr xs)

/-- Python `sorted(set(xs))`. -/
def sortedSet (l : List String) : List String := sortStr l.dedup

/-- `RAGCache._key`: the (abstracted) SHA-256 of the canonical payload;
`json.dumps(..., sort_keys=True)` lists the keys in sorted order
modalities < query < tags < top_k < user. -/
def RAGCache.key (H : String → String) (user query : String)
    (tags modalities : List String) (top_k : Int) : String :=
  H (dumps (.jobj
    [("modalities", .jarr ((sortedSet modalities).map JValue.jstr)),
     ("query", .jstr query),
     ("tags", .jarr ((sortedSet tags).map JValue.jstr)),
     ("top_k", .jnum top_k),
     ("user", .jstr user)]))

/-- `RAGCache` state over its inner `OfflineCache`: entries map keys to
the stored (deep-copied) answer and its insertion timestamp; `nextAddr`
is the fresh-address frontier of the modelled heap. -/
structure RAGCache where
  entries : List (String × (JTree × Nat)) := []
  hits : Nat := 0
  misses : Nat := 0
  nextAddr : Nat := 0
  ttl : Nat := 1800

/-- `RAGCache.put`: store `deepcopy(answer)` under the canonical key at
the current time (the inner `OfflineCache.put` does not prune). -/
def RAGCache.put (H : String → String) (c : RAGCache) (now : Nat)
    (user query : String) (tags modalities : List String) (top_k : Int)
    (answer : JTree) : RAGCache :=
  let key := RAGCache.key H user query tags modalities top_k
  let r := dcopy answer c.nextAddr
  { c with entries := dictSet key (r.1, now) c.entries, nextAddr := r.2 }

/-- `RAGCache.get`: prune expired entries (`now - ts > ttl`), look up the
key, and on a hit return `deepcopy(cached)` and bump the hit counter. -/
def RAGCache.get (H : String → String) (c : RAGCache) (now : Nat)
    (user query : String) (tags modalities : List String) (top_k : Int) :
    RAGCache × Option JTree :=
  let key := RAGCache.key H user query tags modalities top_k
  let pruned := c.entries.filter fun kv => decide (now - kv.2.2 ≤ c.ttl)
  match dictGet key pruned with
  | some v =>
      let r := dcopy v.1 c.nextAddr
      ({ c with entries := pruned, hits := c.hits + 1, nextAddr := r.2 },
       some r.1)
  | none =>
      ({ c with entries := pruned, misses := c.misses + 1 }, none)

/-- A heap mutation at address `a` as seen by the cache: every stored
tree aliasing that object is rewritten. -/
def RAGCache.mutate (c : RAGCache) (a : Nat)
    (f : List (String × JTree) → List (String × JTree)) : RAGCache :=
  { c with entries :=
      c.entries.map fun kv => (kv.1, (mutateAt a f kv.2.1, kv.2.2)) }

/-- Well-formedness of the modelled heap: unique keys and every stored
address below the fresh frontier. -/
def RAGCache.WF (c : RAGCache) : Prop :=
  (c.entries.map Prod.fst).Nodup ∧
  ∀ key v ts, dictGet key c.entries = some (v, ts) →
    ∀ a ∈ JTree.addrs v, a < c.nextAddr

theorem dictGet_filter_found {α : Type} (p : String × α → Bool)
    (k : String) (l : List (String × α)) (v : α)
    (hnd : (l.map Prod.fst).Nodup) (hl : dictGet k l = some v)
    (hp : p (k, v) = true) : dictGet k (l.filter p) = some v := by
  rw [dictGet_filter p k l hnd, hl]
  simp [hp]

theorem RAGCache.get_found (H : String → String) (c : RAGCache)
    (now : Nat) (user query : String) (tags modalities : List String)
    (top_k : Int) (v : JTree) (ts : Nat)
    (h : dictGet (RAGCache.key H user query tags modalities top_k)
      (c.entries.filter fun kv => decide (now - kv.2.2 ≤ c.ttl)) =
        some (v, ts)) :
    RAGCache.get H c now user query tags modalities top_k =
      ({ c with
          entries :=
            c.entries.filter fun kv => decide (now - kv.2.2 ≤ c.ttl),
          hits := c.hits + 1, nextAddr := (dcopy v c.nextAddr).2 },
       some (dcopy v c.nextAddr).1) := by
  unfold RAGCache.get
  simp only [h]

/-- C10: the RAG cache isolates stored answers from callers. `put` stores
a deep copy whose pure value equals the caller's answer and whose heap
addresses are disjoint from the caller's, so (1) mutating any object
reachable from the caller's answer after `put` leaves the value a later
`get` for that key returns unchanged, and (2) `get` hands back a fresh
deep copy: mutating any object reachable from the returned mapping
leaves the value a later `get` returns unchanged as well. -/
theorem C10_rag_cache_isolation (H : String → String) (c : RAGCache)
    (now later later2 : Nat) (user query : String)
    (tags modalities : List String) (top_k : Int) (answer : JTree)
    (hwf : RAGCache.WF c)
    (hcaller : ∀ a ∈ answer.addrs, a < c.nextAddr)
    (h1 : later - now ≤ c.ttl) (h2 : later2 - now ≤ c.ttl) :
    (∃ s ts,
      dictGet (RAGCache.key H user query tags modalities top_k)
        (RAGCache.put H c now user query tags modalities top_k
          answer).entries = some (s, ts) ∧ s.erase = answer.erase) ∧
    (∀ f a, a ∈ answer.addrs →
      ∃ r,
        (RAGCache.get H
          (RAGCache.mutate
            (RAGCache.put H c now user query tags modalities top_k answer)
            a f)
          later user query tags modalities top_k).2 = some r ∧
        r.erase = answer.erase) ∧
    (∃ c2 r,
      RAGCache.get H
        (RAGCache.put H c now user query tags modalities top_k answer)
        later user query tags modalities top_k = (c2, some r) ∧
      r.erase = answer.erase ∧
      ∀ f a, a ∈ r.addrs →
        ∃ r2,
          (RAGCache.get H (RAGCache.mutate c2 a f) later2 user query tags
            modalities top_k).2 = some r2 ∧
          r2.erase = answer.erase) := by
  set key := RAGCache.key H user query tags modalities top_k with hkey
  set copy := (dcopy answer c.nextAddr).1 with hcopy
  set n1 := (dcopy answer c.nextAddr).2 with hn1
  set c1 := RAGCache.put H c now user query tags modalities top_k answer
    with hc1
  have hc1e : c1.entries = dictSet key (copy, now) c.entries := rfl
  have hc1n : c1.nextAddr = n1 := rfl
  have hc1ttl : c1.ttl = c.ttl := rfl
  have hnodup1 : (c1.entries.map Prod.fst).Nodup := by
    rw [hc1e]
    exact dictSet_keys_nodup key (copy, now) c.entries hwf.1
  have hstored : dictGet key c1.entries = some (copy, now) := by
    rw [hc1e]
    exact dictGet_dictSet_self key (copy, now) c.entries
  have hbounds := dcopy_bounds answer c.nextAddr
  have hcopy_bounds : ∀ a ∈ copy.addrs, c.nextAddr ≤ a ∧ a < n1 :=
    hbounds.2
  have herase : copy.erase = answer.erase := dcopy_erase answer c.nextAddr
  refine ⟨⟨copy, now, hstored, herase⟩, ?_, ?_⟩
  · intro f a ha
    have halow : a < c.nextAddr := hcaller a ha
    have hnotin : a ∉ copy.addrs := by
      intro hmem
      exact absurd halow (not_lt_of_le (hcopy_bounds a hmem).1)
    set cm := RAGCache.mutate c1 a f with hcm
    have hcme : cm.entries =
        c1.entries.map fun kv => (kv.1, (mutateAt a f kv.2.1, kv.2.2)) :=
      rfl
    have hcmget : dictGet key cm.entries = some (copy, now) := by
      rw [hcme]
      have : dictGet key (c1.entries.map fun kv =>
          (kv.1, ((fun p : JTree × Nat => (mutateAt a f p.1, p.2)) kv.2))) =
          (dictGet key c1.entries).map
            fun p : JTree × Nat => (mutateAt a f p.1, p.2) :=
        dictGet_map_snd (fun p : JTree × Nat => (mutateAt a f p.1, p.2))
          key c1.entries
      rw [this, hstored]
      show some (mutateAt a f copy, now) = some (copy, now)
      rw [mutateAt_not_mem a f copy hnotin]
    have hcmnodup : (cm.entries.map Prod.fst).Nodup := by
      rw [hcme]
      have := map_fst_map_snd
        (fun p : JTree × Nat => (mutateAt a f p.1, p.2)) c1.entries
      rw [this]
      exact hnodup1
    have hcmttl : cm.ttl = c.ttl := rfl
    have hfound : dictGet key
        (cm.entries.filter fun kv => decide (later - kv.2.2 ≤ cm.ttl)) =
          some (copy, now) := by
      refine dictGet_filter_found _ key cm.entries (copy, now) hcmnodup
        hcmget ?_
      rw [hcmttl]
      simpa using h1
    have hget := RAGCache.get_found H cm later user query tags modalities
      top_k copy now hfound
    refine ⟨(dcopy copy cm.nextAddr).1, ?_, ?_⟩
    · rw [hget]
    · rw [dcopy_erase copy cm.nextAddr]
      exact herase
  · have hfound1 : dictGet key
        (c1.entries.filter fun kv => decide (later - kv.2.2 ≤ c1.ttl)) =
          some (copy, now) := by
      refine dictGet_filter_found _ key c1.entries (copy, now) hnodup1
        hstored ?_
      rw [hc1ttl]
      simpa using h1
    have hget1 := RAGCache.get_found H c1 later user query tags modalities
      top_k copy now hfound1
    set c2 : RAGCache :=
      { entries := c1.entries.filter
          fun kv => decide (later - kv.2.2 ≤ c1.ttl),
        hits := c1.hits + 1, misses := c1.misses,
        nextAddr := (dcopy copy c1.nextAddr).2, ttl := c1.ttl } with hc2
    set r := (dcopy copy c1.nextAddr).1 with hr
    have hrbounds := dcopy_bounds copy c1.nextAddr
    refine ⟨c2, r, hget1, ?_, ?_⟩
    · rw [hr, dcopy_erase copy c1.nextAddr]
      exact herase
    · intro f a ha
      have hage : n1 ≤ a := by
        rw [← hc1n]
        exact (hrbounds.2 a ha).1
      have hnotin : a ∉ copy.addrs := by
        intro hmem
        have := (hcopy_bounds a hmem).2
        exact absurd (lt_of_lt_of_le this hage) (lt_irrefl a)
      have hc2get : dictGet key c2.entries = some (copy, now) := by
        rw [hc2]
        exact hfound1
      have hc2nodup : (c2.entries.map Prod.fst).Nodup := by
        rw [hc2]
        show ((c1.entries.filter
          fun kv => decide (later - kv.2.2 ≤ c1.ttl)).map Prod.fst).Nodup
        exact hnodup1.sublist
          (List.Sublist.map Prod.fst (List.filter_sublist c1.entries))
      set cm2 := RAGCache.mutate c2 a f with hcm2
      have hcm2get : dictGet key cm2.entries = some (copy, now) := by
        have : dictGet key (c2.entries.map fun kv =>
            (kv.1,
              ((fun p : JTree × Nat => (mutateAt a f p.1, p.2)) kv.2))) =
            (dictGet key c2.entries).map
              fun p : JTree × Nat => (mutateAt a f p.1, p.2) :=
          dictGet_map_snd (fun p : JTree × Nat => (mutateAt a f p.1, p.2))
            key c2.entries
        show dictGet key (c2.entries.map fun kv =>
          (kv.1, (mutateAt a f kv.2.1, kv.2.2))) = some (copy, now)
        rw [this, hc2get]
        show some (mutateAt a f copy, now) = some (copy, now)
        rw [mutateAt_not_mem a f copy hnotin]
      have hcm2nodup : (cm2.entries.map Prod.fst).Nodup := by
        have := map_fst_map_snd
          (fun p : JTree × Nat => (mutateAt a f p.1, p.2)) c2.entries
        show ((c2.entries.map fun kv =>
          (kv.1, (mutateAt a f kv.2.1, kv.2.2))).map Prod.fst).Nodup
        rw [this]
        exact hc2nodup
      have hcm2ttl : cm2.ttl = c.ttl := rfl
      have hfound2 : dictGet key
          (cm2.entries.filter
            fun kv => decide (later2 - kv.2.2 ≤ cm2.ttl)) =
            some (copy, now) := by
        refine dictGet_filter_found _ key cm2.entries (copy, now)
          hcm2nodup hcm2get ?_
        rw [hcm2ttl]
        simpa using h2
      have hget2 := RAGCache.get_found H cm2 later2 user query tags
        modalities top_k copy now hfound2
      refine ⟨(dcopy copy cm2.nextAddr).1, ?_, ?_⟩
      · rw [hget2]
      · rw [dcopy_erase copy cm2.nextAddr]
        exact herase

/-- Concrete cache for the C10 witness (fresh frontier above the caller's
addresses). -/
def cacheDemo : RAGCache :=
  { entries := [], hits := 0, misses := 0, nextAddr := 5, ttl := 10 }

/-- Concrete caller-held answer object at heap address 0. -/
def answerDemo : JTree := .node 0 [("summary", .prim "ok")]

/-- Witness for C10: at a concrete cache, mutating the caller's answer
object after `put` still leaves `get` returning the original value. -/
theorem C10_witness :
    ∃ r,
      (RAGCache.get demoHash
        (RAGCache.mutate
          (RAGCache.put demoHash cacheDemo 0 "u" "q" ["t"] ["text"] 5
            answerDemo)
          0 fun _ => [])
        1 "u" "q" ["t"] ["text"] 5).2 = some r ∧
      r.erase = answerDemo.erase :=
  (C10_rag_cache_isolation demoHash cacheDemo 0 1 2 "u" "q" ["t"] ["text"]
    5 answerDemo
    ⟨by simp [cacheDemo], by
      intro key v ts h
      simp [cacheDemo, dictGet] at h⟩
    (by
      intro a ha
      simp [answerDemo, JTree.addrs, JTree.addrsF] at ha
      rw [ha]
      decide)
    (by decide) (by decide)).2.1 (fun _ => []) 0 (by decide)

/-!
## C4: offline-cache round trip of `KolibriRuntime.process`

`runtime/orchestrator.py` lines 532-557 (cache-hit branch), 629-652
(cache store) and 1026-1040 (`_plan_from_dict`), with the planner from
`core/planner.py` and the cache from `runtime/cache.py` (`OfflineCache`).

The cached payload is held in memory as a Python object, never
serialised, so it is embedded with precise types: `StepDict` / `PlanDict`
/ `ExecDict` mirror exactly the dictionaries built by
`PlanStep.as_dict` / `Plan.as_dict` / `SkillExecution.to_dict`
(same keys, same value shapes).  On these payloads the `str(...)`
coercions and `.get` defaults of `_plan_from_dict` and
`SkillExecution.from_dict` are identities, and the payload dict always
has four keys, so the Python truthiness test `if cached_payload:` on a
hit always passes and coincides with the `some` case of `get`.
Floats are exact rationals; `datetime` arithmetic is rational time.
-/

/-- Lower-case a string character-wise (Python `str.lower`). -/
def lowerStr (s : String) : String := String.mk (s.data.map Char.toLower)

/-- Split a character list at a separator character (Python
`str.split(sep)`): `n` separators give `n+1` (possibly empty) pieces. -/
def splitCh (sep : Char) : List Char → List (List Char)
  | [] => [[]]
  | c :: cs =>
      let r := splitCh sep cs
      if c = sep then [] :: r
      else (c :: r.headD []) :: r.tail

/-- Python `str.strip()`: drop leading and trailing whitespace. -/
def trimCh (cs : List Char) : List Char :=
  ((cs.dropWhile Char.isWhitespace).reverse.dropWhile
    Char.isWhitespace).reverse

/-- Python `str.split()` with no argument: whitespace-separated
non-empty tokens (every whitespace character separates). -/
def splitWs (cs : List Char) : List (List Char) :=
  (splitCh ' ' (cs.map fun c => if c.isWhitespace then ' ' else c)).filter
    (fun t => !t.isEmpty)

/-- `a` is a prefix of `b` (character lists). -/
def isPrefixCh : List Char → List Char → Bool
  | [], _ => true
  | _ :: _, [] => false
  | a :: as, b :: bs => a = b && isPrefixCh as bs

/-- Python substring test `needle in haystack`. -/
def isSubstrCh (needle : List Char) : List Char → Bool
  | [] => isPrefixCh needle []
  | c :: cs => isPrefixCh needle (c :: cs) || isSubstrCh needle cs

/-- `core/planner.py` `PlanStep` dataclass (lines 13-23).  `metadata`
values are the strings the planner stores (`mitigation`). -/
structure PlanStep where
  id : String
  description : String
  skill : Option String
  dependencies : List String
  risk : ℚ
  agent : Option String
  metadata : List (String × String)
deriving DecidableEq

/-- The dictionary produced by `PlanStep.as_dict` (planner.py lines
25-34): keys id, description, skill, dependencies, risk, agent,
metadata. -/
structure StepDict where
  id : String
  description : String
  skill : Option String
  dependencies : List String
  risk : ℚ
  agent : Option String
  metadata : List (String × String)
deriving DecidableEq

/-- `PlanStep.as_dict` (planner.py lines 25-34). -/
def PlanStep.as_dict (s : PlanStep) : StepDict :=
  { id := s.id, description := s.description, skill := s.skill
  , dependencies := s.dependencies, risk := s.risk, agent := s.agent
  , metadata := s.metadata }

/-- `core/planner.py` `Plan` dataclass (lines 37-43). -/
structure Plan where
  goal : String
  steps : List PlanStep
  risk_score : ℚ
  horizon : Option String
  versions : List String
deriving DecidableEq

/-- The dictionary produced by `Plan.as_dict` (planner.py lines 45-52):
keys goal, steps, risk_score, horizon, versions. -/
structure PlanDict where
  goal : String
  steps : List StepDict
  risk_score : ℚ
  horizon : Option String
  versions : List String
deriving DecidableEq

/-- `Plan.as_dict` (planner.py lines 45-52). -/
def Plan.as_dict (p : Plan) : PlanDict :=
  { goal := p.goal, steps := p.steps.map PlanStep.as_dict
  , risk_score := p.risk_score, horizon := p.horizon
  , versions := p.versions }

/-- `RiskAssessment` (planner.py lines 55-63); `score` is the clamped
product property. -/
structure RiskAssessment where
  likelihood : ℚ
  impact : ℚ
  mitigation : String

/-- `RiskAssessment.score` (planner.py lines 61-63). -/
def RiskAssessment.score (r : RiskAssessment) : ℚ :=
  maxQ 0 (minQ 1 (r.likelihood * r.impact))

/-- `RiskAssessor.assess` (planner.py lines 92-101): keyword-driven
likelihood/impact, both capped at 1. -/
def RiskAssessor.assess (description : String)
    (dependencies : List String) : RiskAssessment :=
  let tokens : List String :=
    (splitWs ((lowerStr description).data)).map String.mk
  let likelihood0 : ℚ := 1/4 + (dependencies.length : ℚ) / 10
  let likelihood1 : ℚ :=
    if ["integrate", "deploy", "compliance", "legal"].any
        (fun kw => tokens.contains kw)
      then likelihood0 + 3/10 else likelihood0
  let impact0 : ℚ := 3/10 + (tokens.length : ℚ) / 50
  let impact1 : ℚ :=
    if tokens.contains "critical" || tokens.contains "deadline"
      then impact0 + 2/5 else impact0
  { likelihood := minQ likelihood1 1, impact := minQ impact1 1
  , mitigation :=
      if tokens.contains "code" then "peer_review"
      else "checkpoint_review" }

/-- The fields of `skills/store.py` `SkillManifest` read by
`_match_skill`. -/
structure SkillManifest where
  name : String
  inputs : List String
  permissions : List String

/-- `NeuroSemanticPlanner._match_skill` (planner.py lines 214-230):
optional hint filtering (Python `if hints:` is false for an empty
sequence; a non-empty filtered list returns its first element,
otherwise the *filtered* list is scored), then keyword scoring by
substring hits in the lower-cased sentence; score starts at -1 and only
a strictly greater score replaces the best, so ties keep the first
candidate and an empty candidate list gives `None`. -/
def match_skill (skills : List SkillManifest) (sentence : String)
    (hints : List String) : Option String :=
  let candidates :=
    if hints.isEmpty then skills
    else skills.filter fun sk =>
      (hints.map lowerStr).contains (lowerStr sk.name)
  match hints.isEmpty, candidates with
  | false, c0 :: _ => some c0.name
  | _, _ =>
      let sentence_l := (lowerStr sentence).data
      (candidates.foldl
        (fun (acc : Int × Option String) sk =>
          let keywords := sk.name :: (sk.inputs ++ sk.permissions)
          let local_score : Int :=
            ((keywords.filter fun kw =>
              !kw.isEmpty &&
                isSubstrCh (lowerStr kw).data sentence_l).length : Nat)
          if acc.1 < local_score then (local_score, some sk.name)
          else acc)
        (-1, none)).2

/-- The agent registry installed by `NeuroSemanticPlanner.__init__`
(planner.py lines 159-164). -/
def plannerRegistry : List (String × List String) :=
  [("writer_agent", ["writer"]), ("analyst_agent", ["analyst", "research"])]

/-- `AgentCoordinator.choose_agent` (planner.py lines 115-127) over the
fixed registry, with the mutable utilisation map `_load` threaded
explicitly.  Python `min` keeps the first candidate on ties (registry
insertion order). -/
def choose_agent (load : List (String × ℚ)) (skill : Option String) :
    Option String × List (String × ℚ) :=
  match skill with
  | none => (none, load)
  | some sk =>
      let candidates := plannerRegistry.filter fun p => p.2.contains sk
      match candidates with
      | [] => (none, load)
      | c0 :: rest =>
          let best := rest.foldl
            (fun acc p =>
              if ((dictGet p.1 load).getD 0) < ((dictGet acc.1 load).getD 0)
                then p else acc) c0
          (some best.1,
           dictSet best.1 (((dictGet best.1 load).getD 0) + 1) load)

/-- The sentences of a goal (planner.py lines 172-174): replace newlines
by spaces, split on the full stop, strip each piece, drop empties, and
fall back to the single stripped goal. -/
def goalSentences (goal : String) : List String :=
  let tokens :=
    ((splitCh '.' (goal.data.map fun c => if c = '\n' then ' ' else c)).map
      (fun cs => String.mk (trimCh cs))).filter (fun s => !s.isEmpty)
  if tokens.isEmpty then [String.mk (trimCh goal.data)] else tokens

/-- `NeuroSemanticPlanner.plan` (planner.py lines 171-197) with the
`uuid4().hex[:6]` fragments supplied externally (step index ↦ fragment)
and the skill catalogue passed explicitly.  The runtime builds its
planner as `NeuroSemanticPlanner()` whose `MissionLibrary` stays empty,
so `missions.match` returns `None` and `versions` is empty; `horizon`
keeps its dataclass default `None`.  A step depends on the previous
step id when that id is truthy (step ids are never empty). -/
def NeuroSemanticPlanner.plan (skills : List SkillManifest)
    (uuids : Nat → String) (goal : String) (hints : List String) : Plan :=
  let sentences := goalSentences goal
  let res := sentences.foldl
    (fun (acc : List PlanStep × List (String × ℚ)) sentence =>
      let steps := acc.1
      let skill := match_skill skills sentence hints
      let step_id :=
        "step-" ++ toString (steps.length + 1) ++ "-" ++ uuids steps.length
      let dependencies : List String :=
        match steps.getLast? with
        | some prev => if prev.id.isEmpty then [] else [prev.id]
        | none => []
      let risk := RiskAssessor.assess sentence dependencies
      let ca := choose_agent acc.2 skill
      (steps ++ [{ id := step_id, description := sentence, skill := skill
                 , dependencies := dependencies, risk := risk.score
                 , agent := ca.1
                 , metadata := [("mitigation", risk.mitigation)] }],
       ca.2))
    ([], [])
  let steps := res.1
  { goal := goal, steps := steps
  , risk_score :=
      if steps.isEmpty then 0
      else (steps.foldl (fun s st => s + st.risk) 0) / (steps.length : ℚ)
  , horizon := none, versions := [] }

/-- `orchestrator.py` `SkillExecution` dataclass (lines 337-341). -/
structure SkillExecution where
  step_id : String
  skill : Option String
  output : List (String × JValue)
deriving DecidableEq

/-- The dictionary produced by `SkillExecution.to_dict` (lines 343-344):
keys step_id, skill, output. -/
structure ExecDict where
  step_id : String
  skill : Option String
  output : List (String × JValue)
deriving DecidableEq

/-- `SkillExecution.to_dict` (orchestrator.py lines 343-344); `output`
is copied with `dict(...)`. -/
def SkillExecution.to_dict (e : SkillExecution) : ExecDict :=
  { step_id := e.step_id, skill := e.skill, output := e.output }

/-- `SkillExecution.from_dict` (orchestrator.py lines 346-352): on
`to_dict` images the `str(...)` coercion and `.get` defaults are
identities (`skill` is kept exactly when not `None`). -/
def SkillExecution.from_dict (d : ExecDict) : SkillExecution :=
  { step_id := d.step_id, skill := d.skill, output := d.output }

/-- `runtime/cache.py` `OfflineCache` (lines 21-43): key ↦
(value, timestamp), generic in the stored value; time and `ttl` are
rational. -/
structure OfflineCache (α : Type) where
  ttl : ℚ
  entries : List (String × (α × ℚ))

/-- `OfflineCache.prune` (cache.py lines 35-39): evict every entry with
`now - timestamp > ttl`. -/
def OfflineCache.prune {α : Type} (c : OfflineCache α) (now : ℚ) :
    OfflineCache α :=
  { c with entries := c.entries.filter fun e => !decide (c.ttl < now - e.2.2) }

/-- `OfflineCache.put` (cache.py lines 27-28): store value with the
current timestamp (no pruning). -/
def OfflineCache.put {α : Type} (c : OfflineCache α) (key : String)
    (value : α) (now : ℚ) : OfflineCache α :=
  { c with entries := dictSet key (value, now) c.entries }

/-- `OfflineCache.get` (cache.py lines 30-33): prune, then return the
entry value if present, together with the pruned cache state. -/
def OfflineCache.get {α : Type} (c : OfflineCache α) (key : String)
    (now : ℚ) : Option α × OfflineCache α :=
  let c2 := c.prune now
  ((dictGet key c2.entries).map Prod.fst, c2)

/-- The payload stored under the cache key (orchestrator.py lines
629-634): plan.as_dict(), answer, executions to_dict list, adjustments
dict. -/
structure CachePayload where
  plan : PlanDict
  answer : List (String × JValue)
  executions : List ExecDict
  adjustments : List (String × ℚ)
deriving DecidableEq

/-- `orchestrator.py` `_plan_from_dict` (lines 1026-1040): only the
goal, and per mapping step the id, description, skill and dependencies,
are read back; every other field silently falls back to the dataclass
default (`risk` 0, `agent` None, `metadata` empty dict, `risk_score` 0,
`horizon` None, `versions` empty list).  On `as_dict` images the
`str(...)` coercions and `.get` defaults are identities. -/
def plan_from_dict (payload : PlanDict) : Plan :=
  { goal := payload.goal
  , steps := payload.steps.map fun item =>
      { id := item.id, description := item.description
      , skill := item.skill, dependencies := item.dependencies
      , risk := 0, agent := none, metadata := [] }
  , risk_score := 0, horizon := none, versions := [] }

/-- The fields of `RuntimeResponse` (orchestrator.py lines 355-364) the
claim speaks about. -/
structure RuntimeResponse where
  plan : Plan
  answer : List (String × JValue)
  adjustments : List (String × ℚ)
  executions : List SkillExecution
  cached : Bool
deriving DecidableEq

/-- The request-determined inputs of the non-cache stages of
`KolibriRuntime.process`, identical across two calls with the same
request and no intervening invalidation: the cache key `_cache_key`
computes from the request, the plan the planner would produce on a
miss, and the answer / executions / adjustments the pipeline would then
compute.  On a hit none of these except the key is consulted. -/
structure ProcEnv where
  cache_key : String
  plan : Plan
  answer : List (String × JValue)
  executions : List SkillExecution
  adjustments : List (String × ℚ)

/-- `KolibriRuntime.process` (orchestrator.py lines 519-652) restricted
to the offline-cache slice: lookup (lines 532-541), the hit branch
(542-557) rebuilding the plan with `_plan_from_dict`, copying answer
and adjustments and re-parsing executions with
`SkillExecution.from_dict`, and the miss branch computing the pipeline
(summarised by `env`) and storing the payload (lines 629-639).  `now`
is the value of the cache time provider during the call. -/
def KolibriRuntime.process (env : ProcEnv)
    (c : OfflineCache CachePayload) (now : ℚ) :
    RuntimeResponse × OfflineCache CachePayload :=
  match (OfflineCache.get c env.cache_key now).1 with
  | some payload =>
      ({ plan := plan_from_dict payload.plan
       , answer := payload.answer
       , adjustments := payload.adjustments
       , executions := payload.executions.map SkillExecution.from_dict
       , cached := true }, (OfflineCache.get c env.cache_key now).2)
  | none =>
      ({ plan := env.plan, answer := env.answer
       , adjustments := env.adjustments, executions := env.executions
       , cached := false },
       OfflineCache.put (OfflineCache.get c env.cache_key now).2
         env.cache_key
         { plan := env.plan.as_dict
         , answer := env.answer
         , executions := env.executions.map SkillExecution.to_dict
         , adjustments := env.adjustments } now)

/-- The two responses of two successive `process` calls on the same
request, the second at time `t2` against the cache state the first call
left behind. -/
def twoCalls (env : ProcEnv) (c : OfflineCache CachePayload)
    (t1 t2 : ℚ) : RuntimeResponse × RuntimeResponse :=
  ((KolibriRuntime.process env c t1).1,
   (KolibriRuntime.process env (KolibriRuntime.process env c t1).2 t2).1)

/-- What `_plan_from_dict` keeps of a step: risk, agent and metadata are
reset to the dataclass defaults. -/
def stripStep (s : PlanStep) : PlanStep :=
  { id := s.id, description := s.description, skill := s.skill
  , dependencies := s.dependencies, risk := 0, agent := none
  , metadata := [] }

theorem execs_roundtrip : ∀ l : List SkillExecution,
    (l.map SkillExecution.to_dict).map SkillExecution.from_dict = l
  | [] => rfl
  | e :: rest => by
      simp only [List.map_cons]
      rw [execs_roundtrip rest]
      rfl

theorem plan_from_dict_as_dict (p : Plan) :
    plan_from_dict p.as_dict =
      { goal := p.goal, steps := p.steps.map stripStep
      , risk_score := 0, horizon := none, versions := [] } := by
  unfold plan_from_dict Plan.as_dict
  rw [List.map_map]
  rfl

theorem process_miss (env : ProcEnv) (c : OfflineCache CachePayload)
    (now : ℚ) (h : (OfflineCache.get c env.cache_key now).1 = none) :
    KolibriRuntime.process env c now =
      ({ plan := env.plan, answer := env.answer
       , adjustments := env.adjustments, executions := env.executions
       , cached := false },
       OfflineCache.put (OfflineCache.get c env.cache_key now).2
         env.cache_key
         { plan := env.plan.as_dict
         , answer := env.answer
         , executions := env.executions.map SkillExecution.to_dict
         , adjustments := env.adjustments } now) := by
  unfold KolibriRuntime.process
  rw [h]

theorem process_hit (env : ProcEnv) (c : OfflineCache CachePayload)
    (now : ℚ) (payload : CachePayload)
    (h : (OfflineCache.get c env.cache_key now).1 = some payload) :
    KolibriRuntime.process env c now =
      ({ plan := plan_from_dict payload.plan
       , answer := payload.answer
       , adjustments := payload.adjustments
       , executions := payload.executions.map SkillExecution.from_dict
       , cached := true }, (OfflineCache.get c env.cache_key now).2) := by
  unfold KolibriRuntime.process
  rw [h]

/-- After a first call that misses, the key maps to the freshly stored
payload, and a second lookup within the ttl still finds it. -/
theorem second_lookup_hits (env : ProcEnv)
    (c : OfflineCache CachePayload) (t1 t2 : ℚ)
    (hnodup : (c.entries.map Prod.fst).Nodup)
    (hfresh : t2 - t1 ≤ c.ttl) :
    (OfflineCache.get
      (OfflineCache.put (OfflineCache.get c env.cache_key t1).2
        env.cache_key
        { plan := env.plan.as_dict
        , answer := env.answer
        , executions := env.executions.map SkillExecution.to_dict
        , adjustments := env.adjustments } t1)
      env.cache_key t2).1 =
    some { plan := env.plan.as_dict
         , answer := env.answer
         , executions := env.executions.map SkillExecution.to_dict
         , adjustments := env.adjustments } := by
  have hnodup1 :
      (((OfflineCache.get c env.cache_key t1).2.entries.map Prod.fst)).Nodup := by
    show (((c.prune t1).entries.map Prod.fst)).Nodup
    exact List.Nodup.sublist
      (List.Sublist.map Prod.fst (List.filter_sublist c.entries)) hnodup
  have hnodup2 :
      ((OfflineCache.put (OfflineCache.get c env.cache_key t1).2
          env.cache_key
          { plan := env.plan.as_dict
          , answer := env.answer
          , executions := env.executions.map SkillExecution.to_dict
          , adjustments := env.adjustments } t1).entries.map Prod.fst).Nodup :=
    dictSet_keys_nodup _ _ _ hnodup1
  have hfind :
      dictGet env.cache_key
        (OfflineCache.put (OfflineCache.get c env.cache_key t1).2
          env.cache_key
          { plan := env.plan.as_dict
          , answer := env.answer
          , executions := env.executions.map SkillExecution.to_dict
          , adjustments := env.adjustments } t1).entries =
      some ({ plan := env.plan.as_dict
            , answer := env.answer
            , executions := env.executions.map SkillExecution.to_dict
            , adjustments := env.adjustments }, t1) :=
    dictGet_dictSet_self _ _ _
  have hpred :
      (fun (e : String × (CachePayload × ℚ)) =>
        !decide (c.ttl < t2 - e.2.2))
        (env.cache_key,
         ({ plan := env.plan.as_dict
          , answer := env.answer
          , executions := env.executions.map SkillExecution.to_dict
          , adjustments := env.adjustments }, t1)) = true := by
    show (!decide (c.ttl < t2 - t1)) = true
    rw [decide_eq_false (not_lt.mpr hfresh)]
    rfl
  have hd := dictGet_filter_found
    (fun (e : String × (CachePayload × ℚ)) =>
      !decide (c.ttl < t2 - e.2.2))
    env.cache_key _ _ hnodup2 hfind hpred
  show (dictGet env.cache_key
      (List.filter
        (fun (e : String × (CachePayload × ℚ)) =>
          !decide (c.ttl < t2 - e.2.2))
        (OfflineCache.put (OfflineCache.get c env.cache_key t1).2
          env.cache_key
          { plan := env.plan.as_dict
          , answer := env.answer
          , executions := env.executions.map SkillExecution.to_dict
          , adjustments := env.adjustments } t1).entries)).map Prod.fst =
    some { plan := env.plan.as_dict
         , answer := env.answer
         , executions := env.executions.map SkillExecution.to_dict
         , adjustments := env.adjustments }
  rw [hd]
  rfl

/-- C4 (amended): for identical requests where the first
`process(request)` misses the offline cache and the second runs within
the ttl, the second call returns `cached = true` with the same
executions, adjustments and answer as the first call; its plan,
however, is only the `_plan_from_dict` image of the first plan: goal,
step ids, descriptions, skills and dependencies survive, while every
step risk, agent and metadata, and the plan risk_score, horizon and
versions, are reset to the dataclass defaults — so `plan.as_dict()` is
preserved only when those fields were trivial to begin with. -/
theorem C4_offline_cache_roundtrip (env : ProcEnv)
    (c : OfflineCache CachePayload) (t1 t2 : ℚ)
    (hnodup : (c.entries.map Prod.fst).Nodup)
    (hmiss : (OfflineCache.get c env.cache_key t1).1 = none)
    (hfresh : t2 - t1 ≤ c.ttl) :
    (twoCalls env c t1 t2).1.cached = false ∧
    (twoCalls env c t1 t2).2.cached = true ∧
    (twoCalls env c t1 t2).2.executions =
      (twoCalls env c t1 t2).1.executions ∧
    (twoCalls env c t1 t2).2.adjustments =
      (twoCalls env c t1 t2).1.adjustments ∧
    (twoCalls env c t1 t2).2.answer = (twoCalls env c t1 t2).1.answer ∧
    (twoCalls env c t1 t2).2.plan =
      { goal := (twoCalls env c t1 t2).1.plan.goal
      , steps := (twoCalls env c t1 t2).1.plan.steps.map stripStep
      , risk_score := 0, horizon := none, versions := [] } := by
  have h1 := process_miss env c t1 hmiss
  have h1a : (KolibriRuntime.process env c t1).1 =
      { plan := env.plan, answer := env.answer
      , adjustments := env.adjustments, executions := env.executions
      , cached := false } := congrArg Prod.fst h1
  have h1b : (KolibriRuntime.process env c t1).2 =
      OfflineCache.put (OfflineCache.get c env.cache_key t1).2
        env.cache_key
        { plan := env.plan.as_dict
        , answer := env.answer
        , executions := env.executions.map SkillExecution.to_dict
        , adjustments := env.adjustments } t1 := congrArg Prod.snd h1
  have hsecond :
      KolibriRuntime.process env (KolibriRuntime.process env c t1).2 t2 =
        ({ plan := plan_from_dict
              ({ plan := env.plan.as_dict
               , answer := env.answer
               , executions := env.executions.map SkillExecution.to_dict
               , adjustments := env.adjustments } : CachePayload).plan
         , answer := env.answer
         , adjustments := env.adjustments
         , executions :=
            (env.executions.map SkillExecution.to_dict).map
              SkillExecution.from_dict
         , cached := true },
         (OfflineCache.get
            (OfflineCache.put (OfflineCache.get c env.cache_key t1).2
              env.cache_key
              { plan := env.plan.as_dict
              , answer := env.answer
              , executions := env.executions.map SkillExecution.to_dict
              , adjustments := env.adjustments } t1)
            env.cache_key t2).2) := by
    rw [h1b]
    exact process_hit env _ t2 _ (second_lookup_hits env c t1 t2 hnodup hfresh)
  have h2a :
      (KolibriRuntime.process env (KolibriRuntime.process env c t1).2
        t2).1 =
      { plan := plan_from_dict env.plan.as_dict
      , answer := env.answer
      , adjustments := env.adjustments
      , executions :=
          (env.executions.map SkillExecution.to_dict).map
            SkillExecution.from_dict
      , cached := true } := congrArg Prod.fst hsecond
  refine ⟨?_, ?_, ?_, ?_, ?_, ?_⟩
  · show (KolibriRuntime.process env c t1).1.cached = false
    rw [h1a]
  · show (KolibriRuntime.process env
      (KolibriRuntime.process env c t1).2 t2).1.cached = true
    rw [h2a]
  · show (KolibriRuntime.process env
        (KolibriRuntime.process env c t1).2 t2).1.executions =
      (KolibriRuntime.process env c t1).1.executions
    rw [h2a, h1a]
    exact execs_roundtrip env.executions
  · show (KolibriRuntime.process env
        (KolibriRuntime.process env c t1).2 t2).1.adjustments =
      (KolibriRuntime.process env c t1).1.adjustments
    rw [h2a, h1a]
  · show (KolibriRuntime.process env
        (KolibriRuntime.process env c t1).2 t2).1.answer =
      (KolibriRuntime.process env c t1).1.answer
    rw [h2a, h1a]
  · show (KolibriRuntime.process env
        (KolibriRuntime.process env c t1).2 t2).1.plan =
      { goal := (KolibriRuntime.process env c t1).1.plan.goal
      , steps := (KolibriRuntime.process env c t1).1.plan.steps.map
          stripStep
      , risk_score := 0, horizon := none, versions := [] }
    rw [h2a, h1a]
    exact plan_from_dict_as_dict env.plan

/-- Concrete C4 environment: the plan is a real output of the embedded
planner (empty skill catalogue, fixed uuid fragment), whose single step
carries risk 9/100 and metadata, so the plan dictionary does not
round-trip. -/
def envDemo4 : ProcEnv :=
  { cache_key := "k"
  , plan :=
      NeuroSemanticPlanner.plan [] (fun _ => "0ddba11") "Draft the report" []
  , answer := [("text", .jstr "done")]
  , executions :=
      [{ step_id := "s1", skill := none
       , output := [("status", .jstr "ok")] }]
  , adjustments := [("tone", 1/2)] }

/-- Fresh offline cache with a one-hour ttl (seconds). -/
def cache0 : OfflineCache CachePayload := { ttl := 3600, entries := [] }

/-- C4 counterexample: on a fresh cache and a real planner output the
second call is served from the cache with equal executions and
adjustments, but its `plan.as_dict()` differs from the first call's
(risk, agent, metadata, risk_score are lost), refuting the claimed
plan equality. -/
theorem C4_counterexample :
    (twoCalls envDemo4 cache0 0 1).2.cached = true ∧
    (twoCalls envDemo4 cache0 0 1).2.executions =
      (twoCalls envDemo4 cache0 0 1).1.executions ∧
    (twoCalls envDemo4 cache0 0 1).2.adjustments =
      (twoCalls envDemo4 cache0 0 1).1.adjustments ∧
    ¬ ((twoCalls envDemo4 cache0 0 1).2.plan.as_dict =
      (twoCalls envDemo4 cache0 0 1).1.plan.as_dict) := by
  with_unfolding_all decide

/-- Witness for C4 at the concrete environment and a fresh cache. -/
theorem C4_witness :
    (twoCalls envDemo4 cache0 0 1).1.cached = false ∧
    (twoCalls envDemo4 cache0 0 1).2.cached = true ∧
    (twoCalls envDemo4 cache0 0 1).2.executions =
      (twoCalls envDemo4 cache0 0 1).1.executions ∧
    (twoCalls envDemo4 cache0 0 1).2.adjustments =
      (twoCalls envDemo4 cache0 0 1).1.adjustments ∧
    (twoCalls envDemo4 cache0 0 1).2.answer =
      (twoCalls envDemo4 cache0 0 1).1.answer ∧
    (twoCalls envDemo4 cache0 0 1).2.plan =
      { goal := (twoCalls envDemo4 cache0 0 1).1.plan.goal
      , steps := (twoCalls envDemo4 cache0 0 1).1.plan.steps.map stripStep
      , risk_score := 0, horizon := none, versions := [] } :=
  C4_offline_cache_roundtrip envDemo4 cache0 0 1
    (by simp [cache0]) (by with_unfolding_all rfl)
    (by with_unfolding_all decide)

/-!
## C5/C6/C7: the knowledge graph (`kg/graph.py`)

Nodes and edges are frozen dataclasses; the graph keeps two memory
tiers, each a dict id ↦ node (insertion-ordered assoc list) plus an
edge list.  Floats (confidence, weights, embeddings) are exact
rationals.  Critics, revision counters, listeners and the verification
cache play no role in the three claims and are omitted; `_bump_revision`
and `_notify` only touch them.
-/

/-- `kg/graph.py` `Node` dataclass (lines 26-35). -/
structure Node where
  id : String
  type : String
  text : String
  sources : List String
  confidence : ℚ
  embedding : List ℚ
  metadata : List (String × JValue)
  memory : String
deriving DecidableEq

/-- `kg/graph.py` `Edge` dataclass (lines 38-45). -/
structure Edge where
  source : String
  target : String
  relation : String
  weight : ℚ
  memory : String
  metadata : List (String × JValue)
deriving DecidableEq

/-- The graph state used by the claims (graph.py lines 60-67). -/
structure KnowledgeGraph where
  operational_nodes : List (String × Node)
  long_term_nodes : List (String × Node)
  operational_edges : List Edge
  long_term_edges : List Edge
  pending_updates : List (String × List (String × JValue))

/-- Python `a or b` over an optional/possibly-empty string. -/
def pyOr (a : Option String) (b : String) : String :=
  match a with
  | some s => if s.isEmpty then b else s
  | none => b

/-- `_normalise_memory` (graph.py lines 619-625). -/
def KnowledgeGraph.normalise_memory : Option String → String
  | none => "operational"
  | some m =>
      if m.isEmpty then "operational"
      else if lowerStr m = "long" ∨ lowerStr m = "long_term" ∨
          lowerStr m = "archive"
        then "long_term" else "operational"

/-- Python dict `del` (keys are unique in a dict, so filtering is the
single-entry removal). -/
def dictDel {α : Type} (k : String) (l : List (String × α)) :
    List (String × α) :=
  l.filter fun p => !decide (p.1 = k)

/-- `_node_store(tier)[id] = node` (graph.py lines 627-628). -/
def storeSet (g : KnowledgeGraph) (tier : String) (node : Node) :
    KnowledgeGraph :=
  if tier = "long_term" then
    { g with long_term_nodes := dictSet node.id node g.long_term_nodes }
  else
    { g with operational_nodes := dictSet node.id node g.operational_nodes }

/-- `get_node` (graph.py lines 201-204): operational first, then
long-term. -/
def KnowledgeGraph.get_node (g : KnowledgeGraph) (node_id : String) :
    Option Node :=
  match dictGet node_id g.operational_nodes with
  | some n => some n
  | none => dictGet node_id g.long_term_nodes

/-- `add_node` (graph.py lines 151-161): store a copy with the
normalised tier into that tier's store (the other tier is not
consulted); journalling of node_added/node_updated is omitted. -/
def KnowledgeGraph.add_node (g : KnowledgeGraph) (node : Node)
    (memory : Option String) : KnowledgeGraph :=
  let tier := KnowledgeGraph.normalise_memory (some (pyOr memory node.memory))
  storeSet g tier { node with memory := tier }

/-- `promote_node` (graph.py lines 164-177): pop from operational, and
if present store the long-term copy. -/
def KnowledgeGraph.promote_node (g : KnowledgeGraph) (node_id : String) :
    KnowledgeGraph × Bool :=
  match dictGet node_id g.operational_nodes with
  | none => (g, false)
  | some node =>
      ({ g with
          operational_nodes := dictDel node_id g.operational_nodes
        , long_term_nodes :=
            dictSet node_id { node with memory := "long_term" }
              g.long_term_nodes }, true)

/-- `add_edge` (graph.py lines 179-183). -/
def KnowledgeGraph.add_edge (g : KnowledgeGraph) (edge : Edge)
    (memory : Option String) : KnowledgeGraph :=
  let tier := KnowledgeGraph.normalise_memory (some (pyOr memory edge.memory))
  if tier = "long_term" then
    { g with long_term_edges := g.long_term_edges ++ [{ edge with memory := tier }] }
  else
    { g with operational_edges := g.operational_edges ++ [{ edge with memory := tier }] }

/-- `nodes()` with no level (graph.py line 191): operational values then
long-term values. -/
def KnowledgeGraph.nodes (g : KnowledgeGraph) : List Node :=
  g.operational_nodes.map Prod.snd ++ g.long_term_nodes.map Prod.snd

/-- `edges()` with no level (graph.py line 199). -/
def KnowledgeGraph.edges (g : KnowledgeGraph) : List Edge :=
  g.operational_edges ++ g.long_term_edges

/-- `propagate_pending` (graph.py lines 219-251) applies updates queued
by `lazy_update` and clears the queue.  The C6 operation language
(add_node / promote_node / propagate_pending, starting from a graph
with no pending updates) never queues an update, so the batch is always
empty and the node stores are untouched; the embedding captures exactly
that reachable behaviour. -/
def KnowledgeGraph.propagate_pending (g : KnowledgeGraph) :
    KnowledgeGraph :=
  { g with pending_updates := [] }

/-- `_remove_node` (graph.py lines 637-649).  Note the `elif`: when the
id is present in both tiers only the operational copy is deleted. -/
def KnowledgeGraph.remove_node (g : KnowledgeGraph) (node_id : String) :
    KnowledgeGraph :=
  if (dictGet node_id g.operational_nodes).isSome then
    { g with operational_nodes := dictDel node_id g.operational_nodes }
  else if (dictGet node_id g.long_term_nodes).isSome then
    { g with long_term_nodes := dictDel node_id g.long_term_nodes }
  else g

/-- `metadata.setdefault("redirects", []).append({"from": old, "to": new})`
over a copied metadata dict (graph.py lines 657-658).  A present
non-list `redirects` value would raise `AttributeError` in Python; the
theorems exclude that shape by well-formedness, and the embedding
leaves it unchanged. -/
def appendRedirect (metadata : List (String × JValue)) (old new : String) :
    List (String × JValue) :=
  let entry : JValue := .jobj [("from", .jstr old), ("to", .jstr new)]
  match dictGet "redirects" metadata with
  | some (.jarr l) => dictSet "redirects" (.jarr (l ++ [entry])) metadata
  | some _ => metadata
  | none => metadata ++ [("redirects", .jarr [entry])]

/-- The per-edge body of `_redirect_edges` (graph.py lines 655-665):
edges touching `old` get the matching endpoints replaced by `new` and a
redirect entry appended; other edges are untouched. -/
def redirectEdge (old new : String) (edge : Edge) : Edge :=
  if edge.source = old ∨ edge.target = old then
    { edge with
        source := if edge.source = old then new else edge.source
      , target := if edge.target = old then new else edge.target
      , metadata := appendRedirect edge.metadata old new }
  else edge

/-- `_redirect_edges` (graph.py lines 652-668): in-place rewrite of
both edge stores (positions are preserved). -/
def KnowledgeGraph.redirect_edges (g : KnowledgeGraph) (old new : String) :
    KnowledgeGraph :=
  { g with
      operational_edges := g.operational_edges.map (redirectEdge old new)
    , long_term_edges := g.long_term_edges.map (redirectEdge old new) }

/-- The comparison `_cosine_similarity(left, right) >= threshold`
(graph.py lines 688-695) carried out exactly over rationals: for a
non-negative threshold, dot/(√sl·√sr) ≥ t iff dot ≥ 0 and
dot² ≥ t²·sl·sr (sl, sr the squared norms); a zero norm makes the
similarity 0.  The claims use the threshold 0.995. -/
def cosineGe (left right : List ℚ) (t : ℚ) : Bool :=
  let dot := (left.zip right).foldl (fun s p => s + p.1 * p.2) 0
  let sl := left.foldl (fun s x => s + x * x) 0
  let sr := right.foldl (fun s x => s + x * x) 0
  if sl = 0 ∨ sr = 0 then decide ((0 : ℚ) ≥ t)
  else decide ((0 : ℚ) ≤ dot) && decide (t * t * (sl * sr) ≤ dot * dot)

/-- `_find_matching_node` (graph.py lines 670-679): first seen node with
a non-empty embedding whose similarity to `vector` reaches the
threshold. -/
def find_matching_node (candidates : List Node) (vector : List ℚ)
    (t : ℚ) : Option Node :=
  candidates.find? fun candidate =>
    !candidate.embedding.isEmpty && cosineGe candidate.embedding vector t

/-- The Python priority tuple
`(1 if memory == "long_term" else 0, confidence)` (graph.py lines
682-683). -/
def nodePriority (n : Node) : ℚ × ℚ :=
  (if n.memory = "long_term" then 1 else 0, n.confidence)

/-- `_select_canonical` (graph.py lines 681-686): the second node wins
only when its priority tuple is strictly greater (Python tuple
order). -/
def select_canonical (first second : Node) : Node × Node :=
  let pf := nodePriority first
  let ps := nodePriority second
  if pf.1 < ps.1 ∨ (pf.1 = ps.1 ∧ pf.2 < ps.2) then (second, first)
  else (first, second)

/-- One iteration of the `deduplicate_embeddings` loop (graph.py lines
443-455) over the state (graph, seen, duplicates). -/
def dedupStep (t : ℚ)
    (acc : KnowledgeGraph × List Node × List (String × String))
    (node : Node) :
    KnowledgeGraph × List Node × List (String × String) :=
  if node.embedding.isEmpty then acc
  else
    match find_matching_node acc.2.1 node.embedding t with
    | none => (acc.1, acc.2.1 ++ [node], acc.2.2)
    | some m =>
        let cd := select_canonical m node
        ((acc.1.redirect_edges cd.2.id cd.1.id).remove_node cd.2.id,
         acc.2.1.map fun candidate =>
           if candidate.id = m.id then cd.1 else candidate,
         acc.2.2 ++ [(cd.1.id, cd.2.id)])

/-- `deduplicate_embeddings` (graph.py lines 438-456): fold the loop
over the snapshot `self.nodes()` taken before any mutation; returns the
mutated graph and the list of (canonical id, duplicate id) pairs. -/
def KnowledgeGraph.deduplicate_embeddings (g : KnowledgeGraph) (t : ℚ) :
    KnowledgeGraph × List (String × String) :=
  let res := g.nodes.foldl (dedupStep t) (g, [], [])
  (res.1, res.2.2)

/-- Membership of the redirect entry `{from: old, to: new}` in an edge
metadata `redirects` list. -/
def hasRedirect (e : Edge) (old new : String) : Prop :=
  match dictGet "redirects" e.metadata with
  | some (.jarr l) =>
      (JValue.jobj [("from", .jstr old), ("to", .jstr new)]) ∈ l
  | _ => False

/-- An edge whose `redirects` metadata entry, if any, is a list (always
true for edges built by the graph API; Python would raise on any other
shape). -/
def redirectsWF (e : Edge) : Prop :=
  match dictGet "redirects" e.metadata with
  | none => True
  | some (.jarr _) => True
  | some _ => False

/-- Boolean form of `redirectsWF`, for evaluation. -/
def redirectsWFb (e : Edge) : Bool :=
  match dictGet "redirects" e.metadata with
  | none => true
  | some (.jarr _) => true
  | some _ => false

instance redirectsWFDec (e : Edge) : Decidable (redirectsWF e) :=
  decidable_of_iff (redirectsWFb e = true) (by
    unfold redirectsWFb redirectsWF
    cases dictGet "redirects" e.metadata with
    | none => simp
    | some v => cases v <;> simp)

/-- The operations the C6 claim quantifies over. -/
inductive GOp where
  | addNode (node : Node) (memory : Option String)
  | promoteNode (node_id : String)
  | propagatePending

/-- Apply one operation to the graph. -/
def applyOp (g : KnowledgeGraph) : GOp → KnowledgeGraph
  | .addNode n m => g.add_node n m
  | .promoteNode node_id => (g.promote_node node_id).1
  | .propagatePending => g.propagate_pending

/-- Run a sequence of operations. -/
def runOps (g : KnowledgeGraph) (ops : List GOp) : KnowledgeGraph :=
  ops.foldl applyOp g

/-- No node id is present in both memory tiers. -/
def tierUnique (g : KnowledgeGraph) : Prop :=
  ∀ id ∈ g.operational_nodes.map Prod.fst,
    id ∉ g.long_term_nodes.map Prod.fst

/-- An `add_node` is tier-safe when its effective tier does not hide an
existing copy of the id in the other tier; `promote_node` and
`propagate_pending` are always safe. -/
def opSafe (g : KnowledgeGraph) : GOp → Bool
  | .addNode n m =>
      if KnowledgeGraph.normalise_memory (some (pyOr m n.memory)) =
          "long_term"
      then (dictGet n.id g.operational_nodes).isNone
      else (dictGet n.id g.long_term_nodes).isNone
  | .promoteNode _ => true
  | .propagatePending => true

/-- Every operation of the run is safe in the state it executes in. -/
def opsSafe : KnowledgeGraph → List GOp → Bool
  | _, [] => true
  | g, op :: rest => opSafe g op && opsSafe (applyOp g op) rest

theorem mem_keys_isSome {α : Type} (k : String) :
    ∀ l : List (String × α), k ∈ l.map Prod.fst → (dictGet k l).isSome
  | [], h => by simp at h
  | (k2, v) :: rest, h => by
      by_cases hk : k = k2
      · simp [dictGet, hk]
      · have : k ∈ rest.map Prod.fst := by
          rcases List.mem_cons.mp h with h1 | h1
          · exact absurd h1 hk
          · exact h1
        simpa [dictGet, hk] using mem_keys_isSome k rest this

theorem mem_keys_dictDel {α : Type} (k x : String)
    (l : List (String × α)) (h : x ∈ (dictDel k l).map Prod.fst) :
    x ∈ l.map Prod.fst ∧ x ≠ k := by
  rcases List.mem_map.mp h with ⟨p, hp, hx⟩
  have hf := List.mem_filter.mp hp
  refine ⟨List.mem_map.mpr ⟨p, hf.1, hx⟩, ?_⟩
  have hne : p.1 ≠ k := by simpa using hf.2
  rw [← hx]
  exact hne

theorem storeSet_tierUnique (g : KnowledgeGraph) (tier : String)
    (node : Node)
    (hsafe : if tier = "long_term"
      then dictGet node.id g.operational_nodes = none
      else dictGet node.id g.long_term_nodes = none)
    (huniq : tierUnique g) : tierUnique (storeSet g tier node) := by
  by_cases ht : tier = "long_term"
  · rw [if_pos ht] at hsafe
    unfold storeSet
    rw [if_pos ht]
    intro x hop hlt
    rcases dictSet_keys_subset _ _ _ _ hlt with h1 | h1
    · rw [h1] at hop
      have h2 := mem_keys_isSome node.id g.operational_nodes hop
      rw [hsafe] at h2
      exact Bool.noConfusion h2
    · exact huniq x hop h1
  · rw [if_neg ht] at hsafe
    unfold storeSet
    rw [if_neg ht]
    intro x hop hlt
    rcases dictSet_keys_subset _ _ _ _ hop with h1 | h1
    · rw [h1] at hlt
      have h2 := mem_keys_isSome node.id g.long_term_nodes hlt
      rw [hsafe] at h2
      exact Bool.noConfusion h2
    · exact huniq x h1 hlt

theorem applyOp_tierUnique (g : KnowledgeGraph) (op : GOp)
    (hsafe : opSafe g op = true) (huniq : tierUnique g) :
    tierUnique (applyOp g op) := by
  cases op with
  | addNode n m =>
      show tierUnique (g.add_node n m)
      unfold KnowledgeGraph.add_node
      refine storeSet_tierUnique g _ _ ?_ huniq
      by_cases ht : KnowledgeGraph.normalise_memory (some (pyOr m n.memory)) =
          "long_term"
      · rw [if_pos ht]
        have h2 := hsafe
        simp only [opSafe, if_pos ht, Option.isNone_iff_eq_none] at h2
        exact h2
      · rw [if_neg ht]
        have h2 := hsafe
        simp only [opSafe, if_neg ht, Option.isNone_iff_eq_none] at h2
        exact h2
  | promoteNode node_id =>
      show tierUnique (g.promote_node node_id).1
      unfold KnowledgeGraph.promote_node
      cases hfind : dictGet node_id g.operational_nodes with
      | none => exact huniq
      | some node =>
          intro x hop hlt
          have hdel := mem_keys_dictDel node_id x g.operational_nodes hop
          rcases dictSet_keys_subset _ _ _ _ hlt with h1 | h1
          · exact hdel.2 h1
          · exact huniq x hdel.1 h1
  | propagatePending => exact huniq

theorem runOps_tierUnique (ops : List GOp) :
    ∀ g : KnowledgeGraph, opsSafe g ops = true → tierUnique g →
      tierUnique (runOps g ops) := by
  induction ops with
  | nil => intro g _ hu; exact hu
  | cons op rest ih =>
      intro g hs hu
      have hs2 := hs
      simp only [opsSafe, Bool.and_eq_true] at hs2
      exact ih (applyOp g op) hs2.2 (applyOp_tierUnique g op hs2.1 hu)

instance tierUniqueDec (g : KnowledgeGraph) : Decidable (tierUnique g) :=
  inferInstanceAs (Decidable (∀ id ∈ g.operational_nodes.map Prod.fst,
    id ∉ g.long_term_nodes.map Prod.fst))

/-- C6 (amended): starting from a graph with no pending updates in
which no id is in both tiers, any sequence of add_node / promote_node /
propagate_pending operations preserves cross-tier uniqueness of node
ids PROVIDED each add_node is tier-safe, i.e. its effective tier does
not leave an existing copy of the same id behind in the other tier;
an unrestricted add_node with a memory override can store the same id
in both tiers (see the counterexample). -/
theorem C6_tier_uniqueness (g : KnowledgeGraph) (ops : List GOp)
    (hpend : g.pending_updates = [])
    (hsafe : opsSafe g ops = true) (huniq : tierUnique g) :
    tierUnique (runOps g ops) :=
  runOps_tierUnique ops g hsafe huniq

/-- An operational node used by the C6 scenarios. -/
def nodeX : Node :=
  { id := "x", type := "fact", text := "t", sources := []
  , confidence := 1/2, embedding := [], metadata := []
  , memory := "operational" }

/-- A second node used by the C6 witness. -/
def nodeY : Node :=
  { id := "y", type := "fact", text := "u", sources := []
  , confidence := 1/2, embedding := [], metadata := []
  , memory := "operational" }

/-- The empty knowledge graph. -/
def emptyKG : KnowledgeGraph :=
  { operational_nodes := [], long_term_nodes := []
  , operational_edges := [], long_term_edges := []
  , pending_updates := [] }

/-- C6 counterexample: `add_node` with a long_term memory override of an
id already held operationally stores the node in both tiers, violating
the claimed global uniqueness. -/
theorem C6_counterexample :
    ¬ tierUnique
      (runOps emptyKG
        [.addNode nodeX none, .addNode nodeX (some "long_term")]) := by
  with_unfolding_all decide

/-- Witness for C6: a concrete safe run (add, promote, add to the other
tier under a fresh id, propagate) keeps the tiers disjoint. -/
theorem C6_witness :
    tierUnique
      (runOps emptyKG
        [.addNode nodeX none, .promoteNode "x",
         .addNode nodeY (some "long_term"), .propagatePending]) :=
  C6_tier_uniqueness emptyKG
    [.addNode nodeX none, .promoteNode "x",
     .addNode nodeY (some "long_term"), .propagatePending]
    rfl (by with_unfolding_all decide) (by decide)

/-- A character matched by the regex class `[\w']` (ASCII word
characters and the apostrophe; the graph texts are ASCII). -/
def isWordChar (c : Char) : Bool :=
  c.isAlpha || c.isDigit || c = '_' || c = Char.ofNat 39

/-- `re.findall(r"[\w']+", s)`: maximal runs of word characters. -/
def tokensOf (s : String) : List String :=
  ((splitCh ' ' (s.data.map fun c => if isWordChar c then c else ' ')).filter
    (fun t => !t.isEmpty)).map String.mk

/-- Python `" ".join`. -/
def joinSpace : List String → String
  | [] => ""
  | [s] => s
  | s :: rest => s ++ " " ++ joinSpace rest

/-- `_normalise_text` (graph.py lines 848-855): lower-cased word tokens,
negation tokens dropped when requested, joined by single spaces — in
their ORIGINAL order (no sorting). -/
def KnowledgeGraph.normalise_text (text : String) (drop_negation : Bool) :
    String :=
  joinSpace (((tokensOf text).map lowerStr).filter fun token =>
    !(drop_negation && ["not", "never", "no"].contains token))

/-- `_polarity` (graph.py lines 857-859). -/
def KnowledgeGraph.polarity (text : String) : String :=
  if ((tokensOf text).map lowerStr).any
      (fun t => ["not", "never", "no"].contains t)
  then "negative" else "positive"

/-- `conflict_queries` (graph.py lines 486-488). -/
def KnowledgeGraph.conflict_queries (g : KnowledgeGraph) :
    List (String × String) :=
  (g.edges.filter fun e =>
    ["contradicts", "conflicts_with"].contains e.relation).map
    fun e => (e.source, e.target)

/-- Python `tuple(sorted(pair))` on a string pair. -/
def sortPair (p : String × String) : String × String :=
  if strLeb p.1 p.2 then p else (p.2, p.1)

/-- Python tuple `<` on string pairs. -/
def pairLtb (a b : String × String) : Bool :=
  strLtb a.1 b.1 || (decide (a.1 = b.1) && strLtb a.2 b.2)

/-- Insert into a list sorted ascending by `pairLtb`. -/
def insortPair (x : String × String) :
    List (String × String) → List (String × String)
  | [] => [x]
  | y :: rest => if pairLtb y x then y :: insortPair x rest
                 else x :: y :: rest

/-- Python `sorted` on a list of string pairs. -/
def sortPairs : List (String × String) → List (String × String)
  | [] => []
  | x :: rest => insortPair x (sortPairs rest)

/-- `defaultdict(list)` append under a key (first matching entry;
fresh keys go to the end, as dict insertion order). -/
def dictAppend {α : Type} (k : String) (v : α) :
    List (String × List α) → List (String × List α)
  | [] => [(k, [v])]
  | (k2, vs) :: rest =>
      if k = k2 then (k2, vs ++ [v]) :: rest
      else (k2, vs) :: dictAppend k v rest

/-- The `text_index` built by `detect_conflicts` (graph.py lines
494-498): nodes grouped by non-empty negation-free normalised text. -/
def indexStep (idx : List (String × List Node)) (node : Node) :
    List (String × List Node) :=
  let normalised := KnowledgeGraph.normalise_text node.text true
  if normalised = "" then idx else dictAppend normalised node idx

def textIndex (ns : List Node) : List (String × List Node) :=
  ns.foldl indexStep []

/-- All (negative, positive) id pairs of one polarity-partitioned
group, each as a sorted tuple. -/
def crossPairs (negative positive : List String) :
    List (String × String) :=
  match negative with
  | [] => []
  | n :: rest =>
      positive.map (fun pos => sortPair (n, pos)) ++ crossPairs rest positive

/-- The semantic-heuristic pairs of one group (graph.py lines 499-508):
ids of negative-polarity members crossed with positive-polarity
members.  The Python `len(polarities) > 1` guard is equivalent: the
cross product is empty whenever one side is missing. -/
def groupPairs (candidates : List Node) : List (String × String) :=
  crossPairs
    ((candidates.filter fun c =>
      KnowledgeGraph.polarity c.text = "negative").map Node.id)
    ((candidates.filter fun c =>
      KnowledgeGraph.polarity c.text = "positive").map Node.id)

/-- The heuristic pairs of every group of the index. -/
def heurPairs : List (String × List Node) → List (String × String)
  | [] => []
  | (_, candidates) :: rest => groupPairs candidates ++ heurPairs rest

/-- `detect_conflicts` (graph.py lines 490-509): the edge-based pairs
plus the per-group heuristic pairs, as a deduplicated sorted list
(Python collects them in a set and returns `sorted(...)`). -/
def KnowledgeGraph.detect_conflicts (g : KnowledgeGraph) :
    List (String × String) :=
  sortPairs ((g.conflict_queries.map sortPair ++
    heurPairs (textIndex g.nodes)).dedup)

/-- The grouping key the CLAIM describes: negation tokens dropped and
the lower-cased word tokens SORTED (the code joins them unsorted). -/
def normaliseTextClaimed (text : String) : String :=
  joinSpace (sortStr (((tokensOf text).map lowerStr).filter fun token =>
    !(["not", "never", "no"].contains token)))

/-- `detect_conflicts` as the claim words it: identical pipeline, but
grouped by the sorted-token key. -/
def detectConflictsClaimed (g : KnowledgeGraph) :
    List (String × String) :=
  let idx := g.nodes.foldl
    (fun idx node =>
      let normalised := normaliseTextClaimed node.text
      if normalised = "" then idx else dictAppend normalised node idx)
    []
  sortPairs ((g.conflict_queries.map sortPair ++ heurPairs idx).dedup)

/-- Two nodes whose texts contain the same words in different order
(up to a negation token). -/
def g7 : KnowledgeGraph :=
  { operational_nodes :=
      [("n1", { id := "n1", type := "fact", text := "alpha beta"
              , sources := [], confidence := 1/2, embedding := []
              , metadata := [], memory := "operational" }),
       ("n2", { id := "n2", type := "fact", text := "not beta alpha"
              , sources := [], confidence := 1/2, embedding := []
              , metadata := [], memory := "operational" })]
  , long_term_nodes := [], operational_edges := [], long_term_edges := []
  , pending_updates := [] }

/-- C7 counterexample: with texts "alpha beta" and "not beta alpha" the
claimed sorted-token grouping reports the conflict, but the code keys
keep the original token order, so the two nodes land in different
groups and `detect_conflicts` returns nothing. -/
theorem C7_counterexample :
    KnowledgeGraph.detect_conflicts g7 = [] ∧
    detectConflictsClaimed g7 = [("n1", "n2")] := by
  with_unfolding_all decide

theorem str_eq_of_not_ltb {a b : String}
    (h1 : strLtb a b = false) (h2 : strLtb b a = false) : a = b := by
  cases a with
  | mk da =>
      cases b with
      | mk db =>
          have : da = db := chars_eq_of_not_ltb h1 h2
          rw [this]

theorem pairLtb_irrefl (a : String × String) : pairLtb a a = false := by
  simp [pairLtb, strLtb, charsLtb_irrefl]

theorem pairLtb_trans {a b c : String × String}
    (h1 : pairLtb a b = true) (h2 : pairLtb b c = true) :
    pairLtb a c = true := by
  simp only [pairLtb, Bool.or_eq_true, Bool.and_eq_true,
    decide_eq_true_eq] at h1 h2 ⊢
  rcases h1 with h1 | ⟨h1e, h1s⟩
  · rcases h2 with h2 | ⟨h2e, h2s⟩
    · exact Or.inl (charsLtb_trans h1 h2)
    · rw [h2e] at h1
      exact Or.inl h1
  · rcases h2 with h2 | ⟨h2e, h2s⟩
    · rw [h1e]
      exact Or.inl h2
    · exact Or.inr ⟨h1e.trans h2e, charsLtb_trans h1s h2s⟩

theorem pair_eq_of_not_ltb {a b : String × String}
    (h1 : pairLtb a b = false) (h2 : pairLtb b a = false) : a = b := by
  simp only [pairLtb, Bool.or_eq_false_iff, Bool.and_eq_false_iff] at h1 h2
  have hfst : a.1 = b.1 := str_eq_of_not_ltb h1.1 h2.1
  have hsnd : a.2 = b.2 := by
    rcases h1.2 with h | h
    · rw [decide_eq_false_iff_not] at h
      exact absurd hfst h
    · rcases h2.2 with h3 | h3
      · rw [decide_eq_false_iff_not] at h3
        exact absurd hfst.symm h3
      · exact str_eq_of_not_ltb h h3
  exact Prod.ext hfst hsnd

theorem pairLtb_asymm {a b : String × String} (h : pairLtb a b = true) :
    pairLtb b a = false := by
  cases hc : pairLtb b a
  · rfl
  · have := pairLtb_trans h hc
    rw [pairLtb_irrefl a] at this
    exact Bool.noConfusion this

theorem pairLe_trans {a b c : String × String}
    (h1 : pairLtb b a = false) (h2 : pairLtb c b = false) :
    pairLtb c a = false := by
  cases hca : pairLtb c a
  · rfl
  · exfalso
    cases hbc : pairLtb b c
    · have hbcq : b = c := pair_eq_of_not_ltb hbc h2
      rw [hbcq] at h1
      rw [h1] at hca
      exact Bool.noConfusion hca
    · have := pairLtb_trans hbc hca
      rw [this] at h1
      exact Bool.noConfusion h1

theorem insortPair_perm (x : String × String) :
    ∀ l, List.Perm (insortPair x l) (x :: l)
  | [] => List.Perm.refl _
  | y :: rest => by
      unfold insortPair
      by_cases h : pairLtb y x = true
      · rw [if_pos h]
        exact ((insortPair_perm x rest).cons y).trans (List.Perm.swap x y rest)
      · rw [if_neg h]

theorem sortPairs_perm : ∀ l, List.Perm (sortPairs l) l
  | [] => List.Perm.refl _
  | x :: rest =>
      (insortPair_perm x (sortPairs rest)).trans
        ((sortPairs_perm rest).cons x)

theorem mem_sortPairs {p : String × String} {l : List (String × String)} :
    p ∈ sortPairs l ↔ p ∈ l :=
  (sortPairs_perm l).mem_iff

theorem insortPair_sorted (x : String × String) :
    ∀ l, List.Pairwise (fun a b => pairLtb b a = false) l →
      List.Pairwise (fun a b => pairLtb b a = false) (insortPair x l)
  | [], _ => List.pairwise_singleton _ x
  | y :: rest, h => by
      rcases List.pairwise_cons.mp h with ⟨hy, hrest⟩
      unfold insortPair
      by_cases hc : pairLtb y x = true
      · rw [if_pos hc]
        refine List.pairwise_cons.mpr ⟨?_, insortPair_sorted x rest hrest⟩
        intro z hz
        rcases List.mem_cons.mp ((insortPair_perm x rest).mem_iff.mp hz)
          with hz1 | hz1
        · rw [hz1]
          exact pairLtb_asymm hc
        · exact hy z hz1
      · rw [if_neg hc]
        refine List.pairwise_cons.mpr ⟨?_, h⟩
        intro z hz
        rcases List.mem_cons.mp hz with hz1 | hz1
        · rw [hz1]
          exact Bool.eq_false_iff.mpr hc
        · exact pairLe_trans (Bool.eq_false_iff.mpr hc) (hy z hz1)

theorem sortPairs_sorted :
    ∀ l, List.Pairwise (fun a b => pairLtb b a = false) (sortPairs l)
  | [] => List.Pairwise.nil
  | x :: rest => insortPair_sorted x (sortPairs rest) (sortPairs_sorted rest)

theorem pairwise_lt_of_le_nodup :
    ∀ {l : List (String × String)},
      List.Pairwise (fun a b => pairLtb b a = false) l → l.Nodup →
      List.Pairwise (fun a b => pairLtb a b = true) l
  | [], _, _ => List.Pairwise.nil
  | x :: rest, hs, hn => by
      rcases List.pairwise_cons.mp hs with ⟨hx, hrest⟩
      rcases List.nodup_cons.mp hn with ⟨hnx, hnrest⟩
      refine List.pairwise_cons.mpr
        ⟨?_, pairwise_lt_of_le_nodup hrest hnrest⟩
      intro z hz
      cases hc : pairLtb x z
      · exfalso
        have : x = z := pair_eq_of_not_ltb hc (hx z hz)
        rw [this] at hnx
        exact hnx hz
      · rfl

theorem sortPair_le (p : String × String) :
    strLeb (sortPair p).1 (sortPair p).2 = true := by
  unfold sortPair
  by_cases h : strLeb p.1 p.2 = true
  · rw [if_pos h]
    exact h
  · rw [if_neg h]
    rcases strLeb_total p.1 p.2 with h1 | h1
    · exact absurd h1 h
    · exact h1

theorem mem_crossPairs {p : String × String} (positive : List String) :
    ∀ negative : List String,
      (p ∈ crossPairs negative positive ↔
        ∃ n ∈ negative, ∃ q ∈ positive, p = sortPair (n, q))
  | [] => by simp [crossPairs]
  | n :: rest => by
      unfold crossPairs
      rw [List.mem_append]
      constructor
      · intro h
        rcases h with h | h
        · rcases List.mem_map.mp h with ⟨q, hq, hpq⟩
          exact ⟨n, List.mem_cons_self n rest, q, hq, hpq.symm⟩
        · rcases (mem_crossPairs positive rest).mp h with ⟨n2, hn2, q, hq, hpq⟩
          exact ⟨n2, List.mem_cons.mpr (Or.inr hn2), q, hq, hpq⟩
      · rintro ⟨n2, hn2, q, hq, hpq⟩
        rcases List.mem_cons.mp hn2 with h1 | h1
        · subst h1
          exact Or.inl (List.mem_map.mpr ⟨q, hq, hpq.symm⟩)
        · exact Or.inr ((mem_crossPairs positive rest).mpr ⟨n2, h1, q, hq, hpq⟩)

theorem polarity_cases (text : String) :
    KnowledgeGraph.polarity text = "negative" ∨
    KnowledgeGraph.polarity text = "positive" := by
  unfold KnowledgeGraph.polarity
  by_cases h : ((tokensOf text).map lowerStr).any
      (fun t => ["not", "never", "no"].contains t) = true
  · rw [if_pos h]; exact Or.inl rfl
  · rw [if_neg h]; exact Or.inr rfl

theorem mem_groupPairs {p : String × String} (cs : List Node) :
    p ∈ groupPairs cs ↔
      ∃ a ∈ cs, ∃ b ∈ cs,
        KnowledgeGraph.polarity a.text = "negative" ∧
        KnowledgeGraph.polarity b.text = "positive" ∧
        p = sortPair (a.id, b.id) := by
  unfold groupPairs
  rw [mem_crossPairs]
  constructor
  · rintro ⟨n, hn, q, hq, hpq⟩
    rcases List.mem_map.mp hn with ⟨a, ha, hai⟩
    rcases List.mem_map.mp hq with ⟨b, hb, hbi⟩
    have ha2 := List.mem_filter.mp ha
    have hb2 := List.mem_filter.mp hb
    refine ⟨a, ha2.1, b, hb2.1, by simpa using ha2.2, by simpa using hb2.2, ?_⟩
    rw [← hai, ← hbi] at hpq
    exact hpq
  · rintro ⟨a, ha, b, hb, hpa, hpb, hpq⟩
    refine ⟨a.id, List.mem_map.mpr ⟨a, List.mem_filter.mpr ⟨ha, by simpa using hpa⟩, rfl⟩,
      b.id, List.mem_map.mpr ⟨b, List.mem_filter.mpr ⟨hb, by simpa using hpb⟩, rfl⟩, hpq⟩

theorem mem_heurPairs {p : String × String} :
    ∀ idx : List (String × List Node),
      (p ∈ heurPairs idx ↔ ∃ e ∈ idx, p ∈ groupPairs e.2)
  | [] => by simp [heurPairs]
  | (k, cs) :: rest => by
      unfold heurPairs
      rw [List.mem_append]
      constructor
      · intro h
        rcases h with h | h
        · exact ⟨(k, cs), List.mem_cons_self _ _, h⟩
        · rcases (mem_heurPairs rest).mp h with ⟨e, he, hpe⟩
          exact ⟨e, List.mem_cons.mpr (Or.inr he), hpe⟩
      · rintro ⟨e, he, hpe⟩
        rcases List.mem_cons.mp he with h1 | h1
        · subst h1
          exact Or.inl hpe
        · exact Or.inr ((mem_heurPairs rest).mpr ⟨e, h1, hpe⟩)

/-- A node is filed under key `k` in a text index. -/
def IndexMem (idx : List (String × List Node)) (n : Node) (k : String) :
    Prop :=
  ∃ vs, (k, vs) ∈ idx ∧ n ∈ vs

theorem indexMem_nil {n : Node} {k : String} : ¬ IndexMem [] n k := by
  rintro ⟨vs, hvs, _⟩
  simp at hvs

theorem indexMem_cons {ke : String} {vse : List Node}
    {rest : List (String × List Node)} {n : Node} {k : String} :
    IndexMem ((ke, vse) :: rest) n k ↔
      (k = ke ∧ n ∈ vse) ∨ IndexMem rest n k := by
  constructor
  · rintro ⟨vs, hvs, hn⟩
    rcases List.mem_cons.mp hvs with h1 | h1
    · have hkk : k = ke := congrArg Prod.fst h1
      have hvv : vs = vse := congrArg Prod.snd h1
      exact Or.inl ⟨hkk, hvv ▸ hn⟩
    · exact Or.inr ⟨vs, h1, hn⟩
  · rintro (⟨hkk, hn⟩ | ⟨vs, hvs, hn⟩)
    · exact ⟨vse, List.mem_cons.mpr (Or.inl (by rw [hkk])), hn⟩
    · exact ⟨vs, List.mem_cons.mpr (Or.inr hvs), hn⟩

theorem indexMem_dictAppend {n v : Node} {k k2 : String} :
    ∀ idx : List (String × List Node),
      (IndexMem (dictAppend k2 v idx) n k ↔
        IndexMem idx n k ∨ (n = v ∧ k = k2))
  | [] => by
      show IndexMem ((k2, [v]) :: []) n k ↔ _
      rw [indexMem_cons]
      simp only [List.mem_singleton]
      have h0 : ¬ IndexMem ([] : List (String × List Node)) n k :=
        indexMem_nil
      tauto
  | (ke, vse) :: rest => by
      by_cases hk : k2 = ke
      · unfold dictAppend
        rw [if_pos hk]
        rw [indexMem_cons, indexMem_cons]
        simp only [List.mem_append, List.mem_singleton]
        subst hk
        tauto
      · unfold dictAppend
        rw [if_neg hk]
        rw [indexMem_cons, indexMem_cons,
          indexMem_dictAppend rest]
        tauto

theorem indexMem_foldl {n : Node} {k : String} :
    ∀ (ns : List Node) (idx0 : List (String × List Node)),
      (IndexMem (ns.foldl indexStep idx0) n k ↔
        IndexMem idx0 n k ∨
          (n ∈ ns ∧ KnowledgeGraph.normalise_text n.text true = k ∧
            ¬(k = "")))
  | [], idx0 => by simp
  | node :: rest, idx0 => by
      show IndexMem (rest.foldl indexStep (indexStep idx0 node)) n k ↔ _
      rw [indexMem_foldl rest]
      by_cases h : KnowledgeGraph.normalise_text node.text true = ""
      · have hstep : indexStep idx0 node = idx0 := by
          unfold indexStep
          rw [if_pos h]
        rw [hstep]
        constructor
        · rintro (h1 | h1)
          · exact Or.inl h1
          · exact Or.inr ⟨List.mem_cons.mpr (Or.inr h1.1), h1.2⟩
        · rintro (h1 | ⟨hmem, hkey, hne⟩)
          · exact Or.inl h1
          · rcases List.mem_cons.mp hmem with h2 | h2
            · exfalso
              rw [h2] at hkey
              rw [h] at hkey
              exact hne hkey.symm
            · exact Or.inr ⟨h2, hkey, hne⟩
      · have hstep : indexStep idx0 node =
            dictAppend (KnowledgeGraph.normalise_text node.text true)
              node idx0 := by
          unfold indexStep
          rw [if_neg h]
        rw [hstep, indexMem_dictAppend]
        constructor
        · rintro ((h1 | ⟨hnv, hkk⟩) | h1)
          · exact Or.inl h1
          · refine Or.inr ⟨List.mem_cons.mpr (Or.inl hnv), ?_, ?_⟩
            · rw [hnv, hkk]
            · rw [hkk]
              exact h
          · exact Or.inr ⟨List.mem_cons.mpr (Or.inr h1.1), h1.2⟩
        · rintro (h1 | ⟨hmem, hkey, hne⟩)
          · exact Or.inl (Or.inl h1)
          · rcases List.mem_cons.mp hmem with h2 | h2
            · refine Or.inl (Or.inr ⟨h2, ?_⟩)
              rw [h2] at hkey
              exact hkey.symm
            · exact Or.inr ⟨h2, hkey, hne⟩

theorem dictAppend_keys {α : Type} (k : String) (v : α) :
    ∀ l : List (String × List α), (l.map Prod.fst).Nodup →
      ((dictAppend k v l).map Prod.fst).Nodup ∧
      (∀ x, x ∈ (dictAppend k v l).map Prod.fst →
        x = k ∨ x ∈ l.map Prod.fst)
  | [], _ => by
      constructor
      · simp [dictAppend]
      · intro x hx
        simp [dictAppend] at hx
        exact Or.inl hx
  | (k2, vs) :: rest, hnd => by
      rw [List.map_cons] at hnd
      rcases List.nodup_cons.mp hnd with ⟨hk2, hrest⟩
      by_cases hk : k = k2
      · unfold dictAppend
        rw [if_pos hk]
        constructor
        · rw [List.map_cons]
          exact List.nodup_cons.mpr ⟨hk2, hrest⟩
        · intro x hx
          exact Or.inr hx
      · unfold dictAppend
        rw [if_neg hk]
        have ih := dictAppend_keys k v rest hrest
        constructor
        · rw [List.map_cons]
          refine List.nodup_cons.mpr ⟨?_, ih.1⟩
          intro hx
          rcases ih.2 k2 hx with h1 | h1
          · exact hk h1.symm
          · exact hk2 h1
        · intro x hx
          rw [List.map_cons] at hx
          rcases List.mem_cons.mp hx with h1 | h1
          · exact Or.inr (List.mem_cons.mpr (Or.inl h1))
          · rcases ih.2 x h1 with h2 | h2
            · exact Or.inl h2
            · exact Or.inr (List.mem_cons.mpr (Or.inr h2))

theorem textIndex_keys_nodup :
    ∀ (ns : List Node) (idx0 : List (String × List Node)),
      (idx0.map Prod.fst).Nodup →
      ((ns.foldl indexStep idx0).map Prod.fst).Nodup
  | [], _, h => h
  | node :: rest, idx0, h => by
      show ((rest.foldl indexStep (indexStep idx0 node)).map Prod.fst).Nodup
      refine textIndex_keys_nodup rest _ ?_
      unfold indexStep
      by_cases hk : KnowledgeGraph.normalise_text node.text true = ""
      · rw [if_pos hk]
        exact h
      · rw [if_neg hk]
        exact (dictAppend_keys _ _ idx0 h).1

theorem mem_unique_of_keys_nodup {α : Type} {k : String} {v1 v2 : α} :
    ∀ l : List (String × α), (l.map Prod.fst).Nodup →
      (k, v1) ∈ l → (k, v2) ∈ l → v1 = v2
  | (k2, v) :: rest, hnd, h1, h2 => by
      rw [List.map_cons] at hnd
      rcases List.nodup_cons.mp hnd with ⟨hk2, hrest⟩
      rcases List.mem_cons.mp h1 with ha | ha
      · rcases List.mem_cons.mp h2 with hb | hb
        · have : v1 = v := congrArg Prod.snd ha
          have h4 : v2 = v := congrArg Prod.snd hb
          rw [this, h4]
        · exfalso
          have hke : k = k2 := congrArg Prod.fst ha
          exact hk2 (hke ▸ List.mem_map.mpr ⟨(k, v2), hb, rfl⟩)
      · rcases List.mem_cons.mp h2 with hb | hb
        · exfalso
          have hke : k = k2 := congrArg Prod.fst hb
          exact hk2 (hke ▸ List.mem_map.mpr ⟨(k, v1), ha, rfl⟩)
        · exact mem_unique_of_keys_nodup rest hrest ha hb

theorem heur_char {g : KnowledgeGraph} {p : String × String} :
    p ∈ heurPairs (textIndex g.nodes) ↔
      ∃ a ∈ g.nodes, ∃ b ∈ g.nodes,
        ¬(KnowledgeGraph.normalise_text a.text true = "") ∧
        KnowledgeGraph.normalise_text a.text true =
          KnowledgeGraph.normalise_text b.text true ∧
        KnowledgeGraph.polarity a.text = "negative" ∧
        KnowledgeGraph.polarity b.text = "positive" ∧
        p = sortPair (a.id, b.id) := by
  constructor
  · intro h
    rcases (mem_heurPairs _).mp h with ⟨e, he, hpe⟩
    rcases (mem_groupPairs _).mp hpe with ⟨a, ha, b, hb, hpa, hpb, hpq⟩
    have hma : IndexMem (textIndex g.nodes) a e.1 := ⟨e.2, by
      rcases e with ⟨k, cs⟩
      exact he, ha⟩
    have hmb : IndexMem (textIndex g.nodes) b e.1 := ⟨e.2, by
      rcases e with ⟨k, cs⟩
      exact he, hb⟩
    rcases (indexMem_foldl g.nodes []).mp hma with h1 | h1
    · exact absurd h1 indexMem_nil
    rcases (indexMem_foldl g.nodes []).mp hmb with h2 | h2
    · exact absurd h2 indexMem_nil
    refine ⟨a, h1.1, b, h2.1, ?_, ?_, hpa, hpb, hpq⟩
    · rw [h1.2.1]
      exact h1.2.2
    · rw [h1.2.1, h2.2.1]
  · rintro ⟨a, ha, b, hb, hne, hkeq, hpa, hpb, hpq⟩
    have hma : IndexMem (textIndex g.nodes) a
        (KnowledgeGraph.normalise_text a.text true) :=
      (indexMem_foldl g.nodes []).mpr (Or.inr ⟨ha, rfl, hne⟩)
    have hmb : IndexMem (textIndex g.nodes) b
        (KnowledgeGraph.normalise_text a.text true) :=
      (indexMem_foldl g.nodes []).mpr (Or.inr ⟨hb, hkeq.symm, hne⟩)
    rcases hma with ⟨vs1, hvs1, ha1⟩
    rcases hmb with ⟨vs2, hvs2, hb2⟩
    have hnd := textIndex_keys_nodup g.nodes [] (by simp)
    have hveq : vs1 = vs2 :=
      mem_unique_of_keys_nodup (textIndex g.nodes) hnd hvs1 hvs2
    refine (mem_heurPairs _).mpr
      ⟨(KnowledgeGraph.normalise_text a.text true, vs1), hvs1, ?_⟩
    exact (mem_groupPairs _).mpr
      ⟨a, ha1, b, hveq ▸ hb2, hpa, hpb, hpq⟩

theorem base_char {g : KnowledgeGraph} {p : String × String} :
    p ∈ g.conflict_queries.map sortPair ↔
      ∃ e ∈ g.edges,
        (e.relation = "contradicts" ∨ e.relation = "conflicts_with") ∧
        p = sortPair (e.source, e.target) := by
  unfold KnowledgeGraph.conflict_queries
  rw [List.map_map]
  constructor
  · intro h
    rcases List.mem_map.mp h with ⟨e, he, hpe⟩
    have he2 := List.mem_filter.mp he
    refine ⟨e, he2.1, ?_, hpe.symm⟩
    have h3 := he2.2
    simp at h3
    exact h3
  · rintro ⟨e, he, hrel, hpe⟩
    refine List.mem_map.mpr ⟨e, List.mem_filter.mpr ⟨he, ?_⟩, hpe.symm⟩
    simp
    exact hrel

/-- C7 (amended): `detect_conflicts` returns the strictly sorted
deduplicated list of unordered pairs consisting of (i) the endpoint
pairs of edges whose relation is contradicts or conflicts_with and
(ii) for every two nodes with the SAME non-empty normalised text — the
lower-cased word tokens with negation tokens dropped, joined in their
ORIGINAL order (the code does not sort them) — one of negative and one
of positive polarity, the sorted pair of their ids. -/
theorem C7_detect_conflicts_spec (g : KnowledgeGraph) :
    (∀ p, p ∈ g.detect_conflicts ↔
      ((∃ e ∈ g.edges,
          (e.relation = "contradicts" ∨ e.relation = "conflicts_with") ∧
          p = sortPair (e.source, e.target)) ∨
       (∃ a ∈ g.nodes, ∃ b ∈ g.nodes,
          ¬(KnowledgeGraph.normalise_text a.text true = "") ∧
          KnowledgeGraph.normalise_text a.text true =
            KnowledgeGraph.normalise_text b.text true ∧
          KnowledgeGraph.polarity a.text = "negative" ∧
          KnowledgeGraph.polarity b.text = "positive" ∧
          p = sortPair (a.id, b.id)))) ∧
    List.Pairwise (fun a b => pairLtb a b = true) g.detect_conflicts ∧
    (∀ p ∈ g.detect_conflicts, strLeb p.1 p.2 = true) := by
  refine ⟨?_, ?_, ?_⟩
  · intro p
    unfold KnowledgeGraph.detect_conflicts
    rw [mem_sortPairs, List.mem_dedup, List.mem_append, base_char,
      heur_char]
  · unfold KnowledgeGraph.detect_conflicts
    exact pairwise_lt_of_le_nodup (sortPairs_sorted _)
      ((sortPairs_perm _).nodup_iff.mpr (List.nodup_dedup _))
  · intro p hp
    unfold KnowledgeGraph.detect_conflicts at hp
    rw [mem_sortPairs, List.mem_dedup, List.mem_append, base_char,
      heur_char] at hp
    rcases hp with ⟨e, _, _, hpe⟩ | ⟨a, _, b, _, _, _, _, _, hpe⟩
    · rw [hpe]
      exact sortPair_le _
    · rw [hpe]
      exact sortPair_le _

theorem dictGet_dictDel_self {α : Type} (k : String) :
    ∀ l : List (String × α), dictGet k (dictDel k l) = none
  | [] => rfl
  | (k2, v) :: rest => by
      by_cases hk : k2 = k
      · simpa [dictDel, hk] using dictGet_dictDel_self k rest
      · have hne : ¬(k = k2) := fun h => hk h.symm
        simpa [dictDel, hk, dictGet, hne] using dictGet_dictDel_self k rest

theorem dictGet_dictDel_other {α : Type} {x k : String} (hx : x ≠ k) :
    ∀ l : List (String × α), dictGet x (dictDel k l) = dictGet x l
  | [] => rfl
  | (k2, v) :: rest => by
      by_cases hk : k2 = k
      · subst hk
        simpa [dictDel, dictGet, hx] using dictGet_dictDel_other hx rest
      · by_cases hxk : x = k2
        · simp [dictDel, hk, dictGet, hxk]
        · simpa [dictDel, hk, dictGet, hxk] using
            dictGet_dictDel_other hx rest

theorem dictGet_of_mem_nodup {α : Type} {k : String} {v : α} :
    ∀ l : List (String × α), (k, v) ∈ l → (l.map Prod.fst).Nodup →
      dictGet k l = some v
  | (k2, v2) :: rest, hmem, hnd => by
      rw [List.map_cons] at hnd
      rcases List.nodup_cons.mp hnd with ⟨hk2, hrest⟩
      rcases List.mem_cons.mp hmem with h1 | h1
      · have hk : k = k2 := congrArg Prod.fst h1
        have hv : v = v2 := congrArg Prod.snd h1
        simp [dictGet, hk, hv]
      · have hne : k ≠ k2 := by
          intro he
          exact hk2 (he ▸ List.mem_map.mpr ⟨(k, v), h1, rfl⟩)
        simpa [dictGet, hne] using dictGet_of_mem_nodup rest h1 hrest

/-- The edge stores are untouched by `_remove_node`. -/
theorem remove_node_edges (g : KnowledgeGraph) (d : String) :
    (g.remove_node d).operational_edges = g.operational_edges ∧
    (g.remove_node d).long_term_edges = g.long_term_edges := by
  unfold KnowledgeGraph.remove_node
  by_cases h1 : (dictGet d g.operational_nodes).isSome
  · rw [if_pos h1]
    exact ⟨rfl, rfl⟩
  · rw [if_neg h1]
    by_cases h2 : (dictGet d g.long_term_nodes).isSome
    · rw [if_pos h2]
      exact ⟨rfl, rfl⟩
    · rw [if_neg h2]
      exact ⟨rfl, rfl⟩

/-- The node stores only shrink under `_remove_node`. -/
theorem remove_node_sublist (g : KnowledgeGraph) (d : String) :
    (g.remove_node d).operational_nodes.Sublist g.operational_nodes ∧
    (g.remove_node d).long_term_nodes.Sublist g.long_term_nodes := by
  unfold KnowledgeGraph.remove_node
  by_cases h1 : (dictGet d g.operational_nodes).isSome
  · rw [if_pos h1]
    exact ⟨List.filter_sublist _, List.Sublist.refl _⟩
  · rw [if_neg h1]
    by_cases h2 : (dictGet d g.long_term_nodes).isSome
    · rw [if_pos h2]
      exact ⟨List.Sublist.refl _, List.filter_sublist _⟩
    · rw [if_neg h2]
      exact ⟨List.Sublist.refl _, List.Sublist.refl _⟩

theorem mem_keys_of_dictGet {α : Type} {k : String} {v : α} :
    ∀ l : List (String × α), dictGet k l = some v → k ∈ l.map Prod.fst
  | [], h => Option.noConfusion h
  | (k2, v2) :: rest, h => by
      by_cases hk : k = k2
      · rw [List.map_cons]
        exact List.mem_cons.mpr (Or.inl hk)
      · rw [List.map_cons]
        have h2 : dictGet k rest = some v := by
          simpa [dictGet, hk] using h
        exact List.mem_cons.mpr (Or.inr (mem_keys_of_dictGet rest h2))

/-- Removing an id that is in at most one tier leaves no copy behind. -/
theorem remove_node_get_self (g : KnowledgeGraph) (d : String)
    (hnd : (g.operational_nodes.map Prod.fst ++
      g.long_term_nodes.map Prod.fst).Nodup) :
    (g.remove_node d).get_node d = none := by
  unfold KnowledgeGraph.remove_node
  by_cases h1 : (dictGet d g.operational_nodes).isSome
  · rw [if_pos h1]
    show KnowledgeGraph.get_node _ d = none
    unfold KnowledgeGraph.get_node
    rw [dictGet_dictDel_self]
    have hmem : d ∈ g.operational_nodes.map Prod.fst := by
      cases hv : dictGet d g.operational_nodes with
      | none => rw [hv] at h1; exact Bool.noConfusion h1
      | some v => exact mem_keys_of_dictGet g.operational_nodes hv
    have hnot : d ∉ g.long_term_nodes.map Prod.fst :=
      (List.disjoint_of_nodup_append hnd) hmem
    exact dictGet_none_of_not_mem d _ hnot
  · rw [if_neg h1]
    have hnone : dictGet d g.operational_nodes = none := by
      cases hv : dictGet d g.operational_nodes with
      | none => rfl
      | some v => rw [hv] at h1; exact absurd rfl h1
    by_cases h2 : (dictGet d g.long_term_nodes).isSome
    · rw [if_pos h2]
      show KnowledgeGraph.get_node _ d = none
      unfold KnowledgeGraph.get_node
      rw [hnone, dictGet_dictDel_self]
    · rw [if_neg h2]
      show KnowledgeGraph.get_node _ d = none
      unfold KnowledgeGraph.get_node
      rw [hnone]
      cases hv : dictGet d g.long_term_nodes with
      | none => rfl
      | some v => rw [hv] at h2; exact absurd rfl h2

/-- Removing one id leaves every other lookup unchanged. -/
theorem remove_node_get_other (g : KnowledgeGraph) {d x : String}
    (hx : x ≠ d) : (g.remove_node d).get_node x = g.get_node x := by
  unfold KnowledgeGraph.remove_node
  by_cases h1 : (dictGet d g.operational_nodes).isSome
  · rw [if_pos h1]
    show KnowledgeGraph.get_node _ x = _
    unfold KnowledgeGraph.get_node
    rw [dictGet_dictDel_other hx]
  · rw [if_neg h1]
    by_cases h2 : (dictGet d g.long_term_nodes).isSome
    · rw [if_pos h2]
      show KnowledgeGraph.get_node _ x = _
      unfold KnowledgeGraph.get_node
      rw [dictGet_dictDel_other hx]
    · rw [if_neg h2]

theorem redirectEdge_source (old new : String) (e : Edge) :
    (redirectEdge old new e).source =
      (if e.source = old then new else e.source) := by
  unfold redirectEdge
  by_cases h : e.source = old ∨ e.target = old
  · rw [if_pos h]
  · rw [if_neg h]
    have : ¬(e.source = old) := fun hc => h (Or.inl hc)
    rw [if_neg this]

theorem redirectEdge_target (old new : String) (e : Edge) :
    (redirectEdge old new e).target =
      (if e.target = old then new else e.target) := by
  unfold redirectEdge
  by_cases h : e.source = old ∨ e.target = old
  · rw [if_pos h]
  · rw [if_neg h]
    have : ¬(e.target = old) := fun hc => h (Or.inr hc)
    rw [if_neg this]

theorem dictGet_append_right {α : Type} {k : String} (v : α) :
    ∀ l : List (String × α), dictGet k l = none →
      dictGet k (l ++ [(k, v)]) = some v
  | [], _ => by simp [dictGet]
  | (k2, v2) :: rest, h => by
      by_cases hk : k = k2
      · rw [dictGet, if_pos hk] at h
        exact Option.noConfusion h
      · rw [dictGet, if_neg hk] at h
        simpa [dictGet, hk] using dictGet_append_right v rest h

theorem appendRedirect_mem (metadata : List (String × JValue))
    (old new : String)
    (hwf : (match dictGet "redirects" metadata with
      | none => True
      | some (.jarr _) => True
      | some _ => False)) :
    dictGet "redirects" (appendRedirect metadata old new) =
      some (.jarr ((match dictGet "redirects" metadata with
        | some (.jarr l) => l
        | _ => []) ++
        [JValue.jobj [("from", .jstr old), ("to", .jstr new)]])) := by
  unfold appendRedirect
  cases hv : dictGet "redirects" metadata with
  | none =>
      rw [dictGet_append_right _ metadata hv]
      rfl
  | some v =>
      cases v with
      | jarr l =>
          rw [dictGet_dictSet_self]
      | jnull => rw [hv] at hwf; exact absurd hwf (by simp)
      | jbool b => rw [hv] at hwf; exact absurd hwf (by simp)
      | jnum n => rw [hv] at hwf; exact absurd hwf (by simp)
      | jstr s => rw [hv] at hwf; exact absurd hwf (by simp)
      | jobj f => rw [hv] at hwf; exact absurd hwf (by simp)

theorem redirectEdge_wf (old new : String) (e : Edge)
    (hwf : redirectsWF e) : redirectsWF (redirectEdge old new e) := by
  unfold redirectEdge
  by_cases h : e.source = old ∨ e.target = old
  · rw [if_pos h]
    show redirectsWF _
    unfold redirectsWF at hwf ⊢
    rw [show ({ e with
        source := if e.source = old then new else e.source
      , target := if e.target = old then new else e.target
      , metadata := appendRedirect e.metadata old new } : Edge).metadata =
      appendRedirect e.metadata old new from rfl]
    rw [appendRedirect_mem e.metadata old new hwf]
    trivial
  · rw [if_neg h]
    exact hwf

theorem redirectEdge_adds (old new : String) (e : Edge)
    (href : e.source = old ∨ e.target = old) (hwf : redirectsWF e) :
    hasRedirect (redirectEdge old new e) old new := by
  unfold redirectEdge
  rw [if_pos href]
  show hasRedirect _ old new
  unfold hasRedirect
  rw [show ({ e with
      source := if e.source = old then new else e.source
    , target := if e.target = old then new else e.target
    , metadata := appendRedirect e.metadata old new } : Edge).metadata =
    appendRedirect e.metadata old new from rfl]
  rw [appendRedirect_mem e.metadata old new hwf]
  exact List.mem_append.mpr (Or.inr (List.mem_singleton.mpr rfl))

theorem redirectEdge_keeps (old new : String) (e : Edge) {x y : String}
    (hhas : hasRedirect e x y) :
    hasRedirect (redirectEdge old new e) x y := by
  unfold redirectEdge
  by_cases h : e.source = old ∨ e.target = old
  · rw [if_pos h]
    unfold hasRedirect at hhas ⊢
    rw [show ({ e with
        source := if e.source = old then new else e.source
      , target := if e.target = old then new else e.target
      , metadata := appendRedirect e.metadata old new } : Edge).metadata =
      appendRedirect e.metadata old new from rfl]
    cases hv : dictGet "redirects" e.metadata with
    | none =>
        rw [hv] at hhas
        exact absurd hhas (by simp)
    | some v =>
        cases v with
        | jarr l =>
            have hwf : redirectsWF e := by
              unfold redirectsWF
              rw [hv]
              trivial
            rw [appendRedirect_mem e.metadata old new hwf, hv]
            rw [hv] at hhas
            exact List.mem_append.mpr (Or.inl hhas)
        | jnull => rw [hv] at hhas; exact absurd hhas (by simp)
        | jbool b => rw [hv] at hhas; exact absurd hhas (by simp)
        | jnum n => rw [hv] at hhas; exact absurd hhas (by simp)
        | jstr s => rw [hv] at hhas; exact absurd hhas (by simp)
        | jobj f => rw [hv] at hhas; exact absurd hhas (by simp)
  · rw [if_neg h]
    exact hhas

/-- Python tuple `>=` on the priority pairs. -/
def priorityGe (a b : ℚ × ℚ) : Prop :=
  b.1 < a.1 ∨ (a.1 = b.1 ∧ b.2 ≤ a.2)

theorem select_canonical_cases (a b : Node) :
    select_canonical a b = (a, b) ∨ select_canonical a b = (b, a) := by
  unfold select_canonical
  by_cases h : (nodePriority a).1 < (nodePriority b).1 ∨
      ((nodePriority a).1 = (nodePriority b).1 ∧
        (nodePriority a).2 < (nodePriority b).2)
  · rw [if_pos h]
    exact Or.inr rfl
  · rw [if_neg h]
    exact Or.inl rfl

theorem select_canonical_ge (a b : Node) :
    priorityGe (nodePriority (select_canonical a b).1)
      (nodePriority (select_canonical a b).2) := by
  unfold select_canonical
  by_cases h : (nodePriority a).1 < (nodePriority b).1 ∨
      ((nodePriority a).1 = (nodePriority b).1 ∧
        (nodePriority a).2 < (nodePriority b).2)
  · rw [if_pos h]
    rcases h with h | h
    · exact Or.inl h
    · exact Or.inr ⟨h.1.symm, le_of_lt h.2⟩
  · rw [if_neg h]
    push_neg at h
    rcases lt_or_le (nodePriority b).1 (nodePriority a).1 with h1 | h1
    · exact Or.inl h1
    · have he : (nodePriority a).1 = (nodePriority b).1 :=
        le_antisymm h1 h.1
      exact Or.inr ⟨he, h.2 he⟩

/-- The (original, current) edge pairs of both stores, in position. -/
def edgePairs (g0 g : KnowledgeGraph) : List (Edge × Edge) :=
  g0.operational_edges.zip g.operational_edges ++
    g0.long_term_edges.zip g.long_term_edges

theorem keys_eq_ids :
    ∀ l : List (String × Node), (∀ p ∈ l, p.2.id = p.1) →
      l.map Prod.fst = (l.map Prod.snd).map Node.id
  | [], _ => rfl
  | (k, n) :: rest, h => by
      have hk := h (k, n) (List.mem_cons_self _ _)
      simp only [List.map_cons]
      rw [keys_eq_ids rest fun p hp => h p (List.mem_cons.mpr (Or.inr hp))]
      rw [show ((k, n).2.id = (k, n).1) from hk]

theorem kg_keys_nodup (g0 : KnowledgeGraph)
    (hkop : ∀ p ∈ g0.operational_nodes, p.2.id = p.1)
    (hklt : ∀ p ∈ g0.long_term_nodes, p.2.id = p.1)
    (hnd : ((g0.nodes).map Node.id).Nodup) :
    (g0.operational_nodes.map Prod.fst ++
      g0.long_term_nodes.map Prod.fst).Nodup := by
  rw [keys_eq_ids g0.operational_nodes hkop, keys_eq_ids g0.long_term_nodes hklt]
  rw [← List.map_append]
  exact hnd

/-- The loop invariant of `deduplicate_embeddings`, relating the current
state (graph `g`, `seen`, `dups`) to the starting graph `g0` with the
snapshot split into processed (`done`) and remaining (`todo`) nodes. -/
structure DedupInv (g0 : KnowledgeGraph) (done todo : List Node)
    (g : KnowledgeGraph) (seen : List Node)
    (dups : List (String × String)) : Prop where
  sub_op : g.operational_nodes.Sublist g0.operational_nodes
  sub_lt : g.long_term_nodes.Sublist g0.long_term_nodes
  len_op : g.operational_edges.length = g0.operational_edges.length
  len_lt : g.long_term_edges.length = g0.long_term_edges.length
  wf : ∀ e ∈ g.operational_edges ++ g.long_term_edges, redirectsWF e
  pres : ∀ pr ∈ edgePairs g0 g,
    (pr.2.source = pr.1.source ∨ ∃ p ∈ dups, pr.1.source = p.2) ∧
    (pr.2.target = pr.1.target ∨ ∃ p ∈ dups, pr.1.target = p.2)
  noref : ∀ p ∈ dups, ∀ e ∈ g.operational_edges ++ g.long_term_edges,
    ¬(e.source = p.2) ∧ ¬(e.target = p.2)
  redir : ∀ p ∈ dups, ∀ pr ∈ edgePairs g0 g,
    (pr.1.source = p.2 ∨ pr.1.target = p.2) → hasRedirect pr.2 p.2 p.1
  dead : ∀ p ∈ dups, g.get_node p.2 = none
  seen_done : ∀ n ∈ seen, n ∈ done
  seen_live : ∀ n ∈ seen, g.get_node n.id = some n
  todo_live : ∀ n ∈ todo, g.get_node n.id = some n
  canon : ∀ p ∈ dups, ∃ nc ∈ g0.nodes, ∃ nd ∈ g0.nodes,
    nc.id = p.1 ∧ nd.id = p.2 ∧
    priorityGe (nodePriority nc) (nodePriority nd)

theorem merge_inv (g0 : KnowledgeGraph)
    (hkop : ∀ p ∈ g0.operational_nodes, p.2.id = p.1)
    (hklt : ∀ p ∈ g0.long_term_nodes, p.2.id = p.1)
    (hnd : ((g0.nodes).map Node.id).Nodup)
    (done : List Node) (node : Node) (todo : List Node)
    (hsplit : g0.nodes = done ++ node :: todo)
    (g : KnowledgeGraph) (seen : List Node)
    (dups : List (String × String))
    (inv : DedupInv g0 done (node :: todo) g seen dups)
    (m : Node) (hm_seen : m ∈ seen) :
    DedupInv g0 (done ++ [node]) todo
      ((g.redirect_edges (select_canonical m node).2.id
          (select_canonical m node).1.id).remove_node
        (select_canonical m node).2.id)
      (seen.map fun candidate =>
        if candidate.id = m.id then (select_canonical m node).1
        else candidate)
      (dups ++ [((select_canonical m node).1.id,
        (select_canonical m node).2.id)]) := by
  have hge := select_canonical_ge m node
  have hcase := select_canonical_cases m node
  have hm_done := inv.seen_done m hm_seen
  have m_live := inv.seen_live m hm_seen
  have node_live := inv.todo_live node (List.mem_cons_self _ _)
  have hdisj : List.Disjoint (done.map Node.id)
      ((node :: todo).map Node.id) := by
    rw [hsplit, List.map_append] at hnd
    exact List.disjoint_of_nodup_append hnd
  have hmn : m.id ≠ node.id := by
    intro he
    rw [he, node_live] at m_live
    have hmeq : node = m := Option.some.inj m_live
    refine hdisj (List.mem_map.mpr ⟨m, hm_done, rfl⟩) ?_
    rw [List.map_cons]
    exact List.mem_cons.mpr (Or.inl (by rw [hmeq]))
  have c_live : g.get_node (select_canonical m node).1.id =
      some (select_canonical m node).1 := by
    rcases hcase with h | h <;> rw [h]
    · exact m_live
    · exact node_live
  have d_live : g.get_node (select_canonical m node).2.id =
      some (select_canonical m node).2 := by
    rcases hcase with h | h <;> rw [h]
    · exact node_live
    · exact m_live
  have hcd : (select_canonical m node).1.id ≠
      (select_canonical m node).2.id := by
    rcases hcase with h | h <;> rw [h]
    · exact hmn
    · exact fun he => hmn he.symm
  have hc_nd : ∀ p ∈ dups, (select_canonical m node).1.id ≠ p.2 := by
    intro p hp he
    have hdead := inv.dead p hp
    rw [← he, c_live] at hdead
    exact Option.noConfusion hdead
  have hd_nd : ∀ p ∈ dups, (select_canonical m node).2.id ≠ p.2 := by
    intro p hp he
    have hdead := inv.dead p hp
    rw [← he, d_live] at hdead
    exact Option.noConfusion hdead
  have hgkeys : (g.operational_nodes.map Prod.fst ++
      g.long_term_nodes.map Prod.fst).Nodup :=
    List.Nodup.sublist
      (List.Sublist.append (inv.sub_op.map Prod.fst)
        (inv.sub_lt.map Prod.fst))
      (kg_keys_nodup g0 hkop hklt hnd)
  have hop2 : ((g.redirect_edges (select_canonical m node).2.id
      (select_canonical m node).1.id).remove_node
        (select_canonical m node).2.id).operational_edges =
      g.operational_edges.map
        (redirectEdge (select_canonical m node).2.id
          (select_canonical m node).1.id) :=
    (remove_node_edges _ _).1
  have hlt2 : ((g.redirect_edges (select_canonical m node).2.id
      (select_canonical m node).1.id).remove_node
        (select_canonical m node).2.id).long_term_edges =
      g.long_term_edges.map
        (redirectEdge (select_canonical m node).2.id
          (select_canonical m node).1.id) :=
    (remove_node_edges _ _).2
  have hpairs2 : edgePairs g0
      ((g.redirect_edges (select_canonical m node).2.id
        (select_canonical m node).1.id).remove_node
          (select_canonical m node).2.id) =
      (edgePairs g0 g).map
        (Prod.map id (redirectEdge (select_canonical m node).2.id
          (select_canonical m node).1.id)) := by
    unfold edgePairs
    rw [hop2, hlt2, List.zip_map_right, List.zip_map_right,
      List.map_append]
  have hget_other : ∀ x : String, x ≠ (select_canonical m node).2.id →
      ((g.redirect_edges (select_canonical m node).2.id
        (select_canonical m node).1.id).remove_node
          (select_canonical m node).2.id).get_node x = g.get_node x := by
    intro x hx
    exact remove_node_get_other _ hx
  have hget_d : ((g.redirect_edges (select_canonical m node).2.id
      (select_canonical m node).1.id).remove_node
        (select_canonical m node).2.id).get_node
      (select_canonical m node).2.id = none :=
    remove_node_get_self _ _ hgkeys
  refine ⟨?_, ?_, ?_, ?_, ?_, ?_, ?_, ?_, ?_, ?_, ?_, ?_, ?_⟩
  · exact List.Sublist.trans (remove_node_sublist _ _).1 inv.sub_op
  · exact List.Sublist.trans (remove_node_sublist _ _).2 inv.sub_lt
  · rw [hop2, List.length_map]
    exact inv.len_op
  · rw [hlt2, List.length_map]
    exact inv.len_lt
  · intro e he
    rw [hop2, hlt2, ← List.map_append] at he
    rcases List.mem_map.mp he with ⟨e0, he0, hee⟩
    rw [← hee]
    exact redirectEdge_wf _ _ e0 (inv.wf e0 he0)
  · intro pr hpr
    rw [hpairs2] at hpr
    rcases List.mem_map.mp hpr with ⟨pr0, hpr0, hpee⟩
    rw [← hpee]
    have hold := inv.pres pr0 hpr0
    constructor
    · show (redirectEdge (select_canonical m node).2.id
          (select_canonical m node).1.id pr0.2).source = pr0.1.source ∨
        ∃ p ∈ dups ++ [((select_canonical m node).1.id,
          (select_canonical m node).2.id)], pr0.1.source = p.2
      rw [redirectEdge_source]
      by_cases hs : pr0.2.source = (select_canonical m node).2.id
      · rw [if_pos hs]
        rcases hold.1 with h1 | ⟨p, hp, h1⟩
        · refine Or.inr ⟨((select_canonical m node).1.id,
            (select_canonical m node).2.id),
            List.mem_append.mpr (Or.inr (List.mem_singleton.mpr rfl)), ?_⟩
          rw [← h1]
          exact hs
        · exact Or.inr ⟨p, List.mem_append.mpr (Or.inl hp), h1⟩
      · rw [if_neg hs]
        rcases hold.1 with h1 | ⟨p, hp, h1⟩
        · exact Or.inl h1
        · exact Or.inr ⟨p, List.mem_append.mpr (Or.inl hp), h1⟩
    · show (redirectEdge (select_canonical m node).2.id
          (select_canonical m node).1.id pr0.2).target = pr0.1.target ∨
        ∃ p ∈ dups ++ [((select_canonical m node).1.id,
          (select_canonical m node).2.id)], pr0.1.target = p.2
      rw [redirectEdge_target]
      by_cases hs : pr0.2.target = (select_canonical m node).2.id
      · rw [if_pos hs]
        rcases hold.2 with h1 | ⟨p, hp, h1⟩
        · refine Or.inr ⟨((select_canonical m node).1.id,
            (select_canonical m node).2.id),
            List.mem_append.mpr (Or.inr (List.mem_singleton.mpr rfl)), ?_⟩
          rw [← h1]
          exact hs
        · exact Or.inr ⟨p, List.mem_append.mpr (Or.inl hp), h1⟩
      · rw [if_neg hs]
        rcases hold.2 with h1 | ⟨p, hp, h1⟩
        · exact Or.inl h1
        · exact Or.inr ⟨p, List.mem_append.mpr (Or.inl hp), h1⟩
  · intro p hp e he
    rw [hop2, hlt2, ← List.map_append] at he
    rcases List.mem_map.mp he with ⟨e0, he0, hee⟩
    rw [← hee]
    rcases List.mem_append.mp hp with hpold | hpnew
    · have hold := inv.noref p hpold e0 he0
      constructor
      · rw [redirectEdge_source]
        by_cases hs : e0.source = (select_canonical m node).2.id
        · rw [if_pos hs]
          exact hc_nd p hpold
        · rw [if_neg hs]
          exact hold.1
      · rw [redirectEdge_target]
        by_cases hs : e0.target = (select_canonical m node).2.id
        · rw [if_pos hs]
          exact hc_nd p hpold
        · rw [if_neg hs]
          exact hold.2
    · have hpd : p.2 = (select_canonical m node).2.id := by
        rw [List.mem_singleton.mp hpnew]
      rw [hpd]
      constructor
      · rw [redirectEdge_source]
        by_cases hs : e0.source = (select_canonical m node).2.id
        · rw [if_pos hs]
          exact hcd
        · rw [if_neg hs]
          exact hs
      · rw [redirectEdge_target]
        by_cases hs : e0.target = (select_canonical m node).2.id
        · rw [if_pos hs]
          exact hcd
        · rw [if_neg hs]
          exact hs
  · intro p hp pr hpr href
    rw [hpairs2] at hpr
    rcases List.mem_map.mp hpr with ⟨pr0, hpr0, hpee⟩
    have hfst : pr.1 = pr0.1 := by
      rw [← hpee]
      rfl
    have hsnd : pr.2 = redirectEdge (select_canonical m node).2.id
        (select_canonical m node).1.id pr0.2 := by
      rw [← hpee]
      rfl
    have hmem2 : pr0.2 ∈ g.operational_edges ++ g.long_term_edges := by
      rcases List.mem_append.mp hpr0 with hz | hz
      · exact List.mem_append.mpr (Or.inl
          (List.mem_zip (show (pr0.1, pr0.2) ∈ _ from hz)).2)
      · exact List.mem_append.mpr (Or.inr
          (List.mem_zip (show (pr0.1, pr0.2) ∈ _ from hz)).2)
    rcases List.mem_append.mp hp with hpold | hpnew
    · rw [hsnd]
      exact redirectEdge_keeps _ _ _
        (inv.redir p hpold pr0 hpr0 (by rw [← hfst]; exact href))
    · have hpeq := List.mem_singleton.mp hpnew
      have hold := inv.pres pr0 hpr0
      have href2 : pr0.2.source = (select_canonical m node).2.id ∨
          pr0.2.target = (select_canonical m node).2.id := by
        rw [hpeq] at href
        rw [hfst] at href
        rcases href with h | h
        · rcases hold.1 with h1 | ⟨q, hq, h1⟩
          · left
            rw [h1, h]
          · exfalso
            exact hd_nd q hq (by rw [← h1, h])
        · rcases hold.2 with h1 | ⟨q, hq, h1⟩
          · right
            rw [h1, h]
          · exfalso
            exact hd_nd q hq (by rw [← h1, h])
      rw [hsnd, hpeq]
      exact redirectEdge_adds _ _ pr0.2 href2 (inv.wf pr0.2 hmem2)
  · intro p hp
    rcases List.mem_append.mp hp with hpold | hpnew
    · rw [hget_other p.2 (fun he => hd_nd p hpold he.symm)]
      exact inv.dead p hpold
    · rw [List.mem_singleton.mp hpnew]
      exact hget_d
  · intro x hx
    rcases List.mem_map.mp hx with ⟨candidate, hcand, hxc⟩
    by_cases hid : candidate.id = m.id
    · rw [if_pos hid] at hxc
      rw [← hxc]
      rcases hcase with h | h <;> rw [h]
      · exact List.mem_append.mpr (Or.inl hm_done)
      · exact List.mem_append.mpr (Or.inr (List.mem_singleton.mpr rfl))
    · rw [if_neg hid] at hxc
      rw [← hxc]
      exact List.mem_append.mpr (Or.inl (inv.seen_done candidate hcand))
  · intro x hx
    rcases List.mem_map.mp hx with ⟨candidate, hcand, hxc⟩
    by_cases hid : candidate.id = m.id
    · rw [if_pos hid] at hxc
      rw [← hxc]
      rw [hget_other _ hcd]
      exact c_live
    · rw [if_neg hid] at hxc
      rw [← hxc]
      have hcl := inv.seen_live candidate hcand
      have hcd2 : candidate.id ≠ (select_canonical m node).2.id := by
        rcases hcase with h | h
        · intro he
          rw [h] at he
          have hnl := node_live
          rw [← he, hcl] at hnl
          have hceq : candidate = node := Option.some.inj hnl
          refine hdisj (List.mem_map.mpr
            ⟨candidate, inv.seen_done candidate hcand, rfl⟩) ?_
          rw [List.map_cons]
          exact List.mem_cons.mpr (Or.inl (by rw [hceq]))
        · intro he
          rw [h] at he
          exact hid he
      rw [hget_other _ hcd2]
      exact hcl
  · intro x hx
    have hxl := inv.todo_live x (List.mem_cons.mpr (Or.inr hx))
    have hxd : x.id ≠ (select_canonical m node).2.id := by
      rcases hcase with h | h
      · intro he
        rw [h] at he
        have hnl := node_live
        rw [← he, hxl] at hnl
        have hxeq : x = node := Option.some.inj hnl
        have hnodup2 : ((node :: todo).map Node.id).Nodup := by
          rw [hsplit, List.map_append] at hnd
          exact (List.nodup_append.mp hnd).2.1
        rw [List.map_cons] at hnodup2
        exact (List.nodup_cons.mp hnodup2).1
          (List.mem_map.mpr ⟨x, hx, by rw [hxeq]⟩)
      · intro he
        rw [h] at he
        have hml := m_live
        rw [← he, hxl] at hml
        have hxeq : x = m := Option.some.inj hml
        refine hdisj (List.mem_map.mpr ⟨m, hm_done, rfl⟩) ?_
        rw [List.map_cons]
        refine List.mem_cons.mpr (Or.inr (List.mem_map.mpr ⟨x, hx, ?_⟩))
        rw [hxeq]
    rw [hget_other _ hxd]
    exact hxl
  · intro p hp
    rcases List.mem_append.mp hp with hpold | hpnew
    · exact inv.canon p hpold
    · rw [List.mem_singleton.mp hpnew]
      refine ⟨(select_canonical m node).1, ?_,
        (select_canonical m node).2, ?_, rfl, rfl, hge⟩
      · rw [hsplit]
        rcases hcase with h | h <;> rw [h]
        · exact List.mem_append.mpr (Or.inl hm_done)
        · exact List.mem_append.mpr
            (Or.inr (List.mem_cons.mpr (Or.inl rfl)))
      · rw [hsplit]
        rcases hcase with h | h <;> rw [h]
        · exact List.mem_append.mpr
            (Or.inr (List.mem_cons.mpr (Or.inl rfl)))
        · exact List.mem_append.mpr (Or.inl hm_done)

theorem dedupStep_inv (g0 : KnowledgeGraph)
    (hkop : ∀ p ∈ g0.operational_nodes, p.2.id = p.1)
    (hklt : ∀ p ∈ g0.long_term_nodes, p.2.id = p.1)
    (hnd : ((g0.nodes).map Node.id).Nodup) (t : ℚ)
    (done : List Node) (node : Node) (todo : List Node)
    (hsplit : g0.nodes = done ++ node :: todo)
    (g : KnowledgeGraph) (seen : List Node)
    (dups : List (String × String))
    (inv : DedupInv g0 done (node :: todo) g seen dups) :
    DedupInv g0 (done ++ [node]) todo
      (dedupStep t (g, seen, dups) node).1
      (dedupStep t (g, seen, dups) node).2.1
      (dedupStep t (g, seen, dups) node).2.2 := by
  by_cases hemb : node.embedding.isEmpty
  · have hstep : dedupStep t (g, seen, dups) node = (g, seen, dups) := by
      unfold dedupStep
      rw [if_pos hemb]
    rw [hstep]
    exact { inv with
      seen_done := fun n hn =>
        List.mem_append.mpr (Or.inl (inv.seen_done n hn))
      todo_live := fun n hn =>
        inv.todo_live n (List.mem_cons.mpr (Or.inr hn)) }
  · cases hfind : find_matching_node seen node.embedding t with
    | none =>
        have hstep : dedupStep t (g, seen, dups) node =
            (g, seen ++ [node], dups) := by
          unfold dedupStep
          rw [if_neg hemb]
          rw [show find_matching_node (g, seen, dups).2.1
            node.embedding t = none from hfind]
        rw [hstep]
        exact { inv with
          seen_done := fun n hn => by
            rcases List.mem_append.mp hn with h | h
            · exact List.mem_append.mpr (Or.inl (inv.seen_done n h))
            · rw [List.mem_singleton.mp h]
              exact List.mem_append.mpr
                (Or.inr (List.mem_singleton.mpr rfl))
          seen_live := fun n hn => by
            rcases List.mem_append.mp hn with h | h
            · exact inv.seen_live n h
            · rw [List.mem_singleton.mp h]
              exact inv.todo_live node (List.mem_cons_self _ _)
          todo_live := fun n hn =>
            inv.todo_live n (List.mem_cons.mpr (Or.inr hn)) }
    | some m =>
        have hm_seen : m ∈ seen := List.mem_of_find?_eq_some hfind
        have hstep : dedupStep t (g, seen, dups) node =
            ((g.redirect_edges (select_canonical m node).2.id
                (select_canonical m node).1.id).remove_node
              (select_canonical m node).2.id,
             seen.map fun candidate =>
               if candidate.id = m.id then (select_canonical m node).1
               else candidate,
             dups ++ [((select_canonical m node).1.id,
               (select_canonical m node).2.id)]) := by
          unfold dedupStep
          rw [if_neg hemb]
          rw [show find_matching_node (g, seen, dups).2.1
            node.embedding t = some m from hfind]
        rw [hstep]
        exact merge_inv g0 hkop hklt hnd done node todo hsplit g seen
          dups inv m hm_seen

theorem dedup_fold_inv (g0 : KnowledgeGraph)
    (hkop : ∀ p ∈ g0.operational_nodes, p.2.id = p.1)
    (hklt : ∀ p ∈ g0.long_term_nodes, p.2.id = p.1)
    (hnd : ((g0.nodes).map Node.id).Nodup) (t : ℚ) :
    ∀ (todo done : List Node) (g : KnowledgeGraph) (seen : List Node)
      (dups : List (String × String)),
      g0.nodes = done ++ todo →
      DedupInv g0 done todo g seen dups →
      DedupInv g0 (done ++ todo) []
        (todo.foldl (dedupStep t) (g, seen, dups)).1
        (todo.foldl (dedupStep t) (g, seen, dups)).2.1
        (todo.foldl (dedupStep t) (g, seen, dups)).2.2
  | [], done, g, seen, dups, hsplit, inv => by
      simpa using inv
  | node :: todo, done, g, seen, dups, hsplit, inv => by
      have hstep := dedupStep_inv g0 hkop hklt hnd t done node todo
        hsplit g seen dups inv
      have hrec := dedup_fold_inv g0 hkop hklt hnd t todo (done ++ [node])
        (dedupStep t (g, seen, dups) node).1
        (dedupStep t (g, seen, dups) node).2.1
        (dedupStep t (g, seen, dups) node).2.2
        (by rw [hsplit, List.append_assoc]; rfl) hstep
      have hshape : (done ++ [node]) ++ todo = done ++ node :: todo := by
        rw [List.append_assoc]
        rfl
      rw [hshape] at hrec
      exact hrec

theorem mem_zip_same {α : Type} :
    ∀ (l : List α) (pr : α × α), pr ∈ l.zip l → pr.1 = pr.2
  | [], _, h => by simp at h
  | x :: rest, pr, h => by
      rcases List.mem_cons.mp (by simpa [List.zip_cons_cons] using h)
        with h1 | h1
      · rw [h1]
      · exact mem_zip_same rest pr h1

theorem get_node_of_mem (g0 : KnowledgeGraph)
    (hkop : ∀ p ∈ g0.operational_nodes, p.2.id = p.1)
    (hklt : ∀ p ∈ g0.long_term_nodes, p.2.id = p.1)
    (hnd : ((g0.nodes).map Node.id).Nodup) :
    ∀ n ∈ g0.nodes, g0.get_node n.id = some n := by
  have hkeys := kg_keys_nodup g0 hkop hklt hnd
  have hkop_nd : (g0.operational_nodes.map Prod.fst).Nodup :=
    (List.nodup_append.mp hkeys).1
  have hklt_nd : (g0.long_term_nodes.map Prod.fst).Nodup :=
    (List.nodup_append.mp hkeys).2.1
  have hdisj := List.disjoint_of_nodup_append hkeys
  intro n hn
  rcases List.mem_append.mp hn with h | h
  · rcases List.mem_map.mp h with ⟨p, hp, hpn⟩
    have hid : p.1 = n.id := by
      rw [← hkop p hp, hpn]
    have hget : dictGet n.id g0.operational_nodes = some n := by
      rw [← hid]
      exact dictGet_of_mem_nodup g0.operational_nodes
        (by rw [show (p.1, n) = p from Prod.ext rfl hpn.symm]; exact hp)
        hkop_nd
    unfold KnowledgeGraph.get_node
    rw [hget]
  · rcases List.mem_map.mp h with ⟨p, hp, hpn⟩
    have hid : p.1 = n.id := by
      rw [← hklt p hp, hpn]
    have hnotop : n.id ∉ g0.operational_nodes.map Prod.fst := by
      intro hmem
      exact hdisj hmem (hid ▸ List.mem_map.mpr ⟨p, hp, rfl⟩)
    have hget : dictGet n.id g0.long_term_nodes = some n := by
      rw [← hid]
      exact dictGet_of_mem_nodup g0.long_term_nodes
        (by rw [show (p.1, n) = p from Prod.ext rfl hpn.symm]; exact hp)
        hklt_nd
    unfold KnowledgeGraph.get_node
    rw [dictGet_none_of_not_mem _ _ hnotop, hget]

theorem dedup_initial_inv (g0 : KnowledgeGraph)
    (hkop : ∀ p ∈ g0.operational_nodes, p.2.id = p.1)
    (hklt : ∀ p ∈ g0.long_term_nodes, p.2.id = p.1)
    (hnd : ((g0.nodes).map Node.id).Nodup)
    (hwf : ∀ e ∈ g0.operational_edges ++ g0.long_term_edges,
      redirectsWF e) :
    DedupInv g0 [] g0.nodes g0 [] [] := by
  refine ⟨List.Sublist.refl _, List.Sublist.refl _, rfl, rfl, hwf,
    ?_, ?_, ?_, ?_, ?_, ?_, ?_, ?_⟩
  · intro pr hpr
    have heq : pr.1 = pr.2 := by
      rcases List.mem_append.mp hpr with h | h
      · exact mem_zip_same _ pr h
      · exact mem_zip_same _ pr h
    constructor
    · exact Or.inl (by rw [heq])
    · exact Or.inl (by rw [heq])
  · intro p hp
    simp at hp
  · intro p hp
    simp at hp
  · intro p hp
    simp at hp
  · intro n hn
    simp at hn
  · intro n hn
    simp at hn
  · exact get_node_of_mem g0 hkop hklt hnd
  · intro p hp
    simp at hp

/-- C5 (amended): in a graph whose stores are keyed by the node ids,
whose node ids are globally unique ACROSS the two tiers (the claim is
false without this, see the counterexample), and whose edge `redirects`
metadata values are lists, every pair (canonical, duplicate) returned
by `deduplicate_embeddings` satisfies: the duplicate id resolves to no
node; no edge of the resulting graph references the duplicate id; every
edge position whose ORIGINAL edge referenced the duplicate id carries
the redirect entry `from: duplicate, to: canonical` in the resulting
edge at the same position; and the pair ids belong to original nodes
whose (memory == long_term, confidence) priority is at least as high
for the canonical as for the duplicate. -/
theorem C5_dedup_spec (g : KnowledgeGraph) (t : ℚ)
    (hkop : ∀ p ∈ g.operational_nodes, p.2.id = p.1)
    (hklt : ∀ p ∈ g.long_term_nodes, p.2.id = p.1)
    (hnd : ((g.nodes).map Node.id).Nodup)
    (hwf : ∀ e ∈ g.operational_edges ++ g.long_term_edges,
      redirectsWF e) :
    ∀ p ∈ (g.deduplicate_embeddings t).2,
      (g.deduplicate_embeddings t).1.get_node p.2 = none ∧
      (∀ e ∈ (g.deduplicate_embeddings t).1.operational_edges ++
          (g.deduplicate_embeddings t).1.long_term_edges,
        ¬(e.source = p.2) ∧ ¬(e.target = p.2)) ∧
      (∀ pr ∈ edgePairs g (g.deduplicate_embeddings t).1,
        (pr.1.source = p.2 ∨ pr.1.target = p.2) →
          hasRedirect pr.2 p.2 p.1) ∧
      (∃ nc ∈ g.nodes, ∃ nd ∈ g.nodes, nc.id = p.1 ∧ nd.id = p.2 ∧
        priorityGe (nodePriority nc) (nodePriority nd)) := by
  have h0 := dedup_initial_inv g hkop hklt hnd hwf
  have hfold := dedup_fold_inv g hkop hklt hnd t g.nodes [] g [] []
    rfl h0
  intro p hp
  have hp2 : p ∈ (g.nodes.foldl (dedupStep t) (g, [], [])).2.2 := hp
  exact ⟨hfold.dead p hp2, hfold.noref p hp2, hfold.redir p hp2,
    hfold.canon p hp2⟩

/-- Concrete graph for the C5 witness: two operational nodes with the
same embedding and an edge referencing the lower-confidence one. -/
def gd5 : KnowledgeGraph :=
  { operational_nodes :=
      [("a", { id := "a", type := "fact", text := "ta", sources := []
             , confidence := 9/10, embedding := [1, 0], metadata := []
             , memory := "operational" }),
       ("b", { id := "b", type := "fact", text := "tb", sources := []
             , confidence := 1/10, embedding := [1, 0], metadata := []
             , memory := "operational" })]
  , long_term_nodes := []
  , operational_edges :=
      [{ source := "b", target := "z", relation := "supports"
       , weight := 1, memory := "operational", metadata := [] }]
  , long_term_edges := []
  , pending_updates := [] }

/-- Witness for C5 at a concrete merge: node b is folded into node a,
the edge is redirected and annotated, and a outranks b. -/
theorem C5_witness :
    ("a", "b") ∈ (gd5.deduplicate_embeddings (199/200)).2 ∧
    ((gd5.deduplicate_embeddings (199/200)).1.get_node ("a", "b").2 =
        none ∧
      (∀ e ∈ (gd5.deduplicate_embeddings (199/200)).1.operational_edges ++
          (gd5.deduplicate_embeddings (199/200)).1.long_term_edges,
        ¬(e.source = ("a", "b").2) ∧ ¬(e.target = ("a", "b").2)) ∧
      (∀ pr ∈ edgePairs gd5 (gd5.deduplicate_embeddings (199/200)).1,
        (pr.1.source = ("a", "b").2 ∨ pr.1.target = ("a", "b").2) →
          hasRedirect pr.2 ("a", "b").2 ("a", "b").1) ∧
      (∃ nc ∈ gd5.nodes, ∃ nd ∈ gd5.nodes, nc.id = ("a", "b").1 ∧
        nd.id = ("a", "b").2 ∧
        priorityGe (nodePriority nc) (nodePriority nd))) :=
  ⟨by with_unfolding_all decide,
   C5_dedup_spec gd5 (199/200) (by decide) (by decide) (by decide)
     (by decide) ("a", "b") (by with_unfolding_all decide)⟩

/-- A graph with the same id in both tiers: the long-term copy has no
embedding, the operational copy merges into node a. -/
def g5bad : KnowledgeGraph :=
  { operational_nodes :=
      [("a", { id := "a", type := "fact", text := "ta", sources := []
             , confidence := 9/10, embedding := [1, 0], metadata := []
             , memory := "operational" }),
       ("x", { id := "x", type := "fact", text := "tx", sources := []
             , confidence := 1/10, embedding := [1, 0], metadata := []
             , memory := "operational" })]
  , long_term_nodes :=
      [("x", { id := "x", type := "fact", text := "tx2", sources := []
             , confidence := 1/2, embedding := [], metadata := []
             , memory := "long_term" })]
  , operational_edges := [], long_term_edges := []
  , pending_updates := [] }

/-- C5 counterexample: with the id x present in both tiers,
deduplicate_embeddings reports (a, x) but `_remove_node` (an
`if`/`elif`) deletes only the operational copy, so `get_node("x")` is
still not None, refuting the claimed post-condition. -/
theorem C5_counterexample :
    (g5bad.deduplicate_embeddings (199/200)).2 = [("a", "x")] ∧
    ¬ ((g5bad.deduplicate_embeddings (199/200)).1.get_node "x" =
      none) := by
  with_unfolding_all decide
